import Mathlib

/-!
# Verification of the `struct-iou` repository

A shallow embedding, in Lean 4, of the `structiou` Python package:

* `structiou/utils.py` : `eps_eq`, `span_iou`;
* `structiou/data.py`  : `ExtendedTree` (a labelled tree whose nodes carry a
  pre-order `index`, a `time_range` and a `leaf_range`) and its constructor
  `from_tree_and_leaf_timestamps`;
* `structiou/metrics.py` : `TreeAligner` (the interval dynamic program that
  aligns two annotated trees) and the entry point `struct_iou`.

Python floats are embedded as rationals (`ℚ`), Python ints as `Int`/`Nat`,
Python tuples as products, exceptions as `Option`.  Numpy arrays are embedded
as total functions from indices; the only writes performed by the code stay
inside the allocated bounds for the well-formed trees the theorems quantify
over.  The memoisation tables of `TreeAligner` cache the value of a pure
function of the node pair (the sentinel `-1` is smaller than every computed
weight, which is nonnegative, so a memo hit returns exactly what the
recursive computation would), hence `align` is embedded as the corresponding
pure recursive function.
-/

namespace StructIoU

/-- `eps` – the literal `1e-6` used as the default epsilon throughout
`utils.py` and `metrics.py`. -/
def eps : ℚ := 1 / 1000000

/-- `utils.eps_eq(x, y, eps)`: `abs(x - y) < eps`. -/
def eps_eq (x y e : ℚ) : Prop := |x - y| < e

instance (x y e : ℚ) : Decidable (eps_eq x y e) := by
  unfold eps_eq; infer_instance

/-- `utils.span_iou(span1, span2, eps)`: intersection over union of two
intervals, returning `0` when either the intersection width or the union
width is below `eps`. -/
def span_iou (span1 span2 : ℚ × ℚ) (e : ℚ := eps) : ℚ :=
  let intersection := min span1.2 span2.2 - max span1.1 span2.1
  let union := max span1.2 span2.2 - min span1.1 span2.1
  if intersection < e ∨ union < e then 0 else intersection / union

/-- Python list indexing `l[i]` (negative indices count from the end,
out-of-range access raises, embedded as `none`). -/
def pyGet {α : Type} (l : List α) (i : Int) : Option α :=
  if 0 ≤ i then l.get? i.toNat
  else if 0 ≤ i + l.length then l.get? (i + l.length).toNat
  else none

/-- Python `range(n)` as a list of `Int` (empty when `n ≤ 0`). -/
def pyRange (n : Int) : List Int := (List.range n.toNat).map Int.ofNat

/-! ## The input trees (`nltk.Tree` values fed to the constructor)

A node of an `nltk.Tree` has a label and a list of children, each child being
either a terminal string or a subtree. -/

/-- The label trees handed to `ExtendedTree.from_tree_and_leaf_timestamps`:
each child is either a terminal token (`Sum.inl`) or a subtree (`Sum.inr`). -/
inductive PyTree : Type where
  | mk (label : String) (children : List (String ⊕ PyTree))

/-- The label of a `PyTree` node (`node.label()`). -/
def PyTree.label : PyTree → String
  | .mk lab _ => lab

/-- The children list of a `PyTree` node. -/
def PyTree.children : PyTree → List (String ⊕ PyTree)
  | .mk _ cs => cs

mutual
/-- `len(node.leaves())` for an `nltk.Tree`: the number of terminal strings
below the node (a string child counts 1, a subtree child counts its own
leaves). -/
def PyTree.leavesCount : PyTree → Nat
  | .mk _ cs => leavesCountChildren cs

/-- Leaf count of a list of children. -/
def leavesCountChildren : List (String ⊕ PyTree) → Nat
  | [] => 0
  | .inl _ :: rest => 1 + leavesCountChildren rest
  | .inr t :: rest => PyTree.leavesCount t + leavesCountChildren rest
end

/-! ## `ExtendedTree` (`structiou/data.py`) -/

/-- `data.ExtendedTree`: an `nltk.Tree` node augmented with its pre-order
`index`, its `time_range` and its (closed, 1-based) `leaf_range`.  Children
are terminal strings or subtrees, exactly as in `PyTree`. -/
inductive ETree : Type where
  | mk (index : Nat) (timeRange : ℚ × ℚ) (leafRange : Int × Int)
       (label : String) (children : List (String ⊕ ETree))

/-- `node.index()`. -/
def ETree.index : ETree → Nat
  | .mk i _ _ _ _ => i

/-- `node.time_range()`. -/
def ETree.timeRange : ETree → ℚ × ℚ
  | .mk _ tr _ _ _ => tr

/-- `node.leaf_range()`. -/
def ETree.leafRange : ETree → Int × Int
  | .mk _ _ lr _ _ => lr

/-- `node.label()`. -/
def ETree.label : ETree → String
  | .mk _ _ _ lab _ => lab

/-- The children list of an `ExtendedTree` node. -/
def ETree.children : ETree → List (String ⊕ ETree)
  | .mk _ _ _ _ cs => cs

mutual
/-- A size measure on `ETree` (number of tree nodes), used for termination. -/
def ETree.size : ETree → Nat
  | .mk _ _ _ _ cs => 1 + sizeChildren cs

/-- Size of a children list (string children contribute nothing). -/
def sizeChildren : List (String ⊕ ETree) → Nat
  | [] => 0
  | .inl _ :: rest => sizeChildren rest
  | .inr t :: rest => ETree.size t + sizeChildren rest
end

mutual
/-- `len(node.leaves())` for an `ExtendedTree` (inherited from `nltk.Tree`). -/
def ETree.leavesCount : ETree → Nat
  | .mk _ _ _ _ cs => eLeavesCountChildren cs

/-- Leaf count of an `ExtendedTree` children list. -/
def eLeavesCountChildren : List (String ⊕ ETree) → Nat
  | [] => 0
  | .inl _ :: rest => 1 + eLeavesCountChildren rest
  | .inr t :: rest => ETree.leavesCount t + eLeavesCountChildren rest
end

mutual
/-- The pre-order list of tree nodes below (and including) a node: the keys
and values of the `_index2node` dictionary built in `ExtendedTree.__init__`,
in insertion order. -/
def ETree.nodesPre : ETree → List ETree
  | .mk i tr lr lab cs => .mk i tr lr lab cs :: nodesPreChildren cs

/-- Pre-order node lists of a children list, concatenated. -/
def nodesPreChildren : List (String ⊕ ETree) → List ETree
  | [] => []
  | .inl _ :: rest => nodesPreChildren rest
  | .inr t :: rest => ETree.nodesPre t ++ nodesPreChildren rest
end

/-- The number of entries of the `_index2node` map of a node (equals
`n_nodes()` for well-formed trees). -/
def ETree.cnt (t : ETree) : Nat := t.nodesPre.length

/-- `node.is_preterminal()`: exactly one child, and it is a string. -/
def ETree.isPreterminal (t : ETree) : Prop :=
  ∃ s, t.children = [Sum.inl s]

instance (t : ETree) : Decidable t.isPreterminal :=
  match h : t.children with
  | [] => .isFalse (by simp [ETree.isPreterminal, h])
  | [Sum.inl s] => .isTrue ⟨s, h⟩
  | [Sum.inr _] => .isFalse (by simp [ETree.isPreterminal, h])
  | _ :: _ :: _ => .isFalse (by simp [ETree.isPreterminal, h])

mutual
/-- `node.n_nodes()`: 1 for a node whose first child is a string (`data.py`
asserts such a node has a single child; on non-well-formed trees with
further children Python would raise, which the claims never exercise),
otherwise 1 plus the sum over the subtree children. -/
def ETree.n_nodes : ETree → Nat
  | .mk _ _ _ _ (.inl _ :: _) => 1
  | .mk _ _ _ _ cs => 1 + nNodesChildren cs

/-- Sum of `n_nodes` over the subtree children of a list. -/
def nNodesChildren : List (String ⊕ ETree) → Nat
  | [] => 0
  | .inl _ :: rest => nNodesChildren rest
  | .inr t :: rest => ETree.n_nodes t + nNodesChildren rest
end

/-- Insertion of a number into a sorted list (used to embed Python
`sorted`). -/
def insertNat (x : Nat) : List Nat → List Nat
  | [] => [x]
  | y :: rest => if x ≤ y then x :: y :: rest else y :: insertNat x rest

/-- Insertion sort on naturals, embedding Python's `sorted`. -/
def sortNat : List Nat → List Nat
  | [] => []
  | x :: rest => insertNat x (sortNat rest)

/-- `node.index2node(i)`: dictionary lookup in `_index2node`.  The dictionary
maps each key to the last pre-order node carrying it (later `update` calls in
`ExtendedTree.__init__` override earlier entries), so the lookup scans the
reversed pre-order list.  On a missing key Python raises; that case is
unreachable on every call site (the argument is always drawn from
`subtree_indices`), and is embedded by returning the node itself. -/
def ETree.index2node (t : ETree) (i : Nat) : ETree :=
  (t.nodesPre.reverse.find? (fun n => n.index = i)).getD t

/-- `node.subtree_indices()`: `sorted(self._index2node.keys())`. -/
def ETree.subtreeIndices (t : ETree) : List Nat :=
  sortNat ((t.nodesPre.map ETree.index).dedup)

/-! ## `ExtendedTree.from_tree_and_leaf_timestamps` -/

/-- A leaf timestamp `(token, start, end)`. -/
abbrev LeafTS := String × ℚ × ℚ

mutual
/-- The inner `construct_tree(node, left, right)` of
`ExtendedTree.from_tree_and_leaf_timestamps`, with the nonlocal
`global_index` threaded explicitly and timestamp accesses through `pyGet`
(Python raises `IndexError` out of range, embedded as `none`). -/
def constructTree (ts : List LeafTS) : PyTree → Int → Int → Nat → Option (ETree × Nat)
  | .mk lab cs, left, right, gi => do
    let (ecs, _, gi') ← constructChildren ts cs left (gi + 1)
    let st ← pyGet ts left
    let en ← pyGet ts (right - 1)
    pure (.mk gi (st.2.1, en.2.2) (left + 1, right) lab ecs, gi')

/-- The loop over `node` in `construct_tree`: a string child advances
`current_left` by one, a subtree child is built recursively on its own leaf
window. -/
def constructChildren (ts : List LeafTS) :
    List (String ⊕ PyTree) → Int → Nat → Option (List (String ⊕ ETree) × Int × Nat)
  | [], curLeft, gi => pure ([], curLeft, gi)
  | .inl s :: rest, curLeft, gi => do
    let (ecs, curLeft', gi') ← constructChildren ts rest (curLeft + 1) gi
    pure (.inl s :: ecs, curLeft', gi')
  | .inr t :: rest, curLeft, gi => do
    let (et, gi') ← constructTree ts t curLeft (curLeft + t.leavesCount) gi
    let (ecs, curLeft', gi'') ← constructChildren ts rest (curLeft + t.leavesCount) gi'
    pure (.inr et :: ecs, curLeft', gi'')
end

/-- `ExtendedTree.from_tree_and_leaf_timestamps(tree, leaf_timestamps)`:
runs `construct_tree(tree, 0, len(leaf_timestamps))` with `global_index = 0`. -/
def fromTreeAndLeafTimestamps (tree : PyTree) (ts : List LeafTS) : Option ETree :=
  (constructTree ts tree 0 ts.length 0).map Prod.fst

/-! ## Well-formedness

`PyTree.wfB` captures the input contract of §6 of the design: every leaf is a
node with a single terminal child, every nonterminal has one or more subtree
children.  `ETree.swfB` captures the structural invariants that
`from_tree_and_leaf_timestamps` establishes on its output: pre-order
consecutive indices, 1-based contiguous leaf ranges tiled exactly by the
children. -/

mutual
/-- Structural well-formedness of an annotated tree: a preterminal has a
one-point leaf range; a nonterminal has a nonempty all-subtree children list
whose indices and leaf ranges chain consecutively (checked by `chainCheck`)
and tile its own leaf range. -/
def ETree.swfB : ETree → Bool
  | .mk _ _ lr _ [.inl _] => decide (lr.1 = lr.2) && decide (1 ≤ lr.1)
  | .mk _ _ _ _ [] => false
  | .mk i _ lr _ cs =>
    match chainCheck (i + 1) lr.1 cs with
    | some l' => decide (l' = lr.2 + 1) && decide (1 ≤ lr.1)
    | none => false

/-- Checks a children list against an expected first index and first leaf
position, returning the leaf position one past the last child.  A terminal
string child or a child violating the expected positions fails the check. -/
def chainCheck : Nat → Int → List (String ⊕ ETree) → Option Int
  | _, l, [] => some l
  | i, l, .inr t :: rest =>
    if t.index = i ∧ t.leafRange.1 = l ∧ t.swfB then
      chainCheck (i + t.cnt) (t.leafRange.2 + 1) rest
    else none
  | _, _, .inl _ :: _ => none
end

mutual
/-- Well-formedness of an input label tree: a leaf is a node with a single
terminal child; a nonterminal has a nonempty list of subtree children, each
well-formed. -/
def PyTree.wfB : PyTree → Bool
  | .mk _ [.inl _] => true
  | .mk _ [] => false
  | .mk _ cs => allInrWf cs

/-- All children are subtrees, each well-formed. -/
def allInrWf : List (String ⊕ PyTree) → Bool
  | [] => true
  | .inl _ :: _ => false
  | .inr t :: rest => t.wfB && allInrWf rest
end

/-! ## Size lemmas (termination of `align`) -/

mutual
theorem size_le_of_mem_nodesPre (t u : ETree) (h : u ∈ t.nodesPre) :
    u.size ≤ t.size := by
  match t with
  | .mk i tr lr lab cs =>
    rw [ETree.nodesPre] at h
    rcases List.mem_cons.mp h with h | h
    · subst h; exact le_refl _
    · calc u.size ≤ sizeChildren cs := size_le_of_mem_nodesPreChildren cs u h
        _ ≤ (ETree.mk i tr lr lab cs).size := by rw [ETree.size]; omega

theorem size_le_of_mem_nodesPreChildren (cs : List (String ⊕ ETree)) (u : ETree)
    (h : u ∈ nodesPreChildren cs) : u.size ≤ sizeChildren cs := by
  match cs with
  | [] => rw [nodesPreChildren] at h; exact absurd h (List.not_mem_nil u)
  | .inl s :: rest =>
    rw [nodesPreChildren] at h
    calc u.size ≤ sizeChildren rest := size_le_of_mem_nodesPreChildren rest u h
      _ = sizeChildren (.inl s :: rest) := by rw [sizeChildren]
  | .inr t :: rest =>
    rw [nodesPreChildren] at h
    rcases List.mem_append.mp h with h | h
    · calc u.size ≤ t.size := size_le_of_mem_nodesPre t u h
        _ ≤ sizeChildren (.inr t :: rest) := by rw [sizeChildren]; omega
    · calc u.size ≤ sizeChildren rest := size_le_of_mem_nodesPreChildren rest u h
        _ ≤ sizeChildren (.inr t :: rest) := by rw [sizeChildren]; omega
end

theorem mem_insertNat {x a : Nat} {l : List Nat} :
    x ∈ insertNat a l ↔ x = a ∨ x ∈ l := by
  induction l with
  | nil => simp [insertNat]
  | cons y rest ih =>
    rw [insertNat]
    by_cases h : a ≤ y <;> simp [h, ih] <;> tauto

theorem mem_sortNat {x : Nat} {l : List Nat} : x ∈ sortNat l ↔ x ∈ l := by
  induction l with
  | nil => simp [sortNat]
  | cons y rest ih => rw [sortNat]; simp [mem_insertNat, ih]

theorem mem_subtreeIndices {i : Nat} {t : ETree} :
    i ∈ t.subtreeIndices ↔ ∃ u ∈ t.nodesPre, u.index = i := by
  rw [ETree.subtreeIndices, mem_sortNat, List.mem_dedup, List.mem_map]

theorem size_pos (t : ETree) : 0 < t.size := by
  match t with
  | .mk _ _ _ _ cs => rw [ETree.size]; omega

theorem size_lt_of_mem_nodesPre_ne {t u : ETree} (h : u ∈ t.nodesPre) (hne : u ≠ t) :
    u.size < t.size := by
  obtain ⟨j, tr, lr, lab, cs⟩ := t
  rw [ETree.nodesPre] at h
  rcases List.mem_cons.mp h with h | h
  · exact absurd h hne
  · have := size_le_of_mem_nodesPreChildren cs u h
    rw [ETree.size]; omega

theorem index2node_size_lt {t : ETree} {i : Nat}
    (hi : i ∈ t.subtreeIndices) (hne : i ≠ t.index) :
    (t.index2node i).size < t.size := by
  obtain ⟨u, hu, hui⟩ := mem_subtreeIndices.mp hi
  have hsome : (t.nodesPre.reverse.find? (fun n => n.index = i)).isSome := by
    rw [List.find?_isSome]
    exact ⟨u, List.mem_reverse.mpr hu, by simp [hui]⟩
  obtain ⟨v, hv⟩ := Option.isSome_iff_exists.mp hsome
  have hvmem : v ∈ t.nodesPre := List.mem_reverse.mp (List.mem_of_find?_eq_some hv)
  have hvi : v.index = i := by
    have := List.find?_some hv
    simpa using this
  rw [ETree.index2node, hv, Option.getD_some]
  refine size_lt_of_mem_nodesPre_ne hvmem (fun hvt => ?_)
  exact hne (by rw [← hvi, hvt])

/-! ## Structural facts about well-formed annotated trees -/

theorem nodesPre_mk (i : Nat) (tr : ℚ × ℚ) (lr : Int × Int) (lab : String)
    (cs : List (String ⊕ ETree)) :
    (ETree.mk i tr lr lab cs).nodesPre = .mk i tr lr lab cs :: nodesPreChildren cs := by
  rw [ETree.nodesPre]

theorem self_mem_nodesPre (t : ETree) : t ∈ t.nodesPre := by
  obtain ⟨i, tr, lr, lab, cs⟩ := t
  rw [nodesPre_mk]
  exact List.mem_cons_self _ _

theorem mem_nodesPreChildren {u : ETree} {cs : List (String ⊕ ETree)} :
    u ∈ nodesPreChildren cs ↔ ∃ c, Sum.inr c ∈ cs ∧ u ∈ c.nodesPre := by
  induction cs with
  | nil => simp [nodesPreChildren]
  | cons c rest ih =>
    match c with
    | .inl s => simp [nodesPreChildren, ih]
    | .inr t => simp [nodesPreChildren, ih, List.mem_append]

theorem cnt_mk (i : Nat) (tr : ℚ × ℚ) (lr : Int × Int) (lab : String)
    (cs : List (String ⊕ ETree)) :
    (ETree.mk i tr lr lab cs).cnt = (nodesPreChildren cs).length + 1 := by
  rw [ETree.cnt, nodesPre_mk, List.length_cons]

theorem cnt_pos (t : ETree) : 1 ≤ t.cnt := by
  obtain ⟨i, tr, lr, lab, cs⟩ := t
  rw [cnt_mk]
  omega

theorem swfB_pre {i : Nat} {tr : ℚ × ℚ} {lr : Int × Int} {lab s : String}
    (hw : (ETree.mk i tr lr lab [Sum.inl s]).swfB = true) : lr.1 = lr.2 ∧ 1 ≤ lr.1 := by
  simpa [ETree.swfB] using hw

theorem swfB_mk_pre {i : Nat} {tr : ℚ × ℚ} {lr : Int × Int} {lab s : String}
    (h1 : lr.1 = lr.2) (h2 : 1 ≤ lr.1) :
    (ETree.mk i tr lr lab [Sum.inl s]).swfB = true := by
  simp only [ETree.swfB, Bool.and_eq_true, decide_eq_true_eq]
  omega

theorem swfB_cons_elim {i : Nat} {tr : ℚ × ℚ} {lr : Int × Int} {lab : String}
    {c : ETree} {cs : List (String ⊕ ETree)}
    (hw : (ETree.mk i tr lr lab (Sum.inr c :: cs)).swfB = true) :
    chainCheck (i + 1) lr.1 (Sum.inr c :: cs) = some (lr.2 + 1) ∧ 1 ≤ lr.1 := by
  rcases hcc : chainCheck (i + 1) lr.1 (Sum.inr c :: cs) with _ | l'
  · simp only [ETree.swfB, hcc] at hw
    exact absurd hw (by simp)
  · simp only [ETree.swfB, hcc, Bool.and_eq_true, decide_eq_true_eq] at hw
    exact ⟨by rw [hw.1], hw.2⟩

theorem swfB_mk_cons {i : Nat} {tr : ℚ × ℚ} {lr : Int × Int} {lab : String}
    {c : ETree} {cs : List (String ⊕ ETree)}
    (hcc : chainCheck (i + 1) lr.1 (Sum.inr c :: cs) = some (lr.2 + 1)) (h2 : 1 ≤ lr.1) :
    (ETree.mk i tr lr lab (Sum.inr c :: cs)).swfB = true := by
  simp only [ETree.swfB, hcc]
  simp [h2]

theorem chainCheck_cons_elim {i : Nat} {l : Int} {c : ETree}
    {cs : List (String ⊕ ETree)} {l' : Int}
    (h : chainCheck i l (Sum.inr c :: cs) = some l') :
    c.index = i ∧ c.leafRange.1 = l ∧ c.swfB = true ∧
      chainCheck (i + c.cnt) (c.leafRange.2 + 1) cs = some l' := by
  rw [chainCheck] at h
  split_ifs at h with hc
  · exact ⟨hc.1, hc.2.1, hc.2.2, h⟩

mutual
theorem swf_facts (t : ETree) (hw : t.swfB = true) :
    t.nodesPre.map ETree.index = List.range' t.index t.cnt ∧
    (∀ u ∈ t.nodesPre, u.swfB = true) ∧
    (∀ u ∈ t.nodesPre, 1 ≤ u.leafRange.1 ∧ u.leafRange.1 ≤ u.leafRange.2 ∧
      t.leafRange.1 ≤ u.leafRange.1 ∧ u.leafRange.2 ≤ t.leafRange.2) ∧
    (t.leavesCount : Int) = t.leafRange.2 - t.leafRange.1 + 1 ∧
    t.n_nodes = t.cnt ∧
    (∀ u ∈ t.nodesPre, ∀ w ∈ t.nodesPre, u.leafRange.2 < w.leafRange.1 →
      u.index + u.cnt ≤ w.index) ∧
    (∀ u ∈ t.nodesPre, t.index ≤ u.index ∧ u.index + u.cnt ≤ t.index + t.cnt) := by
  obtain ⟨i, tr, lr, lab, cs⟩ := t
  match cs with
  | [Sum.inl s] =>
    obtain ⟨he, h1⟩ := swfB_pre hw
    have hnp : (ETree.mk i tr lr lab [Sum.inl s]).nodesPre = [.mk i tr lr lab [Sum.inl s]] := by
      rw [nodesPre_mk]; rfl
    have hcnt : (ETree.mk i tr lr lab [Sum.inl s]).cnt = 1 := by rw [cnt_mk]; rfl
    rw [hnp, hcnt]
    refine ⟨by simp [ETree.index, List.range'], ?_, ?_, ?_, ?_, ?_, ?_⟩
    · intro u hu; rw [List.mem_singleton] at hu; subst hu; exact hw
    · intro u hu; rw [List.mem_singleton] at hu; subst hu
      exact ⟨h1, le_of_eq he, le_refl _, le_refl _⟩
    · show ((1 : Nat) : Int) = lr.2 - lr.1 + 1
      omega
    · rfl
    · intro u hu w hw'
      rw [List.mem_singleton] at hu hw'
      subst hu; subst hw'
      intro hlt
      exact absurd hlt (by simp [ETree.leafRange]; omega)
    · intro u hu; rw [List.mem_singleton] at hu; subst hu
      exact ⟨le_refl _, by rw [hcnt]⟩
  | [] => exact absurd hw (by simp [ETree.swfB])
  | Sum.inl s :: c2 :: cs' =>
    exfalso
    rcases hcc : chainCheck (i + 1) lr.1 (Sum.inl s :: c2 :: cs') with _ | l'
    · simp only [ETree.swfB, hcc] at hw
      exact absurd hw (by simp)
    · rw [chainCheck] at hcc
      exact absurd hcc (by simp)
  | Sum.inr c :: cs' =>
    obtain ⟨hcc, h1⟩ := swfB_cons_elim hw
    obtain ⟨hA, hB, hC, hD, hE, hF, hG, hH⟩ :=
      chain_facts (Sum.inr c :: cs') (i + 1) lr.1 (lr.2 + 1) hcc
    have hself : ∀ u ∈ (ETree.mk i tr lr lab (Sum.inr c :: cs')).nodesPre,
        u = ETree.mk i tr lr lab (Sum.inr c :: cs') ∨
          u ∈ nodesPreChildren (Sum.inr c :: cs') := by
      intro u hu; rw [nodesPre_mk] at hu; exact List.mem_cons.mp hu
    have hlr12 : lr.1 ≤ lr.2 := by
      have hcmem : c ∈ nodesPreChildren (Sum.inr c :: cs') :=
        mem_nodesPreChildren.mpr ⟨c, List.mem_cons_self _ _, self_mem_nodesPre c⟩
      have := hC c hcmem
      omega
    have hcnt : (ETree.mk i tr lr lab (Sum.inr c :: cs')).cnt =
        (nodesPreChildren (Sum.inr c :: cs')).length + 1 := cnt_mk ..
    refine ⟨?_, ?_, ?_, ?_, ?_, ?_, ?_⟩
    · rw [nodesPre_mk, List.map_cons, hcnt, List.range'_succ]
      show (ETree.mk i tr lr lab (Sum.inr c :: cs')).index ::
          (nodesPreChildren (Sum.inr c :: cs')).map ETree.index = _
      rw [hA]
      rfl
    · intro u hu
      rcases hself u hu with h | h
      · subst h; exact hw
      · exact hB u h
    · intro u hu
      rcases hself u hu with h | h
      · subst h
        exact ⟨h1, hlr12, le_refl _, le_refl _⟩
      · have := hC u h
        show 1 ≤ u.leafRange.1 ∧ u.leafRange.1 ≤ u.leafRange.2 ∧
          lr.1 ≤ u.leafRange.1 ∧ u.leafRange.2 ≤ lr.2
        omega
    · show ((ETree.mk i tr lr lab (Sum.inr c :: cs')).leavesCount : Int) = lr.2 - lr.1 + 1
      have : (ETree.mk i tr lr lab (Sum.inr c :: cs')).leavesCount =
          eLeavesCountChildren (Sum.inr c :: cs') := by rw [ETree.leavesCount]
      rw [this]
      omega
    · show (ETree.mk i tr lr lab (Sum.inr c :: cs')).n_nodes = _
      have hnn : (ETree.mk i tr lr lab (Sum.inr c :: cs')).n_nodes =
          1 + nNodesChildren (Sum.inr c :: cs') := by
        rw [ETree.n_nodes]
        rintro val tail hcon
        simp at hcon
      rw [hnn, hcnt, hE]
      omega
    · intro u hu w hw' hlt
      rcases hself u hu with h | h <;> rcases hself w hw' with h' | h'
      · subst h; subst h'
        exact absurd hlt (by simp [ETree.leafRange]; omega)
      · subst h
        have hcw := hC w h'
        exact absurd hlt (by
          show ¬ (ETree.mk i tr lr lab (Sum.inr c :: cs')).leafRange.2 < w.leafRange.1
          have hl : (ETree.mk i tr lr lab (Sum.inr c :: cs')).leafRange = lr := rfl
          rw [hl]
          omega)
      · subst h'
        have hcu := hC u h
        exact absurd hlt (by
          show ¬ u.leafRange.2 < (ETree.mk i tr lr lab (Sum.inr c :: cs')).leafRange.1
          have hl : (ETree.mk i tr lr lab (Sum.inr c :: cs')).leafRange = lr := rfl
          rw [hl]
          omega)
      · exact hF u h w h' hlt
    · intro u hu
      rcases hself u hu with h | h
      · subst h
        exact ⟨le_refl _, le_refl _⟩
      · have := hG u h
        show (ETree.mk i tr lr lab (Sum.inr c :: cs')).index ≤ u.index ∧
          u.index + u.cnt ≤ (ETree.mk i tr lr lab (Sum.inr c :: cs')).index +
            (ETree.mk i tr lr lab (Sum.inr c :: cs')).cnt
        rw [hcnt]
        show i ≤ u.index ∧ u.index + u.cnt ≤ i + _
        omega

theorem chain_facts (cs : List (String ⊕ ETree)) (i : Nat) (l l' : Int)
    (hcc : chainCheck i l cs = some l') :
    (nodesPreChildren cs).map ETree.index =
      List.range' i (nodesPreChildren cs).length ∧
    (∀ u ∈ nodesPreChildren cs, u.swfB = true) ∧
    (∀ u ∈ nodesPreChildren cs, 1 ≤ u.leafRange.1 ∧ u.leafRange.1 ≤ u.leafRange.2 ∧
      l ≤ u.leafRange.1 ∧ u.leafRange.2 ≤ l' - 1) ∧
    (eLeavesCountChildren cs : Int) = l' - l ∧
    nNodesChildren cs = (nodesPreChildren cs).length ∧
    (∀ u ∈ nodesPreChildren cs, ∀ w ∈ nodesPreChildren cs,
      u.leafRange.2 < w.leafRange.1 → u.index + u.cnt ≤ w.index) ∧
    (∀ u ∈ nodesPreChildren cs, i ≤ u.index ∧
      u.index + u.cnt ≤ i + (nodesPreChildren cs).length) ∧
    l ≤ l' := by
  match cs with
  | [] =>
    have hl : l = l' := by
      rw [chainCheck] at hcc
      exact Option.some_inj.mp hcc
    subst hl
    refine ⟨rfl, ?_, ?_, ?_, rfl, ?_, ?_, le_refl _⟩ <;>
      simp [nodesPreChildren, eLeavesCountChildren, nNodesChildren]
  | Sum.inl s :: rest =>
    rw [chainCheck] at hcc
    exact absurd hcc (by simp)
  | Sum.inr c :: rest =>
    obtain ⟨hidx, hlf, hswf, hrest⟩ := chainCheck_cons_elim hcc
    obtain ⟨tA, tB, tC, tD, tE, tF, tG⟩ := swf_facts c hswf
    obtain ⟨hA, hB, hC, hD, hE, hF, hG, hH⟩ :=
      chain_facts rest (i + c.cnt) (c.leafRange.2 + 1) l' hrest
    have hnp : nodesPreChildren (Sum.inr c :: rest) =
        c.nodesPre ++ nodesPreChildren rest := by rw [nodesPreChildren]
    have hlen : (nodesPreChildren (Sum.inr c :: rest)).length =
        c.cnt + (nodesPreChildren rest).length := by
      rw [hnp, List.length_append, ETree.cnt]
    have hcl12 : c.leafRange.1 ≤ c.leafRange.2 := (tC c (self_mem_nodesPre c)).2.1
    have hsplit : ∀ u ∈ nodesPreChildren (Sum.inr c :: rest),
        u ∈ c.nodesPre ∨ u ∈ nodesPreChildren rest := by
      intro u hu; rw [hnp] at hu; exact List.mem_append.mp hu
    refine ⟨?_, ?_, ?_, ?_, ?_, ?_, ?_, ?_⟩
    · rw [hnp, List.map_append, tA, hA, hidx, List.length_append]
      have h1 : c.nodesPre.length = c.cnt := rfl
      rw [h1]
      have h2 := List.range'_append i c.cnt (nodesPreChildren rest).length 1
      rw [one_mul] at h2
      rw [h2]
      congr 1
      omega
    · intro u hu
      rcases hsplit u hu with h | h
      · exact tB u h
      · exact hB u h
    · intro u hu
      rcases hsplit u hu with h | h
      · have := tC u h
        have h2 : c.leafRange.2 ≤ l' - 1 := by omega
        refine ⟨this.1, this.2.1, ?_, ?_⟩ <;> omega
      · have := hC u h
        refine ⟨this.1, this.2.1, ?_, ?_⟩ <;> omega
    · have : (eLeavesCountChildren (Sum.inr c :: rest) : Int) =
          (c.leavesCount : Int) + (eLeavesCountChildren rest : Int) := by
        rw [eLeavesCountChildren]
        push_cast
        ring
      rw [this, tD, hD]
      omega
    · have h1 : nNodesChildren (Sum.inr c :: rest) =
          c.n_nodes + nNodesChildren rest := by rw [nNodesChildren]
      rw [h1, tE, hE, hlen]
    · intro u hu w hw' hlt
      rcases hsplit u hu with h | h <;> rcases hsplit w hw' with h' | h'
      · exact tF u h w h' hlt
      · have h1 := tG u h
        have h2 := hG w h'
        omega
      · have h1 := hC u h
        have h2 := tC w h'
        omega
      · exact hF u h w h' hlt
    · intro u hu
      rcases hsplit u hu with h | h
      · have h1 := (tG u h).1
        have h2 := (tG u h).2
        rw [hlen]
        omega
      · have h1 := (hG u h).1
        have h2 := (hG u h).2
        rw [hlen]
        omega
    · omega
end

/-! ### Corollaries of the structural facts -/

theorem swf_sub {t u : ETree} (hw : t.swfB = true) (hu : u ∈ t.nodesPre) :
    u.swfB = true := (swf_facts t hw).2.1 u hu

theorem swf_map_index {t : ETree} (hw : t.swfB = true) :
    t.nodesPre.map ETree.index = List.range' t.index t.cnt := (swf_facts t hw).1

theorem swf_leaf_bounds {t u : ETree} (hw : t.swfB = true) (hu : u ∈ t.nodesPre) :
    1 ≤ u.leafRange.1 ∧ u.leafRange.1 ≤ u.leafRange.2 ∧
      t.leafRange.1 ≤ u.leafRange.1 ∧ u.leafRange.2 ≤ t.leafRange.2 :=
  (swf_facts t hw).2.2.1 u hu

theorem swf_leaves {t : ETree} (hw : t.swfB = true) :
    (t.leavesCount : Int) = t.leafRange.2 - t.leafRange.1 + 1 :=
  (swf_facts t hw).2.2.2.1

theorem swf_n_nodes {t : ETree} (hw : t.swfB = true) : t.n_nodes = t.cnt :=
  (swf_facts t hw).2.2.2.2.1

theorem swf_order {t u w : ETree} (hw : t.swfB = true) (hu : u ∈ t.nodesPre)
    (hw' : w ∈ t.nodesPre) (hlt : u.leafRange.2 < w.leafRange.1) :
    u.index + u.cnt ≤ w.index :=
  (swf_facts t hw).2.2.2.2.2.1 u hu w hw' hlt

theorem swf_block {t u : ETree} (hw : t.swfB = true) (hu : u ∈ t.nodesPre) :
    t.index ≤ u.index ∧ u.index + u.cnt ≤ t.index + t.cnt :=
  (swf_facts t hw).2.2.2.2.2.2 u hu

theorem swf_index_nodup {t : ETree} (hw : t.swfB = true) :
    (t.nodesPre.map ETree.index).Nodup := by
  rw [swf_map_index hw]
  exact List.nodup_range' _ _

theorem swf_index_inj {t u v : ETree} (hw : t.swfB = true) (hu : u ∈ t.nodesPre)
    (hv : v ∈ t.nodesPre) (he : u.index = v.index) : u = v :=
  List.inj_on_of_nodup_map (swf_index_nodup hw) hu hv he

theorem swf_index2node {t u : ETree} (hw : t.swfB = true) (hu : u ∈ t.nodesPre) :
    t.index2node u.index = u := by
  have hsome : (t.nodesPre.reverse.find? (fun n => n.index = u.index)).isSome := by
    rw [List.find?_isSome]
    exact ⟨u, List.mem_reverse.mpr hu, by simp⟩
  obtain ⟨v, hv⟩ := Option.isSome_iff_exists.mp hsome
  have hvmem : v ∈ t.nodesPre := List.mem_reverse.mp (List.mem_of_find?_eq_some hv)
  have hvi : v.index = u.index := by simpa using List.find?_some hv
  rw [ETree.index2node, hv, Option.getD_some]
  exact swf_index_inj hw hvmem hu hvi

theorem insertNat_of_le {x : Nat} {l : List Nat} (h : ∀ y ∈ l, x ≤ y) :
    insertNat x l = x :: l := by
  cases l with
  | nil => rfl
  | cons y rest =>
    rw [insertNat, if_pos (h y (List.mem_cons_self _ _))]

theorem sortNat_eq_of_sorted {l : List Nat} (h : l.Sorted (· ≤ ·)) : sortNat l = l := by
  induction l with
  | nil => rfl
  | cons x rest ih =>
    rw [List.sorted_cons] at h
    rw [sortNat, ih h.2, insertNat_of_le h.1]

theorem swf_subtreeIndices {t : ETree} (hw : t.swfB = true) :
    t.subtreeIndices = List.range' t.index t.cnt := by
  rw [ETree.subtreeIndices, swf_map_index hw,
    List.dedup_eq_self.mpr (List.nodup_range' _ _)]
  refine sortNat_eq_of_sorted ?_
  refine List.Pairwise.imp le_of_lt ?_
  have := List.pairwise_lt_range' t.index t.cnt 1 (by omega)
  exact this

theorem swf_filterIdx {t : ETree} (hw : t.swfB = true) :
    t.subtreeIndices.filter (fun i => i ≠ t.index) =
      List.range' (t.index + 1) (t.cnt - 1) := by
  rw [swf_subtreeIndices hw]
  obtain ⟨n, hn⟩ : ∃ n, t.cnt = n + 1 := ⟨t.cnt - 1, by have := cnt_pos t; omega⟩
  rw [hn, List.range'_succ]
  have h1 : List.filter (fun i => i ≠ t.index) (List.range' (t.index + 1) n) =
      List.range' (t.index + 1) n := by
    refine List.filter_eq_self.mpr (fun a ha => ?_)
    have := List.mem_range'.mp ha
    simp only [ne_eq, decide_eq_true_eq]
    omega
  rw [List.filter_cons, if_neg (by simp), h1]
  simp

/-! ### Construction establishes the structural invariants -/

theorem pyGet_isSome {α : Type} {l : List α} {i : Int}
    (h : (0 ≤ i ∧ i < l.length) ∨ (i = -1 ∧ 1 ≤ l.length)) :
    (pyGet l i).isSome = true := by
  unfold pyGet
  rcases h with ⟨h0, hlt⟩ | ⟨hi, hlen⟩
  · rw [if_pos h0]
    have : i.toNat < l.length := by omega
    rw [List.get?_eq_get this]; rfl
  · subst hi
    rw [if_neg (by omega), if_pos (by omega)]
    have : ((-1 : Int) + l.length).toNat < l.length := by omega
    rw [List.get?_eq_get this]; rfl


mutual
theorem wf_leaves_pos (t : PyTree) (hwf : t.wfB = true) : 1 ≤ t.leavesCount := by
  match t with
  | .mk lab [Sum.inl s] =>
    rw [PyTree.leavesCount, leavesCountChildren, leavesCountChildren]
  | .mk lab [] => exact absurd hwf (by rw [PyTree.wfB]; simp)
  | .mk lab (Sum.inl s :: c2 :: cs') =>
    exfalso
    simp only [PyTree.wfB, allInrWf] at hwf
    exact absurd hwf (by simp)
  | .mk lab (Sum.inr c :: cs') =>
    simp only [PyTree.wfB, allInrWf, Bool.and_eq_true] at hwf
    have := wf_leaves_pos c hwf.1
    rw [PyTree.leavesCount, leavesCountChildren]
    omega
end

theorem wf_cons_elim {lab : String} {c : String ⊕ PyTree} {cs : List (String ⊕ PyTree)}
    (hwf : (PyTree.mk lab (c :: cs)).wfB = true)
    (hne : ∀ s, c :: cs ≠ [Sum.inl s]) : allInrWf (c :: cs) = true := by
  match c, cs with
  | Sum.inl s, [] => exact absurd rfl (hne s)
  | Sum.inl s, c2 :: cs' => simpa only [PyTree.wfB] using hwf
  | Sum.inr t, cs => simpa only [PyTree.wfB] using hwf

mutual
theorem constructTree_swf (ts : List LeafTS) (t : PyTree) (left : Int) (gi : Nat)
    (hwf : t.wfB = true) (h0 : 0 ≤ left)
    (h1 : left + (t.leavesCount : Int) ≤ ts.length) :
    ∃ et, constructTree ts t left (left + t.leavesCount) gi = some (et, gi + et.cnt) ∧
      et.swfB = true ∧ et.index = gi ∧
      et.leafRange = (left + 1, left + t.leavesCount) ∧
      et.leavesCount = t.leavesCount := by
  match t with
  | .mk lab [Sum.inl s] =>
    have hlv : (PyTree.mk lab [Sum.inl s]).leavesCount = 1 := rfl
    have hlt : left < ts.length := by rw [hlv] at h1; push_cast at h1; omega
    have hst : (pyGet ts left).isSome = true := pyGet_isSome (Or.inl ⟨h0, by omega⟩)
    obtain ⟨st, hstv⟩ := Option.isSome_iff_exists.mp hst
    have hen : pyGet ts (left + (1 : Nat) - 1) = some st := by
      have : left + ((1 : Nat) : Int) - 1 = left := by push_cast; ring
      rw [this, hstv]
    refine ⟨.mk gi (st.2.1, st.2.2) (left + 1, left + 1) lab [Sum.inl s], ?_, ?_, rfl, ?_, rfl⟩
    · rw [hlv]
      rw [constructTree]
      have hcc : constructChildren ts [Sum.inl s] left (gi + 1) =
          some ([Sum.inl s], left + 1, gi + 1) := rfl
      rw [hcc]
      simp only [Option.bind_eq_bind, Option.some_bind, hstv, hen]
      have hcnt : (ETree.mk gi (st.2.1, st.2.2) (left + 1, left + 1) lab
          [Sum.inl s]).cnt = 1 := rfl
      rw [hcnt]
      rfl
    · exact swfB_mk_pre rfl (by omega)
    · rw [hlv]
      simp only [ETree.leafRange]
      norm_num
  | .mk lab [] => exact absurd hwf (by rw [PyTree.wfB]; simp)
  | .mk lab (Sum.inl s0 :: c2 :: cs0) =>
    exfalso
    simp only [PyTree.wfB, allInrWf] at hwf
    exact absurd hwf (by simp)
  | .mk lab (Sum.inr c0 :: cs0) =>
    · have hall : allInrWf (Sum.inr c0 :: cs0) = true :=
        wf_cons_elim hwf (fun s h => by simp at h)
      have hlv : (PyTree.mk lab (Sum.inr c0 :: cs0)).leavesCount = leavesCountChildren (Sum.inr c0 :: cs0) := rfl
      obtain ⟨ecs, hccv, hcl, hgi, hchain, helv⟩ :=
        constructChildren_swf ts (Sum.inr c0 :: cs0) left (gi + 1) hall h0 (by rw [hlv] at h1; omega)
      have h1lv : 1 ≤ leavesCountChildren (Sum.inr c0 :: cs0) := by
        have := wf_leaves_pos (.mk lab (Sum.inr c0 :: cs0)) hwf
        rw [hlv] at this
        omega
      have hneq : ecs ≠ [] := by
        intro he
        rw [he] at helv
        rw [eLeavesCountChildren] at helv
        omega
      obtain ⟨e0, erest, he0⟩ : ∃ e0 erest, ecs = Sum.inr e0 :: erest := by
        match ecs, hneq with
        | Sum.inr e0 :: erest, _ => exact ⟨e0, erest, rfl⟩
        | Sum.inl s :: erest, _ =>
          rw [chainCheck] at hchain
          exact absurd hchain (by simp)
      have hlt : left < ts.length := by rw [hlv] at h1; omega
      have hst : (pyGet ts left).isSome = true := pyGet_isSome (Or.inl ⟨h0, by omega⟩)
      obtain ⟨st, hstv⟩ := Option.isSome_iff_exists.mp hst
      have henB : (pyGet ts (left + (leavesCountChildren (Sum.inr c0 :: cs0) : Int) - 1)).isSome
          = true := pyGet_isSome (Or.inl ⟨by omega, by omega⟩)
      obtain ⟨en, henv⟩ := Option.isSome_iff_exists.mp henB
      refine ⟨.mk gi (st.2.1, en.2.2) (left + 1, left + leavesCountChildren (Sum.inr c0 :: cs0))
        lab ecs, ?_, ?_, rfl, ?_, ?_⟩
      · rw [hlv]
        rw [constructTree, hccv]
        simp only [Option.bind_eq_bind, Option.some_bind, hstv, henv]
        have hcnt : (ETree.mk gi (st.2.1, en.2.2)
            (left + 1, left + leavesCountChildren (Sum.inr c0 :: cs0)) lab ecs).cnt =
            (nodesPreChildren ecs).length + 1 := cnt_mk ..
        rw [hcnt]
        have : gi + ((nodesPreChildren ecs).length + 1) = gi + 1 +
            (nodesPreChildren ecs).length := by omega
        rw [this, ← hgi]
        rfl
      · rw [he0]
        rw [he0] at hchain
        refine swfB_mk_cons ?_ (by show (1 : Int) ≤ left + 1; omega)
        show chainCheck (gi + 1) (left + 1) (Sum.inr e0 :: erest) =
          some (left + (leavesCountChildren (Sum.inr c0 :: cs0) : Int) + 1)
        rw [hchain]
        congr 1
        ring
      · rw [hlv]
        rfl
      · have : (ETree.mk gi (st.2.1, en.2.2)
            (left + 1, left + leavesCountChildren (Sum.inr c0 :: cs0)) lab ecs).leavesCount =
            eLeavesCountChildren ecs := rfl
        rw [this, helv, hlv]

theorem constructChildren_swf (ts : List LeafTS) (cs : List (String ⊕ PyTree))
    (curLeft : Int) (gi : Nat) (hwf : allInrWf cs = true) (h0 : 0 ≤ curLeft)
    (h1 : curLeft + (leavesCountChildren cs : Int) ≤ ts.length) :
    ∃ ecs, constructChildren ts cs curLeft gi =
        some (ecs, curLeft + leavesCountChildren cs, gi + (nodesPreChildren ecs).length) ∧
      (curLeft + leavesCountChildren cs : Int) = curLeft + leavesCountChildren cs ∧
      gi + (nodesPreChildren ecs).length = gi + (nodesPreChildren ecs).length ∧
      chainCheck gi (curLeft + 1) ecs =
        some (curLeft + 1 + leavesCountChildren cs) ∧
      eLeavesCountChildren ecs = leavesCountChildren cs := by
  match cs with
  | [] =>
    refine ⟨[], ?_, rfl, rfl, ?_, rfl⟩
    · rw [constructChildren]
      have : curLeft + ((leavesCountChildren [] : Nat) : Int) = curLeft := by
        rw [leavesCountChildren]; push_cast; ring
      rw [this]
      rfl
    · rw [chainCheck]
      have : curLeft + 1 + ((leavesCountChildren [] : Nat) : Int) = curLeft + 1 := by
        rw [leavesCountChildren]; push_cast; ring
      rw [this]
  | Sum.inl s :: rest =>
    exact absurd hwf (by rw [allInrWf]; simp)
  | Sum.inr c :: rest =>
    rw [allInrWf, Bool.and_eq_true] at hwf
    have hlcc : leavesCountChildren (Sum.inr c :: rest) =
        c.leavesCount + leavesCountChildren rest := rfl
    obtain ⟨et, hetv, hswf, hidx, hlr, helv⟩ :=
      constructTree_swf ts c curLeft gi hwf.1 h0 (by rw [hlcc] at h1; push_cast at h1 ⊢; omega)
    obtain ⟨ecs, hccv, _, _, hchain, helv2⟩ :=
      constructChildren_swf ts rest (curLeft + c.leavesCount) (gi + et.cnt) hwf.2
        (by positivity) (by rw [hlcc] at h1; push_cast at h1 ⊢; omega)
    refine ⟨Sum.inr et :: ecs, ?_, rfl, rfl, ?_, ?_⟩
    · rw [constructChildren, hetv]
      simp only [Option.bind_eq_bind, Option.some_bind]
      rw [hccv]
      simp only [Option.bind_eq_bind, Option.some_bind]
      have hnp : (nodesPreChildren (Sum.inr et :: ecs)).length =
          et.cnt + (nodesPreChildren ecs).length := by
        rw [nodesPreChildren, List.length_append, ETree.cnt]
      rw [hlcc, hnp]
      have e1 : curLeft + ((c.leavesCount + leavesCountChildren rest : Nat) : Int) =
          curLeft + (c.leavesCount : Int) + (leavesCountChildren rest : Int) := by
        push_cast; ring
      have e2 : gi + (et.cnt + (nodesPreChildren ecs).length) =
          gi + et.cnt + (nodesPreChildren ecs).length := by omega
      rw [e1, e2]
      rfl
    · rw [chainCheck, if_pos ⟨hidx, by rw [hlr], hswf⟩]
      have e3 : et.leafRange.2 + 1 = curLeft + (c.leavesCount : Int) + 1 := by rw [hlr]
      have e4 : curLeft + 1 + ((leavesCountChildren (Sum.inr c :: rest) : Nat) : Int) =
          curLeft + (c.leavesCount : Int) + 1 + (leavesCountChildren rest : Int) := by
        rw [hlcc]; push_cast; ring
      rw [e3, e4]
      exact hchain
    · rw [eLeavesCountChildren, helv, helv2, hlcc]
end

/-- Packaging: a well-formed label tree with a timestamp sequence of exactly
matching length constructs successfully into a structurally well-formed
annotated tree rooted at index `0` with leaf range `(1, n_leaves)`. -/
theorem fromTree_swf {tree : PyTree} {ts : List LeafTS} (hwf : tree.wfB = true)
    (hlen : ts.length = tree.leavesCount) :
    ∃ T, fromTreeAndLeafTimestamps tree ts = some T ∧ T.swfB = true ∧ T.index = 0 ∧
      T.leafRange = (1, (ts.length : Int)) ∧ T.leavesCount = tree.leavesCount := by
  obtain ⟨et, hv, hswf, hidx, hlr, helv⟩ := constructTree_swf ts tree 0 0 hwf (le_refl 0)
    (by rw [hlen]; push_cast; omega)
  refine ⟨et, ?_, hswf, hidx, ?_, helv⟩
  · rw [fromTreeAndLeafTimestamps]
    have he : (ts.length : Int) = 0 + (tree.leavesCount : Int) := by
      rw [hlen]; ring
    rw [he, hv]
    rfl
  · rw [hlr]
    have : ((ts.length : Nat) : Int) = (tree.leavesCount : Int) := by exact_mod_cast hlen
    rw [this]
    norm_num

theorem swf_nodes_sum {u : ETree} (hw : u.swfB = true) :
    u.n_nodes = 1 + nNodesChildren u.children := by
  obtain ⟨i, tr, lr, lab, cs⟩ := u
  match cs with
  | [Sum.inl s] => rfl
  | [] => exact absurd hw (by simp [ETree.swfB])
  | Sum.inl s :: c2 :: cs' =>
    exfalso
    rcases hcc : chainCheck (i + 1) lr.1 (Sum.inl s :: c2 :: cs') with _ | l'
    · simp only [ETree.swfB, hcc] at hw
      exact absurd hw (by simp)
    · rw [chainCheck] at hcc
      exact absurd hcc (by simp)
  | Sum.inr c :: cs' =>
    have h : (ETree.mk i tr lr lab (Sum.inr c :: cs')).n_nodes =
        1 + nNodesChildren (Sum.inr c :: cs') := by
      rw [ETree.n_nodes]
      rintro val tail hcon
      simp at hcon
    rw [h]
    rfl

/-! ## The tree aligner (`structiou/metrics.py`) -/

/-- The alignment-trace type: a set of `(predicted_index, gold_index)` pairs. -/
abbrev Trace := Finset (Nat × Nat)

/-- `metrics.TreeAligner.__init__` state: the two trees and the two
configuration values. -/
structure TreeAligner where
  ptree : ETree
  gtree : ETree
  threshold_iou : ℚ := 0
  flexible_terminal_alignment : Bool := true

/-- The raw entry of the `span_ious` matrix before thresholding:
`span_iou(ptree.index2node(i).time_range(), gtree.index2node(j).time_range())`. -/
def TreeAligner.spanIouRaw (A : TreeAligner) (i j : Nat) : ℚ :=
  span_iou (A.ptree.index2node i).timeRange (A.gtree.index2node j).timeRange

/-- `self._span_ious = span_ious * (span_ious > self._threshold_iou)`:
the raw value when strictly above the threshold, else `0`. -/
def TreeAligner.spanIous (A : TreeAligner) (i j : Nat) : ℚ :=
  if A.spanIouRaw i j > A.threshold_iou then A.spanIouRaw i j else 0

/-- The value `-1e10` used to initialise the interval-DP tables. -/
def negBig : ℚ := -(10 ^ 10)

/-- One candidate edge of the interval DP: the (local, 1-based) leaf
endpoints of an aligned subtree pair together with its alignment weight and
trace. -/
structure DPair where
  pl : Int
  pr : Int
  gl : Int
  gr : Int
  w : ℚ
  tr : Trace
deriving DecidableEq

/-- The initial contents of the `max_span_matching_weight` numpy array and
the `trace` defaultdict: `0` (and an empty trace) at `(0, 0)`, `-1e10`
(and an empty trace) everywhere else. -/
def dpInit : Int × Int → ℚ × Trace :=
  fun c => if c = (0, 0) then (0, ∅) else (negBig, ∅)

/-- The interval-DP table (`max_span_matching_weight` together with the
`trace` dictionary), embedded as an association list of overwrites on top of
the initial contents; the most recent write to a cell wins. -/
def Tbl : Type := List ((Int × Int) × (ℚ × Trace))

/-- Reading one cell of the DP table. -/
def Tbl.get (t : Tbl) (c : Int × Int) : ℚ × Trace :=
  match List.find? (fun e => e.1 = c) t with
  | some e => e.2
  | none => dpInit c

/-- Writing one cell of the DP table. -/
def Tbl.set (t : Tbl) (c : Int × Int) (v : ℚ × Trace) : Tbl :=
  (c, v) :: t

/-- Processing one subtree pair in the interval DP: for every source cell
`(a, b)` with `a < pl` and `b < gl` (in Python, `range(pnode_lleaf)` ×
`range(gnode_lleaf)`, in that iteration order), propose
`update_value = table[a, b] + w` for cell `(pr, gr)`, overwriting value and
trace on strict improvement. -/
def dpStep (tbl : Tbl) (e : DPair) : Tbl :=
  (pyRange e.pl).foldl (fun t1 a =>
    (pyRange e.gl).foldl (fun t2 b =>
      let src := t2.get (a, b)
      let updateValue := src.1 + e.w
      if updateValue > (t2.get (e.pr, e.gr)).1 then
        t2.set (e.pr, e.gr) (updateValue, src.2 ∪ e.tr)
      else t2) t1) tbl

/-- The interval-DP table after processing a list of subtree pairs in order,
starting from the freshly initialised arrays. -/
def dpTable (es : List DPair) : Tbl :=
  es.foldl dpStep []

/-- The final scan over all table cells (`for pnode_rleaf ... for gnode_rleaf
...`), replacing the running best value and trace on strict improvement. -/
def dpScan (tbl : Tbl) (np ng : Nat) (init : ℚ × Trace) : ℚ × Trace :=
  (pyRange (np + 1)).foldl (fun b1 a =>
    (pyRange (ng + 1)).foldl (fun b2 b =>
      if (tbl.get (a, b)).1 > b2.1 then tbl.get (a, b) else b2) b1) init

/-- The list of interval-DP edges built in the general case of `align`, one
per pair of proper-descendant indices, in the iteration order of the two
nested `for` loops (`subtree_indices` ascending, the root indices skipped),
parameterised by the function supplying the recursive alignment weights. -/
def mkPairs (w : ETree → ETree → ℚ × Trace) (p g : ETree) : List DPair :=
  (p.subtreeIndices.filter (fun i => i ≠ p.index)).flatMap fun pj =>
    (g.subtreeIndices.filter (fun j => j ≠ g.index)).map fun gj =>
      let u := p.index2node pj
      let v := g.index2node gj
      let wt := w u v
      { pl := u.leafRange.1 - p.leafRange.1 + 1
        pr := u.leafRange.2 - p.leafRange.1 + 1
        gl := v.leafRange.1 - g.leafRange.1 + 1
        gr := v.leafRange.2 - g.leafRange.1 + 1
        w := wt.1, tr := wt.2 : DPair }

/-- The rejection condition of `align` (zero thresholded overlap, or
nonterminal label mismatch, or label mismatch under inflexible terminal
alignment): the `if` guard of the first edge case of
`TreeAligner.align` in `metrics.py`. -/
def rejectCond (A : TreeAligner) (p g : ETree) : Prop :=
  eps_eq (A.spanIous p.index g.index) 0 eps ∨
    (¬ p.isPreterminal ∧ ¬ g.isPreterminal ∧ p.label ≠ g.label) ∨
    (¬ A.flexible_terminal_alignment ∧ p.label ≠ g.label)

instance (A : TreeAligner) (p g : ETree) : Decidable (rejectCond A p g) := by
  unfold rejectCond; infer_instance

/-- `TreeAligner.align(pnode, gnode)` with an explicit recursion budget:
each recursive call descends to a pair of proper subtrees, so any budget of
at least `p.size + g.size` yields the value of the Python recursion (proved
in `alignFuel_congr`).  With zero budget the (unreachable) answer is
`(0, ∅)`. -/
def TreeAligner.alignFuel (A : TreeAligner) : Nat → ETree → ETree → ℚ × Trace
  | 0, _, _ => (0, ∅)
  | fuel + 1, p, g =>
    if rejectCond A p g then
      (0, ∅)
    else if p.isPreterminal ∨ g.isPreterminal then
      (A.spanIous p.index g.index, {(p.index, g.index)})
    else
      let es := mkPairs (A.alignFuel fuel) p g
      let best := dpScan (dpTable es) p.leavesCount g.leavesCount (-1, ∅)
      (best.1 + A.spanIous p.index g.index, insert (p.index, g.index) best.2)

/-- `TreeAligner.align(pnode, gnode)`: the maximum matching weight between
the two subtrees given that their roots align, plus the realising trace.
The Python memo tables cache this pure function of the node pair (computed
weights are nonnegative while the sentinel is `-1`), so the embedding is the
plain recursion, run with a sufficient budget. -/
def TreeAligner.align (A : TreeAligner) (p g : ETree) : ℚ × Trace :=
  A.alignFuel (p.size + g.size) p g

/-- The interval-DP edges of the general case of `align`, with the weights
supplied by `align` itself. -/
def alignPairs (A : TreeAligner) (p g : ETree) : List DPair :=
  mkPairs A.align p g

/-- The list of interval-DP edges of the top-level enumeration in
`TreeAligner.__call__`: all pairs of subtree indices of the two whole trees
except the root–root pair `(0, 0)`, with the (1-based) global leaf ranges as
endpoints. -/
def topPairs (A : TreeAligner) : List DPair :=
  A.ptree.subtreeIndices.flatMap fun pj =>
    A.gtree.subtreeIndices.filterMap fun gj =>
      if pj = 0 ∧ gj = 0 then none
      else
        let u := A.ptree.index2node pj
        let v := A.gtree.index2node gj
        let wt := A.align u v
        some { pl := u.leafRange.1, pr := u.leafRange.2,
               gl := v.leafRange.1, gr := v.leafRange.2,
               w := wt.1, tr := wt.2 : DPair }

/-- `TreeAligner.__call__()`: the root–root alignment as baseline, then the
top-level interval DP over all subtree pairs, then the Dice-style
normalisation `max_weight * 2 / (n_nodes(P) + n_nodes(G))`. -/
def TreeAligner.call (A : TreeAligner) : ℚ × Trace :=
  let w0 := A.align A.ptree A.gtree
  let best := dpScan (dpTable (topPairs A)) A.ptree.leavesCount A.gtree.leavesCount w0
  (best.1 * 2 / ((A.ptree.n_nodes : ℚ) + (A.gtree.n_nodes : ℚ)), best.2)

/-- `metrics.struct_iou(ptree, gtree, threshold_iou,
flexible_terminal_alignment)`: the scalar component of
`TreeAligner(...)()`. -/
def struct_iou (ptree gtree : ETree) (threshold : ℚ := 0) (flexible : Bool := true) : ℚ :=
  (TreeAligner.call ⟨ptree, gtree, threshold, flexible⟩).1

/-! ## The interval DP: chains of compatible subtree pairs -/

/-- Edge `x` can feed edge `y` in the interval DP: the right leaf endpoints
of `x` lie strictly to the left of the left endpoints of `y`, on both the
predicted and the gold side (`y` reads a source cell `(a, b)` with
`a < y.pl` and `b < y.gl`). -/
def DPair.before (x y : DPair) : Prop := x.pr < y.pl ∧ x.gr < y.gl

instance (x y : DPair) : Decidable (DPair.before x y) := by
  unfold DPair.before; infer_instance

/-- The total weight of a list of DP edges. -/
def chainVal (ch : List DPair) : ℚ := (ch.map DPair.w).sum

/-- The table cell in which a chain of edges ends: the right endpoints of
its last edge, or the seeded cell `(0, 0)` for the empty chain. -/
def endCell (ch : List DPair) : Int × Int :=
  (ch.getLast?.map (fun e => (e.pr, e.gr))).getD (0, 0)

/-- A chain: a list of edges in which each edge may feed the next. -/
def okChain (ch : List DPair) : Prop := List.Chain' DPair.before ch

instance (ch : List DPair) : Decidable (okChain ch) := by
  unfold okChain; infer_instance

/-- The best total weight over all chains that can be selected, in order,
from the edge list, the empty chain included: the combinatorial value
realised by the interval DP. -/
def chainBest (L : List DPair) : ℚ :=
  ((L.sublists.filter (fun ch => decide (okChain ch))).map chainVal).foldl max 0

/-- The facts the aligner guarantees for every edge list it feeds to the
interval DP: 1-based endpoints within the two leaf counts, left endpoint at
most right on both sides, nonnegative weight, and a list order in which no
later edge can feed an earlier one. -/
def GoodPairs (L : List DPair) (np ng : Nat) : Prop :=
  (∀ e ∈ L, 1 ≤ e.pl ∧ e.pl ≤ e.pr ∧ e.pr ≤ (np : Int) ∧
    1 ≤ e.gl ∧ e.gl ≤ e.gr ∧ e.gr ≤ (ng : Int) ∧ 0 ≤ e.w) ∧
  L.Pairwise (fun x y => ¬ DPair.before y x)

/-- The body of the innermost loop of `dpStep` as a named function of the
running table and the source cell. -/
def dpCell (e : DPair) (t2 : Tbl) (a b : Int) : Tbl :=
  if (Tbl.get t2 (a, b)).1 + e.w > (Tbl.get t2 (e.pr, e.gr)).1 then
    Tbl.set t2 (e.pr, e.gr) ((Tbl.get t2 (a, b)).1 + e.w, (Tbl.get t2 (a, b)).2 ∪ e.tr)
  else t2

/-! ## Unfolding lemmas for the aligner -/

theorem mkPairs_congr {w₁ w₂ : ETree → ETree → ℚ × Trace} (p g : ETree)
    (h : ∀ pj ∈ p.subtreeIndices.filter (fun i => i ≠ p.index),
         ∀ gj ∈ g.subtreeIndices.filter (fun j => j ≠ g.index),
           w₁ (p.index2node pj) (g.index2node gj) = w₂ (p.index2node pj) (g.index2node gj)) :
    mkPairs w₁ p g = mkPairs w₂ p g := by
  unfold mkPairs
  refine List.flatMap_congr (fun pj hpj => ?_)
  refine List.map_congr_left (fun gj hgj => ?_)
  simp only [h pj hpj gj hgj]

theorem size_index2node_of_mem_filter {t : ETree} {i : Nat}
    (h : i ∈ t.subtreeIndices.filter (fun j => j ≠ t.index)) :
    (t.index2node i).size < t.size := by
  rw [List.mem_filter] at h
  exact index2node_size_lt h.1 (by simpa using h.2)

theorem alignFuel_congr (A : TreeAligner) :
    ∀ (f₁ : Nat) (p g : ETree) (f₂ : Nat), p.size + g.size ≤ f₁ → p.size + g.size ≤ f₂ →
      A.alignFuel f₁ p g = A.alignFuel f₂ p g := by
  intro f₁
  induction f₁ using Nat.strong_induction_on with
  | _ f₁ ih =>
    intro p g f₂ h₁ h₂
    have hp := size_pos p
    have hg := size_pos g
    match f₁, f₂ with
    | 0, _ => omega
    | _ + 1, 0 => omega
    | k + 1, m + 1 =>
      show A.alignFuel (k + 1) p g = A.alignFuel (m + 1) p g
      rw [TreeAligner.alignFuel, TreeAligner.alignFuel]
      have hes : mkPairs (A.alignFuel k) p g = mkPairs (A.alignFuel m) p g := by
        refine mkPairs_congr p g (fun pj hpj gj hgj => ?_)
        have hu := size_index2node_of_mem_filter hpj
        have hv := size_index2node_of_mem_filter hgj
        exact ih k (by omega) _ _ m (by omega) (by omega)
      rw [hes]

theorem align_fuel_eq (A : TreeAligner) (p g : ETree) {f : Nat}
    (h : p.size + g.size ≤ f) : A.align p g = A.alignFuel f p g :=
  alignFuel_congr A (p.size + g.size) p g f (le_refl _) h

/-- `align` on a rejected pair returns weight `0` and an empty trace. -/
theorem align_reject {A : TreeAligner} {p g : ETree} (h : rejectCond A p g) :
    A.align p g = (0, ∅) := by
  have hp := size_pos p
  have hg := size_pos g
  rw [align_fuel_eq A p g (f := p.size + g.size - 1 + 1) (by omega)]
  rw [TreeAligner.alignFuel, if_pos h]

/-- `align` on an unrejected pair with a preterminal member returns the
thresholded span IoU and the singleton trace. -/
theorem align_preterm {A : TreeAligner} {p g : ETree} (h1 : ¬ rejectCond A p g)
    (h2 : p.isPreterminal ∨ g.isPreterminal) :
    A.align p g = (A.spanIous p.index g.index, {(p.index, g.index)}) := by
  have hp := size_pos p
  have hg := size_pos g
  rw [align_fuel_eq A p g (f := p.size + g.size - 1 + 1) (by omega)]
  rw [TreeAligner.alignFuel, if_neg h1, if_pos h2]

/-- `align` in the general case: the interval DP over the proper-descendant
pairs, scanned over all cells starting from the memo sentinel `-1`, plus the
pair's own thresholded span IoU. -/
theorem align_general {A : TreeAligner} {p g : ETree} (h1 : ¬ rejectCond A p g)
    (h2 : ¬ (p.isPreterminal ∨ g.isPreterminal)) :
    A.align p g =
      ((dpScan (dpTable (alignPairs A p g)) p.leavesCount g.leavesCount (-1, ∅)).1 +
         A.spanIous p.index g.index,
       insert (p.index, g.index)
         (dpScan (dpTable (alignPairs A p g)) p.leavesCount g.leavesCount (-1, ∅)).2) := by
  have hp := size_pos p
  have hg := size_pos g
  obtain ⟨k, hk⟩ : ∃ k, p.size + g.size = k + 1 := ⟨p.size + g.size - 1, by omega⟩
  rw [align_fuel_eq A p g (f := k + 1) (by omega)]
  rw [TreeAligner.alignFuel, if_neg h1, if_neg h2]
  have hes : mkPairs (A.alignFuel k) p g = alignPairs A p g := by
    refine mkPairs_congr p g (fun pj hpj gj hgj => ?_)
    have hu := size_index2node_of_mem_filter hpj
    have hv := size_index2node_of_mem_filter hgj
    exact (align_fuel_eq A _ _ (by omega)).symm
  rw [hes]

/-! ## The interval DP realises the best chain: table lemmas -/

theorem mem_pyRange {n a : Int} : a ∈ pyRange n ↔ 0 ≤ a ∧ a < n := by
  unfold pyRange
  constructor
  · intro h
    obtain ⟨k, hk, rfl⟩ := List.mem_map.mp h
    have := List.mem_range.mp hk
    simp only [Int.ofNat_eq_coe]
    omega
  · rintro ⟨h0, h1⟩
    exact List.mem_map.mpr ⟨a.toNat, List.mem_range.mpr (by omega),
      by simp only [Int.ofNat_eq_coe]; omega⟩

theorem Tbl.get_nil (c : Int × Int) : Tbl.get [] c = dpInit c := rfl

theorem Tbl.get_set (t : Tbl) (c c' : Int × Int) (v : ℚ × Trace) :
    Tbl.get (Tbl.set t c v) c' = if c' = c then v else Tbl.get t c' := by
  unfold Tbl.set Tbl.get
  by_cases h : c' = c
  · subst h
    rw [List.find?_cons_of_pos _ (by simp), if_pos rfl]
  · rw [List.find?_cons_of_neg _ (by
      simp only [decide_eq_true_eq]
      exact fun hh => h hh.symm), if_neg h]

theorem foldl_max_init (l : List ℚ) (b : ℚ) : b ≤ l.foldl max b := by
  induction l generalizing b with
  | nil => exact le_refl b
  | cons x xs ih => exact le_trans (le_max_left b x) (ih (max b x))

theorem foldl_max_le_of_mem {l : List ℚ} {x : ℚ} (h : x ∈ l) (b : ℚ) :
    x ≤ l.foldl max b := by
  induction l generalizing b with
  | nil => cases h
  | cons y ys ih =>
    rcases List.mem_cons.mp h with rfl | h'
    · exact le_trans (le_max_right b x) (foldl_max_init ys (max b x))
    · exact ih h' (max b y)

theorem foldl_max_cases (l : List ℚ) (b : ℚ) :
    l.foldl max b = b ∨ ∃ x ∈ l, l.foldl max b = x := by
  induction l generalizing b with
  | nil => exact Or.inl rfl
  | cons y ys ih =>
    rcases ih (max b y) with h | ⟨x, hx, hx2⟩
    · rw [List.foldl_cons] at *
      rw [h]
      rcases max_cases b y with ⟨h1, _⟩ | ⟨h1, _⟩
      · exact Or.inl h1
      · exact Or.inr ⟨y, List.mem_cons_self _ _, h1⟩
    · exact Or.inr ⟨x, List.mem_cons_of_mem _ hx, by rw [List.foldl_cons]; exact hx2⟩

theorem foldl_max_le (l : List ℚ) (b m : ℚ) (hb : b ≤ m) (h : ∀ x ∈ l, x ≤ m) :
    l.foldl max b ≤ m := by
  rcases foldl_max_cases l b with h1 | ⟨x, hx, hx2⟩
  · rw [h1]; exact hb
  · rw [hx2]; exact h x hx

theorem dpStep_eq (tbl : Tbl) (e : DPair) :
    dpStep tbl e = (pyRange e.pl).foldl (fun t1 a =>
      (pyRange e.gl).foldl (fun t2 b => dpCell e t2 a b) t1) tbl := rfl

theorem dpCell_get_ne {e : DPair} {c : Int × Int} (hc : c ≠ (e.pr, e.gr))
    (t2 : Tbl) (a b : Int) : Tbl.get (dpCell e t2 a b) c = Tbl.get t2 c := by
  unfold dpCell
  split
  · rw [Tbl.get_set, if_neg hc]
  · rfl

theorem dpCell_get_target {e : DPair} (t2 : Tbl) (a b : Int) :
    (Tbl.get (dpCell e t2 a b) (e.pr, e.gr)).1 =
      max (Tbl.get t2 (e.pr, e.gr)).1 ((Tbl.get t2 (a, b)).1 + e.w) := by
  unfold dpCell
  split
  · rename_i h
    rw [Tbl.get_set, if_pos rfl]
    exact (max_eq_right (le_of_lt h)).symm
  · rename_i h
    exact (max_eq_left (not_lt.mp h)).symm

theorem dpStep_get_ne (tbl : Tbl) (e : DPair) (c : Int × Int)
    (hc : c ≠ (e.pr, e.gr)) : Tbl.get (dpStep tbl e) c = Tbl.get tbl c := by
  rw [dpStep_eq]
  have row : ∀ (bs : List Int) (a : Int) (t2 : Tbl),
      Tbl.get (bs.foldl (fun t2 b => dpCell e t2 a b) t2) c = Tbl.get t2 c := by
    intro bs
    induction bs with
    | nil => intro a t2; rfl
    | cons b bs ih =>
      intro a t2
      rw [List.foldl_cons, ih, dpCell_get_ne hc]
  have main : ∀ (as : List Int) (t1 : Tbl),
      Tbl.get (as.foldl (fun t1 a =>
        (pyRange e.gl).foldl (fun t2 b => dpCell e t2 a b) t1) t1) c = Tbl.get t1 c := by
    intro as
    induction as with
    | nil => intro t1; rfl
    | cons a as ih =>
      intro t1
      rw [List.foldl_cons, ih, row]
  exact main (pyRange e.pl) tbl

theorem dpRow_char (e : DPair) (a : Int) (tbl : Tbl) :
    ∀ (bs : List Int) (t2 : Tbl),
      (∀ c, c ≠ (e.pr, e.gr) → Tbl.get t2 c = Tbl.get tbl c) →
      (∀ b ∈ bs, (a, b) ≠ (e.pr, e.gr)) →
      (∀ c, c ≠ (e.pr, e.gr) →
        Tbl.get (bs.foldl (fun t2 b => dpCell e t2 a b) t2) c = Tbl.get tbl c) ∧
      (Tbl.get (bs.foldl (fun t2 b => dpCell e t2 a b) t2) (e.pr, e.gr)).1 =
        (bs.map (fun b => (Tbl.get tbl (a, b)).1 + e.w)).foldl max
          (Tbl.get t2 (e.pr, e.gr)).1 := by
  intro bs
  induction bs with
  | nil => intro t2 hOff _; exact ⟨hOff, rfl⟩
  | cons b bs ih =>
    intro t2 hOff hNe
    have hb : (a, b) ≠ (e.pr, e.gr) := hNe b (List.mem_cons_self _ _)
    have hOff' : ∀ c, c ≠ (e.pr, e.gr) → Tbl.get (dpCell e t2 a b) c = Tbl.get tbl c :=
      fun c hc => (dpCell_get_ne hc t2 a b).trans (hOff c hc)
    obtain ⟨h1, h2⟩ := ih (dpCell e t2 a b) hOff'
      (fun b' hb' => hNe b' (List.mem_cons_of_mem _ hb'))
    refine ⟨h1, ?_⟩
    rw [List.foldl_cons, List.map_cons, List.foldl_cons, h2, dpCell_get_target,
      hOff (a, b) hb]

theorem dpStep_char (tbl : Tbl) (e : DPair)
    (hNe : ∀ a ∈ pyRange e.pl, ∀ b ∈ pyRange e.gl, (a, b) ≠ (e.pr, e.gr)) :
    (Tbl.get (dpStep tbl e) (e.pr, e.gr)).1 =
      ((pyRange e.pl).flatMap (fun a => (pyRange e.gl).map
        (fun b => (Tbl.get tbl (a, b)).1 + e.w))).foldl max
        (Tbl.get tbl (e.pr, e.gr)).1 := by
  rw [dpStep_eq]
  have main : ∀ (as : List Int) (t1 : Tbl),
      (∀ c, c ≠ (e.pr, e.gr) → Tbl.get t1 c = Tbl.get tbl c) →
      (∀ a ∈ as, ∀ b ∈ pyRange e.gl, (a, b) ≠ (e.pr, e.gr)) →
      (Tbl.get (as.foldl (fun t1 a =>
          (pyRange e.gl).foldl (fun t2 b => dpCell e t2 a b) t1) t1) (e.pr, e.gr)).1 =
        (as.flatMap (fun a => (pyRange e.gl).map
          (fun b => (Tbl.get tbl (a, b)).1 + e.w))).foldl max
          (Tbl.get t1 (e.pr, e.gr)).1 := by
    intro as
    induction as with
    | nil => intro t1 _ _; rfl
    | cons a as ih =>
      intro t1 hOff hNe'
      obtain ⟨r1, r2⟩ := dpRow_char e a tbl (pyRange e.gl) t1 hOff
        (hNe' a (List.mem_cons_self _ _))
      have h2 := ih ((pyRange e.gl).foldl (fun t2 b => dpCell e t2 a b) t1) r1
        (fun a' ha' => hNe' a' (List.mem_cons_of_mem _ ha'))
      rw [List.foldl_cons, List.flatMap_cons, List.foldl_append, h2, r2]
  exact main (pyRange e.pl) tbl (fun _ _ => rfl) hNe

theorem dpTable_append_singleton (P : List DPair) (e : DPair) :
    dpTable (P ++ [e]) = dpStep (dpTable P) e := by
  unfold dpTable
  rw [List.foldl_append]
  rfl

theorem dpTable_zero (L : List DPair)
    (hL : ∀ e ∈ L, 1 ≤ e.pl ∧ e.pl ≤ e.pr) :
    Tbl.get (dpTable L) (0, 0) = (0, ∅) := by
  have main : ∀ (M : List DPair) (t : Tbl), (∀ e ∈ M, 1 ≤ e.pl ∧ e.pl ≤ e.pr) →
      Tbl.get t (0, 0) = (0, ∅) → Tbl.get (M.foldl dpStep t) (0, 0) = (0, ∅) := by
    intro M
    induction M with
    | nil => intro t _ ht; exact ht
    | cons e M ih =>
      intro t hall ht
      rw [List.foldl_cons]
      refine ih (dpStep t e) (fun e' he' => hall e' (List.mem_cons_of_mem _ he')) ?_
      obtain ⟨he1, he2⟩ := hall e (List.mem_cons_self _ _)
      have hne : ((0 : Int), (0 : Int)) ≠ (e.pr, e.gr) := by
        rw [Ne, Prod.mk.injEq]
        rintro ⟨h1, h2⟩
        omega
      rw [dpStep_get_ne t e (0, 0) hne, ht]
  exact main L [] hL rfl

theorem dpScan_val (tbl : Tbl) (np ng : Nat) (init : ℚ × Trace) :
    (dpScan tbl np ng init).1 =
      ((pyRange ((np : Int) + 1)).flatMap (fun a => (pyRange ((ng : Int) + 1)).map
        (fun b => (Tbl.get tbl (a, b)).1))).foldl max init.1 := by
  unfold dpScan
  have row : ∀ (bs : List Int) (a : Int) (acc : ℚ × Trace),
      ((bs.foldl (fun b2 b =>
        if (Tbl.get tbl (a, b)).1 > b2.1 then Tbl.get tbl (a, b) else b2) acc)).1 =
      (bs.map (fun b => (Tbl.get tbl (a, b)).1)).foldl max acc.1 := by
    intro bs
    induction bs with
    | nil => intro a acc; rfl
    | cons b bs ih =>
      intro a acc
      rw [List.foldl_cons, List.map_cons, List.foldl_cons, ih]
      congr 1
      by_cases h : (Tbl.get tbl (a, b)).1 > acc.1
      · rw [if_pos h]
        exact (max_eq_right (le_of_lt h)).symm
      · rw [if_neg h]
        exact (max_eq_left (not_lt.mp h)).symm
  have main : ∀ (as : List Int) (acc : ℚ × Trace),
      ((as.foldl (fun b1 a => (pyRange ((ng : Int) + 1)).foldl (fun b2 b =>
        if (Tbl.get tbl (a, b)).1 > b2.1 then Tbl.get tbl (a, b) else b2) b1) acc)).1 =
      (as.flatMap (fun a => (pyRange ((ng : Int) + 1)).map
        (fun b => (Tbl.get tbl (a, b)).1))).foldl max acc.1 := by
    intro as
    induction as with
    | nil => intro acc; rfl
    | cons a as ih =>
      intro acc
      rw [List.foldl_cons, List.flatMap_cons, List.foldl_append, ih, row]
  exact main (pyRange ((np : Int) + 1)) init

/-! ## Chains and the DP table characterisation -/

theorem chainVal_nil : chainVal [] = 0 := rfl

theorem chainVal_concat (ch : List DPair) (e : DPair) :
    chainVal (ch ++ [e]) = chainVal ch + e.w := by
  unfold chainVal
  rw [List.map_append, List.sum_append, List.map_singleton, List.sum_singleton]

theorem endCell_nil : endCell [] = (0, 0) := rfl

theorem endCell_concat (ch : List DPair) (e : DPair) :
    endCell (ch ++ [e]) = (e.pr, e.gr) := by
  unfold endCell
  rw [List.getLast?_concat]
  rfl

theorem okChain_nil : okChain [] := List.chain'_nil

theorem okChain_concat_elim :
    ∀ (ch : List DPair) (e : DPair), okChain (ch ++ [e]) →
      (∀ x ∈ ch, x.pl ≤ x.pr ∧ x.gl ≤ x.gr) →
      okChain ch ∧ ∀ x ∈ ch, x.pr < e.pl ∧ x.gr < e.gl := by
  intro ch
  induction ch with
  | nil => intro e _ _; exact ⟨okChain_nil, by simp⟩
  | cons y ys ih =>
    intro e h hmono
    unfold okChain at h ⊢
    rw [List.cons_append, List.chain'_cons'] at h
    obtain ⟨hhead, htail⟩ := h
    obtain ⟨hys, hbnd⟩ := ih e htail (fun x hx => hmono x (List.mem_cons_of_mem _ hx))
    cases ys with
    | nil =>
      have hy : DPair.before y e :=
        hhead e (by rw [List.nil_append, List.head?_cons]; exact rfl)
      refine ⟨List.chain'_singleton y, ?_⟩
      intro x hx
      rw [List.mem_singleton] at hx
      subst hx
      exact hy
    | cons z zs =>
      have hz : DPair.before y z :=
        hhead z (by rw [List.cons_append, List.head?_cons]; exact rfl)
      refine ⟨List.chain'_cons'.mpr ⟨?_, hys⟩, ?_⟩
      · intro b hb
        rw [List.head?_cons, Option.mem_some_iff] at hb
        subst hb
        exact hz
      · intro x hx
        rcases List.mem_cons.mp hx with rfl | hx'
        · have hzz := hbnd z (List.mem_cons_self _ _)
          have hzm := hmono z (List.mem_cons_of_mem _ (List.mem_cons_self _ _))
          obtain ⟨a1, a2⟩ := hz
          obtain ⟨b1, b2⟩ := hzz
          obtain ⟨c1, c2⟩ := hzm
          exact ⟨by omega, by omega⟩
        · exact hbnd x hx'

theorem okChain_head_lt :
    ∀ (x : DPair) (ch : List DPair), okChain (x :: ch) →
      (∀ z ∈ ch, z.pl ≤ z.pr ∧ z.gl ≤ z.gr) →
      ∀ z ∈ ch, x.pr < z.pl ∧ x.gr < z.gl := by
  intro x ch
  induction ch generalizing x with
  | nil => intro _ _ z hz; cases hz
  | cons y ys ih =>
    intro hok hmono z hz
    unfold okChain at hok
    rw [List.chain'_cons] at hok
    obtain ⟨h1, h2⟩ := hok
    rcases List.mem_cons.mp hz with rfl | hz'
    · exact h1
    · have h3 := ih y h2 (fun u hu => hmono u (List.mem_cons_of_mem _ hu)) z hz'
      have hy := hmono y (List.mem_cons_self _ _)
      obtain ⟨a1, a2⟩ := h1
      obtain ⟨b1, b2⟩ := h3
      obtain ⟨c1, c2⟩ := hy
      exact ⟨by omega, by omega⟩

theorem chain_sublist_of_mem :
    ∀ (L ch : List DPair), L.Pairwise (fun x y => ¬ DPair.before y x) →
      (∀ x ∈ L, x.pl ≤ x.pr ∧ x.gl ≤ x.gr) →
      okChain ch → (∀ x ∈ ch, x ∈ L) → ch.Sublist L := by
  intro L
  induction L with
  | nil =>
    intro ch _ _ _ hmem
    cases ch with
    | nil => exact List.Sublist.refl _
    | cons x xs => exact absurd (hmem x (List.mem_cons_self _ _)) (List.not_mem_nil x)
  | cons y L ih =>
    intro ch hpw hmono hok hmem
    cases ch with
    | nil => exact List.nil_sublist _
    | cons x xs =>
      have hy := (List.pairwise_cons.mp hpw).1
      have hpw' := (List.pairwise_cons.mp hpw).2
      have hmono' : ∀ z ∈ L, z.pl ≤ z.pr ∧ z.gl ≤ z.gr :=
        fun z hz => hmono z (List.mem_cons_of_mem _ hz)
      have hmonoxs : ∀ z ∈ xs, z.pl ≤ z.pr ∧ z.gl ≤ z.gr :=
        fun z hz => hmono z (hmem z (List.mem_cons_of_mem _ hz))
      have hlt := okChain_head_lt x xs hok hmonoxs
      by_cases hxy : x = y
      · subst hxy
        refine List.Sublist.cons₂ x (ih xs hpw' hmono' ?_ ?_)
        · exact List.Chain'.tail hok
        · intro z hz
          have hzL := hmem z (List.mem_cons_of_mem _ hz)
          rcases List.mem_cons.mp hzL with hzx | hzz
          · exfalso
            have h1 := hlt z hz
            have h2 := hmonoxs z hz
            rw [hzx] at h1 h2
            obtain ⟨a1, _⟩ := h1
            obtain ⟨b1, _⟩ := h2
            omega
          · exact hzz
      · have hxL : x ∈ L := by
          rcases List.mem_cons.mp (hmem x (List.mem_cons_self _ _)) with h | h
          · exact absurd h hxy
          · exact h
        have hmemL : ∀ z ∈ x :: xs, z ∈ L := by
          intro z hz
          rcases List.mem_cons.mp (hmem z hz) with hzy | hzz
          · exfalso
            rcases List.mem_cons.mp hz with rfl | hz'
            · exact hxy hzy
            · have h1 := hlt z hz'
              rw [hzy] at h1
              exact (hy x hxL) h1
          · exact hzz
        exact List.Sublist.cons y (ih (x :: xs) hpw' hmono' hok hmemL)

theorem le_chainBest {L ch : List DPair} (hsub : ch.Sublist L) (hok : okChain ch) :
    chainVal ch ≤ chainBest L := by
  unfold chainBest
  refine foldl_max_le_of_mem ?_ 0
  refine List.mem_map.mpr ⟨ch, ?_, rfl⟩
  exact List.mem_filter.mpr ⟨List.mem_sublists.mpr hsub, decide_eq_true hok⟩

theorem chainBest_nonneg (L : List DPair) : 0 ≤ chainBest L := foldl_max_init _ 0

theorem chainBest_cases (L : List DPair) :
    chainBest L = 0 ∨ ∃ ch, okChain ch ∧ ch.Sublist L ∧ chainBest L = chainVal ch := by
  unfold chainBest
  rcases foldl_max_cases ((L.sublists.filter (fun ch => decide (okChain ch))).map chainVal) 0
    with h | ⟨x, hx, hx2⟩
  · exact Or.inl h
  · right
    obtain ⟨ch, hch, rfl⟩ := List.mem_map.mp hx
    obtain ⟨hsub, hdec⟩ := List.mem_filter.mp hch
    exact ⟨ch, of_decide_eq_true hdec, List.mem_sublists.mp hsub, hx2⟩

theorem GoodPairs.append_left {P : List DPair} {e : DPair} {np ng : Nat}
    (h : GoodPairs (P ++ [e]) np ng) : GoodPairs P np ng :=
  ⟨fun x hx => h.1 x (List.mem_append_left _ hx), (List.pairwise_append.mp h.2).1⟩

theorem good_edge_sources {e : DPair} (h1 : 1 ≤ e.pl) (h2 : e.pl ≤ e.pr) :
    ∀ a ∈ pyRange e.pl, ∀ b ∈ pyRange e.gl, (a, b) ≠ (e.pr, e.gr) := by
  intro a ha b hb
  rw [mem_pyRange] at ha
  rw [Ne, Prod.mk.injEq]
  rintro ⟨hh, _⟩
  omega

/-- The DP table after processing a good edge list: every chain of processed
edges is credited at its end cell (completeness), and every cell holds either
the untouched `-1e10` initial value or the exact value of some chain of
processed edges ending there (soundness). -/
theorem dpTable_char {np ng : Nat} :
    ∀ L : List DPair, GoodPairs L np ng →
      ((∀ ch, okChain ch → (∀ x ∈ ch, x ∈ L) →
          chainVal ch ≤ (Tbl.get (dpTable L) (endCell ch)).1) ∧
       (∀ c, (Tbl.get (dpTable L) c).1 = negBig ∨
          ∃ ch, okChain ch ∧ (∀ x ∈ ch, x ∈ L) ∧ endCell ch = c ∧
            (Tbl.get (dpTable L) c).1 = chainVal ch)) := by
  intro L
  induction L using List.reverseRecOn with
  | nil =>
    intro _
    have hz : Tbl.get (dpTable []) (0, 0) = (0, ∅) := dpTable_zero [] (by simp)
    constructor
    · intro ch hok hmem
      have hch : ch = [] := by
        cases ch with
        | nil => rfl
        | cons x xs => exact absurd (hmem x (List.mem_cons_self _ _)) (List.not_mem_nil x)
      subst hch
      rw [endCell_nil, chainVal_nil, hz]
    · intro c
      by_cases hc : c = ((0 : Int), (0 : Int))
      · subst hc
        right
        refine ⟨[], okChain_nil, by simp, endCell_nil, ?_⟩
        rw [chainVal_nil, hz]
      · left
        show (Tbl.get [] c).1 = negBig
        rw [Tbl.get_nil]
        unfold dpInit
        rw [if_neg hc]
  | append_singleton P e ih =>
    intro hPe
    have hP : GoodPairs P np ng := GoodPairs.append_left hPe
    obtain ⟨ihc, ihs⟩ := ih hP
    obtain ⟨e1, e2, e3, e4, e5, e6, e7⟩ :=
      hPe.1 e (List.mem_append_right _ (List.mem_singleton.mpr rfl))
    have hNe := good_edge_sources e1 e2
    have htab := dpTable_append_singleton P e
    have hoff : ∀ c, c ≠ (e.pr, e.gr) →
        Tbl.get (dpTable (P ++ [e])) c = Tbl.get (dpTable P) c := by
      intro c hc
      rw [htab, dpStep_get_ne _ _ _ hc]
    have htar : (Tbl.get (dpTable (P ++ [e])) (e.pr, e.gr)).1 =
        ((pyRange e.pl).flatMap (fun a => (pyRange e.gl).map
          (fun b => (Tbl.get (dpTable P) (a, b)).1 + e.w))).foldl max
          (Tbl.get (dpTable P) (e.pr, e.gr)).1 := by
      rw [htab]
      exact dpStep_char _ _ hNe
    have hmonoAll : ∀ x ∈ P ++ [e], x.pl ≤ x.pr ∧ x.gl ≤ x.gr := by
      intro x hx
      obtain ⟨_, b2, _, _, b5, _, _⟩ := hPe.1 x hx
      exact ⟨b2, b5⟩
    have hzero : Tbl.get (dpTable P) (0, 0) = (0, ∅) := by
      refine dpTable_zero P (fun x hx => ?_)
      obtain ⟨b1, b2, _⟩ := hP.1 x hx
      exact ⟨b1, b2⟩
    constructor
    · intro ch hok hmem
      by_cases hall : ∀ x ∈ ch, x ∈ P
      · have h1 := ihc ch hok hall
        by_cases hc : endCell ch = (e.pr, e.gr)
        · rw [hc] at h1 ⊢
          rw [htar]
          exact le_trans h1 (foldl_max_init _ _)
        · rw [hoff _ hc]
          exact h1
      · push_neg at hall
        obtain ⟨x0, hx0, hx0P⟩ := hall
        have hx0e : x0 = e := by
          rcases List.mem_append.mp (hmem x0 hx0) with h | h
          · exact absurd h hx0P
          · exact List.mem_singleton.mp h
        subst hx0e
        obtain ⟨ch₁, ch₂, rfl⟩ := List.append_of_mem hx0
        have hch2 : ch₂ = [] := by
          cases ch₂ with
          | nil => rfl
          | cons z zs =>
            exfalso
            have hsuf : List.Chain' DPair.before (x0 :: z :: zs) :=
              List.Chain'.suffix hok (List.suffix_append _ _)
            have hez : DPair.before x0 z := (List.chain'_cons.mp hsuf).1
            have hzmem := hmem z (List.mem_append.mpr (Or.inr
              (List.mem_cons_of_mem _ (List.mem_cons_self _ _))))
            rcases List.mem_append.mp hzmem with hzP | hze
            · have hpair := List.pairwise_append.mp hPe.2
              exact (hpair.2.2 z hzP x0 (List.mem_singleton.mpr rfl)) hez
            · have hz : z = x0 := List.mem_singleton.mp hze
              rw [hz] at hez
              obtain ⟨hh1, _⟩ := hez
              omega
        subst hch2
        have hm1 : ∀ x ∈ ch₁, x.pl ≤ x.pr ∧ x.gl ≤ x.gr :=
          fun x hx => hmonoAll x (hmem x (List.mem_append_left _ hx))
        obtain ⟨hok1, hbnd⟩ := okChain_concat_elim ch₁ x0 hok hm1
        have hmem1 : ∀ x ∈ ch₁, x ∈ P := by
          intro x hx
          rcases List.mem_append.mp (hmem x (List.mem_append_left _ hx)) with h | h
          · exact h
          · exfalso
            have hxe := List.mem_singleton.mp h
            have hb := hbnd x hx
            rw [hxe] at hb
            obtain ⟨hh1, _⟩ := hb
            omega
        have h1 := ihc ch₁ hok1 hmem1
        have hsrc : 0 ≤ (endCell ch₁).1 ∧ (endCell ch₁).1 < x0.pl ∧
            0 ≤ (endCell ch₁).2 ∧ (endCell ch₁).2 < x0.gl := by
          rcases List.eq_nil_or_concat ch₁ with rfl | ⟨l, x, rfl⟩
          · rw [endCell_nil]
            exact ⟨le_refl _, by omega, le_refl _, by omega⟩
          · simp only [List.concat_eq_append] at hbnd hmem ⊢
            rw [endCell_concat]
            have hxm : x ∈ l ++ [x] := List.mem_append_right _ (List.mem_singleton.mpr rfl)
            obtain ⟨d1, d2⟩ := hbnd x hxm
            obtain ⟨c1, c2, _, c4, c5, _, _⟩ :=
              hPe.1 x (hmem x (List.mem_append_left _ hxm))
            exact ⟨by omega, by omega, by omega, by omega⟩
        rw [chainVal_concat, endCell_concat, htar]
        have hprop : (Tbl.get (dpTable P) (endCell ch₁)).1 + x0.w ∈
            (pyRange x0.pl).flatMap (fun a => (pyRange x0.gl).map
              (fun b => (Tbl.get (dpTable P) (a, b)).1 + x0.w)) := by
          refine List.mem_flatMap.mpr
            ⟨(endCell ch₁).1, mem_pyRange.mpr ⟨hsrc.1, hsrc.2.1⟩, ?_⟩
          exact List.mem_map.mpr
            ⟨(endCell ch₁).2, mem_pyRange.mpr ⟨hsrc.2.2.1, hsrc.2.2.2⟩, rfl⟩
        refine le_trans (add_le_add_right h1 x0.w) (foldl_max_le_of_mem hprop _)
    · intro c
      by_cases hc : c = (e.pr, e.gr)
      · subst hc
        rw [htar]
        rcases foldl_max_cases _ (Tbl.get (dpTable P) (e.pr, e.gr)).1 with hcase | ⟨x, hx, hx2⟩
        · rw [hcase]
          rcases ihs (e.pr, e.gr) with h | ⟨ch, hok, hmem, hend, hval⟩
          · exact Or.inl h
          · exact Or.inr ⟨ch, hok, fun x hx => List.mem_append_left _ (hmem x hx), hend, hval⟩
        · obtain ⟨a, ha, hmapx⟩ := List.mem_flatMap.mp hx
          obtain ⟨b, hb, rfl⟩ := List.mem_map.mp hmapx
          rcases ihs (a, b) with h | ⟨ch, hok, hmem, hend, hval⟩
          · exfalso
            have h00 : (Tbl.get (dpTable P) ((0 : Int), (0 : Int))).1 + e.w ∈
                (pyRange e.pl).flatMap (fun a => (pyRange e.gl).map
                  (fun b => (Tbl.get (dpTable P) (a, b)).1 + e.w)) := by
              refine List.mem_flatMap.mpr ⟨0, mem_pyRange.mpr ⟨le_refl _, by omega⟩, ?_⟩
              exact List.mem_map.mpr ⟨0, mem_pyRange.mpr ⟨le_refl _, by omega⟩, rfl⟩
            have hge := foldl_max_le_of_mem h00 (Tbl.get (dpTable P) (e.pr, e.gr)).1
            rw [hx2, h, hzero] at hge
            have : (0 : ℚ) ≤ negBig := le_of_add_le_add_right hge
            norm_num [negBig] at this
          · right
            refine ⟨ch ++ [e], ?_, ?_, endCell_concat _ _, ?_⟩
            · unfold okChain at hok ⊢
              rw [List.chain'_append]
              refine ⟨hok, List.chain'_singleton e, ?_⟩
              intro x hxl y hyh
              rw [List.head?_cons, Option.mem_some_iff] at hyh
              subst hyh
              rcases List.eq_nil_or_concat ch with rfl | ⟨l, z, rfl⟩
              · rw [List.getLast?_nil] at hxl
                cases hxl
              · simp only [List.concat_eq_append] at hxl hend
                rw [List.getLast?_concat, Option.mem_some_iff] at hxl
                subst hxl
                rw [endCell_concat, Prod.mk.injEq] at hend
                obtain ⟨hza, hzb⟩ := hend
                rw [mem_pyRange] at ha hb
                exact ⟨by omega, by omega⟩
            · intro x hx
              rcases List.mem_append.mp hx with h' | h'
              · exact List.mem_append_left _ (hmem x h')
              · exact List.mem_append_right _ h'
            · rw [hx2, hval, chainVal_concat]
      · rw [hoff c hc]
        rcases ihs c with h | ⟨ch, hok, hmem, hend, hval⟩
        · exact Or.inl h
        · exact Or.inr ⟨ch, hok, fun x hx => List.mem_append_left _ (hmem x hx), hend, hval⟩

/-- The scan of the DP table built from a good edge list returns the maximum
of the initial best value and the best chain value. -/
theorem dp_closed_form (L : List DPair) (np ng : Nat) (init : ℚ × Trace)
    (hL : GoodPairs L np ng) :
    (dpScan (dpTable L) np ng init).1 = max init.1 (chainBest L) := by
  obtain ⟨hcmp, hsnd⟩ := dpTable_char L hL
  have hmono : ∀ x ∈ L, x.pl ≤ x.pr ∧ x.gl ≤ x.gr := by
    intro x hx
    obtain ⟨_, b2, _, _, b5, _, _⟩ := hL.1 x hx
    exact ⟨b2, b5⟩
  have hzero : Tbl.get (dpTable L) (0, 0) = (0, ∅) := by
    refine dpTable_zero L (fun x hx => ?_)
    obtain ⟨b1, b2, _⟩ := hL.1 x hx
    exact ⟨b1, b2⟩
  rw [dpScan_val]
  apply le_antisymm
  · refine foldl_max_le _ _ _ (le_max_left _ _) ?_
    intro x hx
    obtain ⟨a, ha, hmapx⟩ := List.mem_flatMap.mp hx
    obtain ⟨b, hb, rfl⟩ := List.mem_map.mp hmapx
    rcases hsnd (a, b) with h | ⟨ch, hok, hmem, hend, hval⟩
    · rw [h]
      refine le_trans (le_trans (by norm_num [negBig]) (chainBest_nonneg L))
        (le_max_right init.1 _)
    · rw [hval]
      exact le_trans
        (le_chainBest (chain_sublist_of_mem L ch hL.2 hmono hok hmem) hok)
        (le_max_right init.1 _)
  · rw [max_le_iff]
    constructor
    · exact foldl_max_init _ _
    · rcases chainBest_cases L with h | ⟨ch, hok, hsub, hval⟩
      · rw [h]
        have h00 : (Tbl.get (dpTable L) ((0 : Int), (0 : Int))).1 ∈
            (pyRange ((np : Int) + 1)).flatMap (fun a => (pyRange ((ng : Int) + 1)).map
              (fun b => (Tbl.get (dpTable L) (a, b)).1)) := by
          refine List.mem_flatMap.mpr ⟨0, mem_pyRange.mpr ⟨le_refl _, by omega⟩, ?_⟩
          exact List.mem_map.mpr ⟨0, mem_pyRange.mpr ⟨le_refl _, by omega⟩, rfl⟩
        have hge := foldl_max_le_of_mem h00 init.1
        rw [hzero] at hge
        exact hge
      · rw [hval]
        have hmem : ∀ x ∈ ch, x ∈ L := fun x hx => hsub.subset hx
        have h1 := hcmp ch hok hmem
        have hcell : (Tbl.get (dpTable L) (endCell ch)).1 ∈
            (pyRange ((np : Int) + 1)).flatMap (fun a => (pyRange ((ng : Int) + 1)).map
              (fun b => (Tbl.get (dpTable L) (a, b)).1)) := by
          have hrange : 0 ≤ (endCell ch).1 ∧ (endCell ch).1 < (np : Int) + 1 ∧
              0 ≤ (endCell ch).2 ∧ (endCell ch).2 < (ng : Int) + 1 := by
            rcases List.eq_nil_or_concat ch with rfl | ⟨l, x, rfl⟩
            · rw [endCell_nil]
              exact ⟨le_refl _, by omega, le_refl _, by omega⟩
            · simp only [List.concat_eq_append] at hmem ⊢
              rw [endCell_concat]
              obtain ⟨c1, c2, c3, c4, c5, c6, _⟩ :=
                hL.1 x (hmem x (List.mem_append_right _ (List.mem_singleton.mpr rfl)))
              exact ⟨by omega, by omega, by omega, by omega⟩
          refine List.mem_flatMap.mpr
            ⟨(endCell ch).1, mem_pyRange.mpr ⟨hrange.1, hrange.2.1⟩, ?_⟩
          exact List.mem_map.mpr
            ⟨(endCell ch).2, mem_pyRange.mpr ⟨hrange.2.2.1, hrange.2.2.2⟩, rfl⟩
        exact le_trans h1 (foldl_max_le_of_mem hcell _)

/-! ## Span-IoU bounds and symmetry -/

theorem span_iou_nonneg (a b : ℚ × ℚ) : 0 ≤ span_iou a b := by
  have heps : (0 : ℚ) < eps := by norm_num [eps]
  unfold span_iou
  dsimp only
  split_ifs with h
  · exact le_refl 0
  · push_neg at h
    exact div_nonneg (le_trans heps.le h.1) (le_trans heps.le h.2)

theorem span_iou_le_one (a b : ℚ × ℚ) : span_iou a b ≤ 1 := by
  have heps : (0 : ℚ) < eps := by norm_num [eps]
  have hle : min a.2 b.2 - max a.1 b.1 ≤ max a.2 b.2 - min a.1 b.1 :=
    sub_le_sub min_le_max min_le_max
  unfold span_iou
  dsimp only
  split_ifs with h
  · exact zero_le_one
  · push_neg at h
    exact (div_le_one (lt_of_lt_of_le heps h.2)).mpr hle

theorem span_iou_comm (a b : ℚ × ℚ) : span_iou a b = span_iou b a := by
  unfold span_iou
  dsimp only
  rw [min_comm a.2 b.2, max_comm a.1 b.1, max_comm a.2 b.2, min_comm a.1 b.1]

theorem span_iou_self {a : ℚ × ℚ} (h : eps ≤ a.2 - a.1) : span_iou a a = 1 := by
  have hpos : (0 : ℚ) < a.2 - a.1 := lt_of_lt_of_le (by norm_num [eps]) h
  unfold span_iou
  dsimp only
  simp only [min_self, max_self]
  rw [if_neg (by push_neg; exact ⟨h, h⟩)]
  exact div_self (ne_of_gt hpos)

theorem spanIous_nonneg (A : TreeAligner) (i j : Nat) : 0 ≤ A.spanIous i j := by
  unfold TreeAligner.spanIous
  split
  · exact span_iou_nonneg _ _
  · exact le_refl 0

theorem spanIous_le_one (A : TreeAligner) (i j : Nat) : A.spanIous i j ≤ 1 := by
  unfold TreeAligner.spanIous
  split
  · exact span_iou_le_one _ _
  · exact zero_le_one

/-! ## Resolving subtree indices to nodes -/

theorem subtreeIdx_node {t : ETree} (hw : t.swfB = true) {i : Nat}
    (hi : i ∈ t.subtreeIndices) :
    t.index2node i ∈ t.nodesPre ∧ (t.index2node i).index = i := by
  rw [swf_subtreeIndices hw] at hi
  have h1 : i ∈ t.nodesPre.map ETree.index := by
    rw [swf_map_index hw]
    exact hi
  obtain ⟨u, hu, hui⟩ := List.mem_map.mp h1
  have h2 : t.index2node i = u := by
    rw [← hui]
    exact swf_index2node hw hu
  exact ⟨by rw [h2]; exact hu, by rw [h2, hui]⟩

theorem filterIdx_node {t : ETree} (hw : t.swfB = true) {i : Nat}
    (hi : i ∈ t.subtreeIndices.filter (fun j => j ≠ t.index)) :
    t.index2node i ∈ t.nodesPre ∧ (t.index2node i).index = i ∧ t.index2node i ≠ t := by
  have hmem : i ∈ t.subtreeIndices := List.mem_of_mem_filter hi
  obtain ⟨h1, h2⟩ := subtreeIdx_node hw hmem
  have hne : i ≠ t.index := by
    have := (List.mem_filter.mp hi).2
    simpa using this
  refine ⟨h1, h2, ?_⟩
  intro hut
  rw [hut] at h2
  exact hne h2.symm

theorem proper_index_gt {t u : ETree} (hw : t.swfB = true) (hu : u ∈ t.nodesPre)
    (hne : u ≠ t) : t.index < u.index := by
  have hb := (swf_block hw hu).1
  rcases lt_or_eq_of_le hb with h | h
  · exact h
  · exact absurd (swf_index_inj hw hu (self_mem_nodesPre t) h.symm) hne

theorem subtreeIndices_sorted {t : ETree} (hw : t.swfB = true) :
    t.subtreeIndices.Pairwise (· < ·) := by
  rw [swf_subtreeIndices hw]
  have := List.pairwise_lt_range' t.index t.cnt 1 (by omega)
  exact this

theorem filterIdx_sorted {t : ETree} (hw : t.swfB = true) :
    (t.subtreeIndices.filter (fun j => j ≠ t.index)).Pairwise (· < ·) := by
  rw [swf_filterIdx hw]
  have := List.pairwise_lt_range' (t.index + 1) (t.cnt - 1) 1 (by omega)
  exact this

/-! ## Membership in the aligner edge lists -/

theorem mem_mkPairs {w : ETree → ETree → ℚ × Trace} {p g : ETree} {e : DPair} :
    e ∈ mkPairs w p g ↔
      ∃ pj ∈ p.subtreeIndices.filter (fun i => i ≠ p.index),
        ∃ gj ∈ g.subtreeIndices.filter (fun j => j ≠ g.index),
          e = { pl := (p.index2node pj).leafRange.1 - p.leafRange.1 + 1,
                pr := (p.index2node pj).leafRange.2 - p.leafRange.1 + 1,
                gl := (g.index2node gj).leafRange.1 - g.leafRange.1 + 1,
                gr := (g.index2node gj).leafRange.2 - g.leafRange.1 + 1,
                w := (w (p.index2node pj) (g.index2node gj)).1,
                tr := (w (p.index2node pj) (g.index2node gj)).2 } := by
  unfold mkPairs
  simp only [List.mem_flatMap, List.mem_map]
  constructor
  · rintro ⟨pj, hpj, gj, hgj, rfl⟩
    exact ⟨pj, hpj, gj, hgj, rfl⟩
  · rintro ⟨pj, hpj, gj, hgj, rfl⟩
    exact ⟨pj, hpj, gj, hgj, rfl⟩

theorem mem_topPairs {A : TreeAligner} {e : DPair} :
    e ∈ topPairs A ↔
      ∃ pj ∈ A.ptree.subtreeIndices, ∃ gj ∈ A.gtree.subtreeIndices,
        ¬ (pj = 0 ∧ gj = 0) ∧
        e = { pl := (A.ptree.index2node pj).leafRange.1,
              pr := (A.ptree.index2node pj).leafRange.2,
              gl := (A.gtree.index2node gj).leafRange.1,
              gr := (A.gtree.index2node gj).leafRange.2,
              w := (A.align (A.ptree.index2node pj) (A.gtree.index2node gj)).1,
              tr := (A.align (A.ptree.index2node pj) (A.gtree.index2node gj)).2 } := by
  unfold topPairs
  simp only [List.mem_flatMap, List.mem_filterMap]
  constructor
  · rintro ⟨pj, hpj, gj, hgj, hsome⟩
    by_cases hc : pj = 0 ∧ gj = 0
    · rw [if_pos hc] at hsome
      cases hsome
    · rw [if_neg hc] at hsome
      exact ⟨pj, hpj, gj, hgj, hc, (Option.some_inj.mp hsome).symm⟩
  · rintro ⟨pj, hpj, gj, hgj, hc, rfl⟩
    exact ⟨pj, hpj, gj, hgj, by rw [if_neg hc]⟩

/-! ## The aligner edge lists are good -/

theorem mkPairs_bounds {w : ETree → ETree → ℚ × Trace} {p g : ETree}
    (hp : p.swfB = true) (hg : g.swfB = true) :
    ∀ e ∈ mkPairs w p g, 1 ≤ e.pl ∧ e.pl ≤ e.pr ∧ e.pr ≤ (p.leavesCount : Int) ∧
      1 ≤ e.gl ∧ e.gl ≤ e.gr ∧ e.gr ≤ (g.leavesCount : Int) := by
  intro e he
  rw [mem_mkPairs] at he
  obtain ⟨pj, hpj, gj, hgj, rfl⟩ := he
  obtain ⟨hum, _, _⟩ := filterIdx_node hp hpj
  obtain ⟨hvm, _, _⟩ := filterIdx_node hg hgj
  obtain ⟨a1, a2, a3, a4⟩ := swf_leaf_bounds hp hum
  obtain ⟨b1, b2, b3, b4⟩ := swf_leaf_bounds hg hvm
  have hpl := swf_leaves hp
  have hgl := swf_leaves hg
  dsimp only
  exact ⟨by omega, by omega, by omega, by omega, by omega, by omega⟩

theorem pairwise_flatMap_map {ps gs : List Nat} {f : Nat → Nat → DPair}
    (hkey : ∀ pj₁ ∈ ps, ∀ gj₁ ∈ gs, ∀ pj₂ ∈ ps, ∀ gj₂ ∈ gs,
      DPair.before (f pj₂ gj₂) (f pj₁ gj₁) → pj₂ < pj₁ ∧ gj₂ < gj₁)
    (hp : ps.Pairwise (· < ·)) (hg : gs.Pairwise (· < ·)) :
    (ps.flatMap (fun pj => gs.map (f pj))).Pairwise (fun x y => ¬ DPair.before y x) := by
  induction ps with
  | nil => exact List.Pairwise.nil
  | cons pj ps ih =>
    rw [List.flatMap_cons, List.pairwise_append]
    obtain ⟨hpj, hps⟩ := List.pairwise_cons.mp hp
    refine ⟨?_, ?_, ?_⟩
    · refine List.pairwise_map.mpr ?_
      refine hg.imp_of_mem ?_
      intro gj₁ gj₂ h1m h2m hlt hbef
      have := hkey pj (List.mem_cons_self _ _) gj₁ h1m pj (List.mem_cons_self _ _) gj₂ h2m hbef
      omega
    · refine ih (fun a ha b hb c hc d hd => hkey a (List.mem_cons_of_mem _ ha) b hb c
        (List.mem_cons_of_mem _ hc) d hd) hps
    · intro x hx y hy
      obtain ⟨gj₁, hgj₁, rfl⟩ := List.mem_map.mp hx
      obtain ⟨pj₂, hpj₂, hy2⟩ := List.mem_flatMap.mp hy
      obtain ⟨gj₂, hgj₂, rfl⟩ := List.mem_map.mp hy2
      intro hbef
      have hk := hkey pj (List.mem_cons_self _ _) gj₁ hgj₁ pj₂ (List.mem_cons_of_mem _ hpj₂)
        gj₂ hgj₂ hbef
      have := hpj pj₂ hpj₂
      omega

theorem mkPairs_pairwise {w : ETree → ETree → ℚ × Trace} {p g : ETree}
    (hp : p.swfB = true) (hg : g.swfB = true) :
    (mkPairs w p g).Pairwise (fun x y => ¬ DPair.before y x) := by
  unfold mkPairs
  refine pairwise_flatMap_map ?_ (filterIdx_sorted hp) (filterIdx_sorted hg)
  intro pj₁ h1 gj₁ hg1 pj₂ h2 gj₂ hg2 hbef
  obtain ⟨hu1m, hu1i, _⟩ := filterIdx_node hp h1
  obtain ⟨hu2m, hu2i, _⟩ := filterIdx_node hp h2
  obtain ⟨hv1m, hv1i, _⟩ := filterIdx_node hg hg1
  obtain ⟨hv2m, hv2i, _⟩ := filterIdx_node hg hg2
  obtain ⟨hb1, hb2⟩ := hbef
  dsimp only at hb1 hb2
  have hlt1 : (p.index2node pj₂).leafRange.2 < (p.index2node pj₁).leafRange.1 := by omega
  have hlt2 : (g.index2node gj₂).leafRange.2 < (g.index2node gj₁).leafRange.1 := by omega
  have ho1 := swf_order hp hu2m hu1m hlt1
  have ho2 := swf_order hg hv2m hv1m hlt2
  have hc1 := cnt_pos (p.index2node pj₂)
  have hc2 := cnt_pos (g.index2node gj₂)
  rw [hu1i, hu2i] at ho1
  rw [hv1i, hv2i] at ho2
  exact ⟨by omega, by omega⟩

theorem dpScan_ge_zero (L : List DPair) (np ng : Nat) (init : ℚ × Trace)
    (hL : ∀ e ∈ L, 1 ≤ e.pl ∧ e.pl ≤ e.pr) :
    (0 : ℚ) ≤ (dpScan (dpTable L) np ng init).1 := by
  rw [dpScan_val]
  have hzero := dpTable_zero L hL
  have h00 : (Tbl.get (dpTable L) ((0 : Int), (0 : Int))).1 ∈
      (pyRange ((np : Int) + 1)).flatMap (fun a => (pyRange ((ng : Int) + 1)).map
        (fun b => (Tbl.get (dpTable L) (a, b)).1)) := by
    refine List.mem_flatMap.mpr ⟨0, mem_pyRange.mpr ⟨le_refl _, by omega⟩, ?_⟩
    exact List.mem_map.mpr ⟨0, mem_pyRange.mpr ⟨le_refl _, by omega⟩, rfl⟩
  have hle := foldl_max_le_of_mem h00 init.1
  rw [hzero] at hle
  exact hle

/-- The alignment weight of any pair of (structurally well-formed) nodes is
nonnegative: the Python memo sentinel `-1` can never be a computed value. -/
theorem align_nonneg (A : TreeAligner) (p g : ETree)
    (hp : p.swfB = true) (hg : g.swfB = true) : 0 ≤ (A.align p g).1 := by
  by_cases h1 : rejectCond A p g
  · rw [align_reject h1]
  by_cases h2 : p.isPreterminal ∨ g.isPreterminal
  · rw [align_preterm h1 h2]
    exact spanIous_nonneg A p.index g.index
  · rw [align_general h1 h2]
    dsimp only
    have hs := dpScan_ge_zero (alignPairs A p g) p.leavesCount g.leavesCount (-1, ∅)
      (fun e he => ⟨(mkPairs_bounds hp hg e he).1, (mkPairs_bounds hp hg e he).2.1⟩)
    exact add_nonneg hs (spanIous_nonneg A p.index g.index)

theorem alignPairs_good {A : TreeAligner} {p g : ETree}
    (hp : p.swfB = true) (hg : g.swfB = true) :
    GoodPairs (alignPairs A p g) p.leavesCount g.leavesCount := by
  constructor
  · intro e he
    obtain ⟨b1, b2, b3, b4, b5, b6⟩ := mkPairs_bounds hp hg e he
    refine ⟨b1, b2, b3, b4, b5, b6, ?_⟩
    unfold alignPairs at he
    rw [mem_mkPairs] at he
    obtain ⟨pj, hpj, gj, hgj, rfl⟩ := he
    dsimp only
    exact align_nonneg A _ _ (swf_sub hp (filterIdx_node hp hpj).1)
      (swf_sub hg (filterIdx_node hg hgj).1)
  · exact mkPairs_pairwise hp hg

/-- The general case of `align`, in closed form: the best chain of
proper-descendant pair edges plus the pair's own thresholded span IoU. -/
theorem align_general_val {A : TreeAligner} {p g : ETree}
    (hp : p.swfB = true) (hg : g.swfB = true)
    (h1 : ¬ rejectCond A p g) (h2 : ¬ (p.isPreterminal ∨ g.isPreterminal)) :
    (A.align p g).1 = chainBest (alignPairs A p g) + A.spanIous p.index g.index := by
  rw [align_general h1 h2]
  dsimp only
  congr 1
  rw [dp_closed_form _ _ _ _ (alignPairs_good hp hg)]
  exact max_eq_right (le_trans (by norm_num) (chainBest_nonneg _))

/-! ## The chain bound: disjoint subtrees cannot out-count the whole tree -/

theorem chainVal_cons (x : DPair) (ch : List DPair) :
    chainVal (x :: ch) = x.w + chainVal ch := by
  unfold chainVal
  rw [List.map_cons, List.sum_cons]

/-- The per-edge facts needed for the counting bound: each edge of `L` comes
from a pair of nodes of the two trees at fixed endpoint offsets, its weight
is bounded by both node counts, and both node indices sit at least `dP`
(resp. `dG`) past the root index. -/
def EdgeNodes (L : List DPair) (p g : ETree) (op og : Int) (dP dG : ℚ) : Prop :=
  ∀ x ∈ L, ∃ u ∈ p.nodesPre, ∃ v ∈ g.nodesPre,
    x.pl = u.leafRange.1 + op ∧ x.pr = u.leafRange.2 + op ∧
    x.gl = v.leafRange.1 + og ∧ x.gr = v.leafRange.2 + og ∧
    x.w ≤ (u.cnt : ℚ) ∧ x.w ≤ (v.cnt : ℚ) ∧
    (p.index : ℚ) + dP ≤ (u.index : ℚ) ∧ (g.index : ℚ) + dG ≤ (v.index : ℚ)

theorem chain_nodes_bound_aux {L : List DPair} {p g : ETree}
    (hp : p.swfB = true) (hg : g.swfB = true) {op og : Int} {dP dG : ℚ}
    (helem : EdgeNodes L p g op og dP dG) :
    ∀ ch x, okChain (x :: ch) → (∀ y ∈ x :: ch, y ∈ L) →
      ∀ u v, u ∈ p.nodesPre → v ∈ g.nodesPre →
        x.pl = u.leafRange.1 + op → x.pr = u.leafRange.2 + op →
        x.gl = v.leafRange.1 + og → x.gr = v.leafRange.2 + og →
        x.w ≤ (u.cnt : ℚ) → x.w ≤ (v.cnt : ℚ) →
        chainVal (x :: ch) ≤ ((p.index : ℚ) + (p.cnt : ℚ)) - (u.index : ℚ) ∧
        chainVal (x :: ch) ≤ ((g.index : ℚ) + (g.cnt : ℚ)) - (v.index : ℚ) := by
  intro ch
  induction ch with
  | nil =>
    intro x _ _ u v hum hvm _ _ _ _ hwu hwv
    have hb1 := (swf_block hp hum).2
    have hb2 := (swf_block hg hvm).2
    have hq1 : (u.index : ℚ) + (u.cnt : ℚ) ≤ (p.index : ℚ) + (p.cnt : ℚ) := by
      exact_mod_cast hb1
    have hq2 : (v.index : ℚ) + (v.cnt : ℚ) ≤ (g.index : ℚ) + (g.cnt : ℚ) := by
      exact_mod_cast hb2
    rw [chainVal_cons, chainVal_nil]
    constructor <;> linarith
  | cons y ch' ih =>
    intro x hok hmem u v hum hvm hxpl hxpr hxgl hxgr hwu hwv
    obtain ⟨u', hu'm, v', hv'm, hy1, hy2, hy3, hy4, hy5, hy6, _, _⟩ :=
      helem y (hmem y (List.mem_cons_of_mem _ (List.mem_cons_self _ _)))
    have hok' : okChain (y :: ch') := by
      unfold okChain at hok ⊢
      exact (List.chain'_cons.mp hok).2
    have hmem' : ∀ z ∈ y :: ch', z ∈ L := fun z hz => hmem z (List.mem_cons_of_mem _ hz)
    obtain ⟨ihp, ihg⟩ := ih y hok' hmem' u' v' hu'm hv'm hy1 hy2 hy3 hy4 hy5 hy6
    have hbef : DPair.before x y := by
      unfold okChain at hok
      exact (List.chain'_cons.mp hok).1
    obtain ⟨hb1, hb2⟩ := hbef
    have hlt1 : u.leafRange.2 < u'.leafRange.1 := by omega
    have hlt2 : v.leafRange.2 < v'.leafRange.1 := by omega
    have ho1 := swf_order hp hum hu'm hlt1
    have ho2 := swf_order hg hvm hv'm hlt2
    have hoq1 : (u.index : ℚ) + (u.cnt : ℚ) ≤ (u'.index : ℚ) := by exact_mod_cast ho1
    have hoq2 : (v.index : ℚ) + (v.cnt : ℚ) ≤ (v'.index : ℚ) := by exact_mod_cast ho2
    rw [chainVal_cons]
    constructor <;> linarith

theorem chainVal_le_of_nodes {L : List DPair} {p g : ETree}
    (hp : p.swfB = true) (hg : g.swfB = true) {op og : Int} {dP dG : ℚ}
    (helem : EdgeNodes L p g op og dP dG)
    (hdP : dP ≤ 1) (hdG : dG ≤ 1) :
    ∀ ch, okChain ch → (∀ x ∈ ch, x ∈ L) →
      chainVal ch ≤ (p.cnt : ℚ) - dP ∧ chainVal ch ≤ (g.cnt : ℚ) - dG := by
  intro ch hok hmem
  cases ch with
  | nil =>
    have h1 : (1 : ℚ) ≤ (p.cnt : ℚ) := by exact_mod_cast cnt_pos p
    have h2 : (1 : ℚ) ≤ (g.cnt : ℚ) := by exact_mod_cast cnt_pos g
    rw [chainVal_nil]
    constructor <;> linarith
  | cons x ch' =>
    obtain ⟨u, hum, v, hvm, h1, h2, h3, h4, h5, h6, h7, h8⟩ :=
      helem x (hmem x (List.mem_cons_self _ _))
    obtain ⟨bp, bg⟩ := chain_nodes_bound_aux hp hg helem ch' x hok hmem u v hum hvm
      h1 h2 h3 h4 h5 h6
    constructor <;> linarith

theorem chainBest_le_of_all {L : List DPair} {m : ℚ} (hm : 0 ≤ m)
    (h : ∀ ch, okChain ch → (∀ x ∈ ch, x ∈ L) → chainVal ch ≤ m) :
    chainBest L ≤ m := by
  unfold chainBest
  refine foldl_max_le _ _ _ hm ?_
  intro x hx
  obtain ⟨ch, hch, rfl⟩ := List.mem_map.mp hx
  obtain ⟨hsub, hdec⟩ := List.mem_filter.mp hch
  exact h ch (of_decide_eq_true hdec)
    (fun y hy => (List.mem_sublists.mp hsub).subset hy)

theorem alignPairs_elem {A : TreeAligner} {p g : ETree}
    (hp : p.swfB = true) (hg : g.swfB = true) {e : DPair}
    (he : e ∈ alignPairs A p g) :
    ∃ u ∈ p.nodesPre, ∃ v ∈ g.nodesPre, u ≠ p ∧ v ≠ g ∧
      e.pl = u.leafRange.1 - p.leafRange.1 + 1 ∧
      e.pr = u.leafRange.2 - p.leafRange.1 + 1 ∧
      e.gl = v.leafRange.1 - g.leafRange.1 + 1 ∧
      e.gr = v.leafRange.2 - g.leafRange.1 + 1 ∧
      e.w = (A.align u v).1 := by
  unfold alignPairs at he
  rw [mem_mkPairs] at he
  obtain ⟨pj, hpj, gj, hgj, rfl⟩ := he
  obtain ⟨hum, _, hune⟩ := filterIdx_node hp hpj
  obtain ⟨hvm, _, hvne⟩ := filterIdx_node hg hgj
  exact ⟨_, hum, _, hvm, hune, hvne, rfl, rfl, rfl, rfl, rfl⟩

/-- `align` never credits more than the node count of either subtree:
each aligned pair contributes at most `1` (its thresholded span IoU), and a
chain of disjoint proper subtrees contains fewer nodes than the tree. -/
theorem align_le_cnt (A : TreeAligner) :
    ∀ n (p g : ETree), p.size + g.size ≤ n → p.swfB = true → g.swfB = true →
      (A.align p g).1 ≤ (p.cnt : ℚ) ∧ (A.align p g).1 ≤ (g.cnt : ℚ) := by
  intro n
  induction n using Nat.strong_induction_on with
  | _ n ih =>
    intro p g hn hp hg
    have hp1 : (1 : ℚ) ≤ (p.cnt : ℚ) := by exact_mod_cast cnt_pos p
    have hg1 : (1 : ℚ) ≤ (g.cnt : ℚ) := by exact_mod_cast cnt_pos g
    by_cases h1 : rejectCond A p g
    · rw [align_reject h1]
      constructor <;> dsimp only <;> linarith
    by_cases h2 : p.isPreterminal ∨ g.isPreterminal
    · rw [align_preterm h1 h2]
      have hs := spanIous_le_one A p.index g.index
      constructor <;> dsimp only <;> linarith
    · rw [align_general_val hp hg h1 h2]
      have helem : EdgeNodes (alignPairs A p g) p g (1 - p.leafRange.1)
          (1 - g.leafRange.1) 1 1 := by
        intro x hx
        obtain ⟨u, hum, v, hvm, hune, hvne, e1, e2, e3, e4, e5⟩ :=
          alignPairs_elem hp hg hx
        have h3 := size_lt_of_mem_nodesPre_ne hum hune
        have h4 := size_lt_of_mem_nodesPre_ne hvm hvne
        obtain ⟨w1, w2⟩ := ih (u.size + v.size) (by omega) u v (le_refl _)
          (swf_sub hp hum) (swf_sub hg hvm)
        have hi1 : (p.index : ℚ) + 1 ≤ (u.index : ℚ) := by
          have := proper_index_gt hp hum hune
          push_cast
          exact_mod_cast this
        have hi2 : (g.index : ℚ) + 1 ≤ (v.index : ℚ) := by
          have := proper_index_gt hg hvm hvne
          push_cast
          exact_mod_cast this
        refine ⟨u, hum, v, hvm, by omega, by omega, by omega, by omega, ?_, ?_, hi1, hi2⟩
        · rw [e5]; exact w1
        · rw [e5]; exact w2
      have hbnd := chainVal_le_of_nodes hp hg helem (le_refl 1) (le_refl 1)
      have hcb1 : chainBest (alignPairs A p g) ≤ (p.cnt : ℚ) - 1 :=
        chainBest_le_of_all (by linarith) (fun ch a b => (hbnd ch a b).1)
      have hcb2 : chainBest (alignPairs A p g) ≤ (g.cnt : ℚ) - 1 :=
        chainBest_le_of_all (by linarith) (fun ch a b => (hbnd ch a b).2)
      have hs := spanIous_le_one A p.index g.index
      constructor <;> linarith

theorem align_cnt_bound (A : TreeAligner) (p g : ETree)
    (hp : p.swfB = true) (hg : g.swfB = true) :
    (A.align p g).1 ≤ (p.cnt : ℚ) ∧ (A.align p g).1 ≤ (g.cnt : ℚ) :=
  align_le_cnt A (p.size + g.size) p g (le_refl _) hp hg

/-! ## The top-level enumeration of `__call__` -/

theorem pairwise_flatMap_filterMap {ps gs : List Nat} {f : Nat → Nat → Option DPair}
    (hkey : ∀ pj₁ ∈ ps, ∀ gj₁ ∈ gs, ∀ pj₂ ∈ ps, ∀ gj₂ ∈ gs, ∀ x y,
      f pj₁ gj₁ = some x → f pj₂ gj₂ = some y →
      DPair.before y x → pj₂ < pj₁ ∧ gj₂ < gj₁)
    (hp : ps.Pairwise (· < ·)) (hg : gs.Pairwise (· < ·)) :
    (ps.flatMap (fun pj => gs.filterMap (f pj))).Pairwise
      (fun x y => ¬ DPair.before y x) := by
  induction ps with
  | nil => exact List.Pairwise.nil
  | cons pj ps ih =>
    rw [List.flatMap_cons, List.pairwise_append]
    obtain ⟨hpj, hps⟩ := List.pairwise_cons.mp hp
    refine ⟨?_, ?_, ?_⟩
    · rw [List.pairwise_filterMap]
      refine hg.imp_of_mem ?_
      intro gj₁ gj₂ h1m h2m hlt x hxf y hyf hbef
      have := hkey pj (List.mem_cons_self _ _) gj₁ h1m pj (List.mem_cons_self _ _) gj₂ h2m
        x y hxf hyf hbef
      omega
    · refine ih (fun a ha b hb c hc d hd => hkey a (List.mem_cons_of_mem _ ha) b hb c
        (List.mem_cons_of_mem _ hc) d hd) hps
    · intro x hx y hy
      obtain ⟨gj₁, hgj₁, hxf⟩ := List.mem_filterMap.mp hx
      obtain ⟨pj₂, hpj₂, hy2⟩ := List.mem_flatMap.mp hy
      obtain ⟨gj₂, hgj₂, hyf⟩ := List.mem_filterMap.mp hy2
      intro hbef
      have hk := hkey pj (List.mem_cons_self _ _) gj₁ hgj₁ pj₂ (List.mem_cons_of_mem _ hpj₂)
        gj₂ hgj₂ x y hxf hyf hbef
      have := hpj pj₂ hpj₂
      omega

theorem topPairs_pairwise {A : TreeAligner}
    (hp : A.ptree.swfB = true) (hg : A.gtree.swfB = true) :
    (topPairs A).Pairwise (fun x y => ¬ DPair.before y x) := by
  unfold topPairs
  refine pairwise_flatMap_filterMap ?_ (subtreeIndices_sorted hp) (subtreeIndices_sorted hg)
  intro pj₁ h1 gj₁ hg1 pj₂ h2 gj₂ hg2 x y hxf hyf hbef
  by_cases hz1 : pj₁ = 0 ∧ gj₁ = 0
  · rw [if_pos hz1] at hxf
    cases hxf
  rw [if_neg hz1] at hxf
  by_cases hz2 : pj₂ = 0 ∧ gj₂ = 0
  · rw [if_pos hz2] at hyf
    cases hyf
  rw [if_neg hz2] at hyf
  have hx := Option.some_inj.mp hxf
  have hy := Option.some_inj.mp hyf
  subst hx
  subst hy
  obtain ⟨hb1, hb2⟩ := hbef
  dsimp only at hb1 hb2
  have ho1 := swf_order hp (subtreeIdx_node hp h2).1 (subtreeIdx_node hp h1).1 hb1
  have ho2 := swf_order hg (subtreeIdx_node hg hg2).1 (subtreeIdx_node hg hg1).1 hb2
  have hq1 := cnt_pos (A.ptree.index2node pj₂)
  have hq2 := cnt_pos (A.gtree.index2node gj₂)
  rw [(subtreeIdx_node hp h1).2, (subtreeIdx_node hp h2).2] at ho1
  rw [(subtreeIdx_node hg hg1).2, (subtreeIdx_node hg hg2).2] at ho2
  exact ⟨by omega, by omega⟩

theorem topPairs_good {A : TreeAligner}
    (hp : A.ptree.swfB = true) (hg : A.gtree.swfB = true)
    (hpl : A.ptree.leafRange.1 = 1) (hgl : A.gtree.leafRange.1 = 1) :
    GoodPairs (topPairs A) A.ptree.leavesCount A.gtree.leavesCount := by
  constructor
  · intro e he
    rw [mem_topPairs] at he
    obtain ⟨pj, hpj, gj, hgj, _, rfl⟩ := he
    obtain ⟨hum, _⟩ := subtreeIdx_node hp hpj
    obtain ⟨hvm, _⟩ := subtreeIdx_node hg hgj
    obtain ⟨a1, a2, a3, a4⟩ := swf_leaf_bounds hp hum
    obtain ⟨b1, b2, b3, b4⟩ := swf_leaf_bounds hg hvm
    have hLp := swf_leaves hp
    have hLg := swf_leaves hg
    have hw := align_nonneg A _ _ (swf_sub hp hum) (swf_sub hg hvm)
    dsimp only
    exact ⟨by omega, by omega, by omega, by omega, by omega, by omega, hw⟩
  · exact topPairs_pairwise hp hg

theorem topPairs_elem {A : TreeAligner}
    (hp : A.ptree.swfB = true) (hg : A.gtree.swfB = true) {e : DPair}
    (he : e ∈ topPairs A) :
    ∃ u ∈ A.ptree.nodesPre, ∃ v ∈ A.gtree.nodesPre,
      e.pl = u.leafRange.1 ∧ e.pr = u.leafRange.2 ∧
      e.gl = v.leafRange.1 ∧ e.gr = v.leafRange.2 ∧
      e.w = (A.align u v).1 := by
  rw [mem_topPairs] at he
  obtain ⟨pj, hpj, gj, hgj, _, rfl⟩ := he
  exact ⟨_, (subtreeIdx_node hp hpj).1, _, (subtreeIdx_node hg hgj).1,
    rfl, rfl, rfl, rfl, rfl⟩

/-- `TreeAligner.__call__()` in closed form: the score is
`max(align(root, root), best top-level chain) * 2 / (n_nodes(P) + n_nodes(G))`. -/
theorem call_val {A : TreeAligner}
    (hp : A.ptree.swfB = true) (hg : A.gtree.swfB = true)
    (hpl : A.ptree.leafRange.1 = 1) (hgl : A.gtree.leafRange.1 = 1) :
    (A.call).1 = max (A.align A.ptree A.gtree).1 (chainBest (topPairs A)) * 2 /
      ((A.ptree.n_nodes : ℚ) + (A.gtree.n_nodes : ℚ)) := by
  unfold TreeAligner.call
  dsimp only
  rw [dp_closed_form _ _ _ _ (topPairs_good hp hg hpl hgl)]

/-- The score of `__call__` lies in `[0, 1]`. -/
theorem call_bounds {A : TreeAligner}
    (hp : A.ptree.swfB = true) (hg : A.gtree.swfB = true)
    (hpl : A.ptree.leafRange.1 = 1) (hgl : A.gtree.leafRange.1 = 1) :
    0 ≤ (A.call).1 ∧ (A.call).1 ≤ 1 := by
  rw [call_val hp hg hpl hgl]
  have hcp : (1 : ℚ) ≤ (A.ptree.cnt : ℚ) := by exact_mod_cast cnt_pos A.ptree
  have hcg : (1 : ℚ) ≤ (A.gtree.cnt : ℚ) := by exact_mod_cast cnt_pos A.gtree
  have hnp : ((A.ptree.n_nodes : ℚ)) = (A.ptree.cnt : ℚ) := by
    rw [swf_n_nodes hp]
  have hng : ((A.gtree.n_nodes : ℚ)) = (A.gtree.cnt : ℚ) := by
    rw [swf_n_nodes hg]
  have hden : (0 : ℚ) < (A.ptree.n_nodes : ℚ) + (A.gtree.n_nodes : ℚ) := by
    rw [hnp, hng]
    linarith
  have hw0 := align_nonneg A A.ptree A.gtree hp hg
  obtain ⟨hw1, hw2⟩ := align_cnt_bound A A.ptree A.gtree hp hg
  have helem : EdgeNodes (topPairs A) A.ptree A.gtree 0 0 0 0 := by
    intro x hx
    obtain ⟨u, hum, v, hvm, e1, e2, e3, e4, e5⟩ := topPairs_elem hp hg hx
    obtain ⟨w1, w2⟩ := align_cnt_bound A u v (swf_sub hp hum) (swf_sub hg hvm)
    have hi1 : ((A.ptree.index : ℚ)) + 0 ≤ (u.index : ℚ) := by
      rw [add_zero]
      exact_mod_cast (swf_block hp hum).1
    have hi2 : ((A.gtree.index : ℚ)) + 0 ≤ (v.index : ℚ) := by
      rw [add_zero]
      exact_mod_cast (swf_block hg hvm).1
    refine ⟨u, hum, v, hvm, by omega, by omega, by omega, by omega, ?_, ?_, hi1, hi2⟩
    · rw [e5]
      exact w1
    · rw [e5]
      exact w2
  have hbnd := chainVal_le_of_nodes hp hg helem (by norm_num) (by norm_num)
  have hcb1 : chainBest (topPairs A) ≤ (A.ptree.cnt : ℚ) - 0 :=
    chainBest_le_of_all (by linarith) (fun ch a b => (hbnd ch a b).1)
  have hcb2 : chainBest (topPairs A) ≤ (A.gtree.cnt : ℚ) - 0 :=
    chainBest_le_of_all (by linarith) (fun ch a b => (hbnd ch a b).2)
  have hcb0 := chainBest_nonneg (topPairs A)
  constructor
  · apply div_nonneg
    · have hmx : 0 ≤ max (A.align A.ptree A.gtree).1 (chainBest (topPairs A)) :=
        le_trans hw0 (le_max_left _ _)
      linarith
    · linarith
  · rw [div_le_one hden]
    have hm : max (A.align A.ptree A.gtree).1 (chainBest (topPairs A)) * 2 ≤
        (A.ptree.cnt : ℚ) + (A.gtree.cnt : ℚ) := by
      rcases max_cases (A.align A.ptree A.gtree).1 (chainBest (topPairs A)) with
        ⟨hm1, _⟩ | ⟨hm1, _⟩
      · rw [hm1]
        linarith
      · rw [hm1]
        linarith
    rw [hnp, hng]
    linarith

/-! ## Chain-count bounds for the two edge lists -/

theorem alignPairs_chainBest_le {A : TreeAligner} {p g : ETree}
    (hp : p.swfB = true) (hg : g.swfB = true) :
    chainBest (alignPairs A p g) ≤ (p.cnt : ℚ) - 1 ∧
      chainBest (alignPairs A p g) ≤ (g.cnt : ℚ) - 1 := by
  have hcp : (1 : ℚ) ≤ (p.cnt : ℚ) := by exact_mod_cast cnt_pos p
  have hcg : (1 : ℚ) ≤ (g.cnt : ℚ) := by exact_mod_cast cnt_pos g
  have helem : EdgeNodes (alignPairs A p g) p g (1 - p.leafRange.1)
      (1 - g.leafRange.1) 1 1 := by
    intro x hx
    obtain ⟨u, hum, v, hvm, hune, hvne, e1, e2, e3, e4, e5⟩ :=
      alignPairs_elem hp hg hx
    obtain ⟨w1, w2⟩ := align_cnt_bound A u v (swf_sub hp hum) (swf_sub hg hvm)
    have hi1 : (p.index : ℚ) + 1 ≤ (u.index : ℚ) := by
      have := proper_index_gt hp hum hune
      push_cast
      exact_mod_cast this
    have hi2 : (g.index : ℚ) + 1 ≤ (v.index : ℚ) := by
      have := proper_index_gt hg hvm hvne
      push_cast
      exact_mod_cast this
    refine ⟨u, hum, v, hvm, by omega, by omega, by omega, by omega, ?_, ?_, hi1, hi2⟩
    · rw [e5]
      exact w1
    · rw [e5]
      exact w2
  have hbnd := chainVal_le_of_nodes hp hg helem (le_refl 1) (le_refl 1)
  exact ⟨chainBest_le_of_all (by linarith) (fun ch a b => (hbnd ch a b).1),
    chainBest_le_of_all (by linarith) (fun ch a b => (hbnd ch a b).2)⟩

theorem topPairs_chainBest_le {A : TreeAligner}
    (hp : A.ptree.swfB = true) (hg : A.gtree.swfB = true) :
    chainBest (topPairs A) ≤ (A.ptree.cnt : ℚ) ∧
      chainBest (topPairs A) ≤ (A.gtree.cnt : ℚ) := by
  have hcp : (1 : ℚ) ≤ (A.ptree.cnt : ℚ) := by exact_mod_cast cnt_pos A.ptree
  have hcg : (1 : ℚ) ≤ (A.gtree.cnt : ℚ) := by exact_mod_cast cnt_pos A.gtree
  have helem : EdgeNodes (topPairs A) A.ptree A.gtree 0 0 0 0 := by
    intro x hx
    obtain ⟨u, hum, v, hvm, e1, e2, e3, e4, e5⟩ := topPairs_elem hp hg hx
    obtain ⟨w1, w2⟩ := align_cnt_bound A u v (swf_sub hp hum) (swf_sub hg hvm)
    have hi1 : ((A.ptree.index : ℚ)) + 0 ≤ (u.index : ℚ) := by
      rw [add_zero]
      exact_mod_cast (swf_block hp hum).1
    have hi2 : ((A.gtree.index : ℚ)) + 0 ≤ (v.index : ℚ) := by
      rw [add_zero]
      exact_mod_cast (swf_block hg hvm).1
    refine ⟨u, hum, v, hvm, by omega, by omega, by omega, by omega, ?_, ?_, hi1, hi2⟩
    · rw [e5]
      exact w1
    · rw [e5]
      exact w2
  have hbnd := chainVal_le_of_nodes hp hg helem (by norm_num) (by norm_num)
  have h1 : chainBest (topPairs A) ≤ (A.ptree.cnt : ℚ) - 0 :=
    chainBest_le_of_all (by linarith) (fun ch a b => (hbnd ch a b).1)
  have h2 : chainBest (topPairs A) ≤ (A.gtree.cnt : ℚ) - 0 :=
    chainBest_le_of_all (by linarith) (fun ch a b => (hbnd ch a b).2)
  constructor <;> linarith

theorem chainBest_nil : chainBest [] = 0 := by
  rcases chainBest_cases [] with h | ⟨ch, _, hsub, hval⟩
  · exact h
  · rw [hval, List.sublist_nil.mp hsub, chainVal_nil]

/-! ## Descendant transitivity and diagonal alignment -/

mutual
theorem nodesPre_trans (t : ETree) :
    ∀ u v, u ∈ t.nodesPre → v ∈ u.nodesPre → v ∈ t.nodesPre := by
  match t with
  | .mk i tr lr lab cs =>
    intro u v hu hv
    rw [nodesPre_mk] at hu ⊢
    rcases List.mem_cons.mp hu with rfl | hu'
    · rw [nodesPre_mk] at hv
      exact hv
    · exact List.mem_cons_of_mem _ (nodesPreChildren_trans cs u v hu' hv)

theorem nodesPreChildren_trans (cs : List (String ⊕ ETree)) :
    ∀ u v, u ∈ nodesPreChildren cs → v ∈ u.nodesPre → v ∈ nodesPreChildren cs := by
  match cs with
  | [] =>
    intro u v hu _
    cases hu
  | .inl s :: rest =>
    intro u v hu hv
    have he : nodesPreChildren (Sum.inl s :: rest) = nodesPreChildren rest := by
      rw [nodesPreChildren]
    rw [he] at hu ⊢
    exact nodesPreChildren_trans rest u v hu hv
  | .inr c :: rest =>
    intro u v hu hv
    have he : nodesPreChildren (Sum.inr c :: rest) =
        c.nodesPre ++ nodesPreChildren rest := by
      rw [nodesPreChildren]
    rw [he] at hu ⊢
    rcases List.mem_append.mp hu with h | h
    · exact List.mem_append_left _ (nodesPre_trans c u v h hv)
    · exact List.mem_append_right _ (nodesPreChildren_trans rest u v h hv)
end

theorem preterm_cnt {u : ETree} (h : u.isPreterminal) : u.cnt = 1 := by
  obtain ⟨s, hs⟩ := h
  obtain ⟨i, tr, lr, lab, cs⟩ := u
  have hcs : cs = [Sum.inl s] := hs
  subst hcs
  rfl

theorem mem_filterIdx_of_node {t u : ETree} (hw : t.swfB = true)
    (hu : u ∈ t.nodesPre) (hne : u ≠ t) :
    u.index ∈ t.subtreeIndices.filter (fun j => j ≠ t.index) := by
  rw [List.mem_filter]
  constructor
  · rw [ETree.subtreeIndices, mem_sortNat, List.mem_dedup]
    exact List.mem_map.mpr ⟨u, hu, rfl⟩
  · have := proper_index_gt hw hu hne
    simp only [ne_eq, decide_eq_true_eq]
    omega

theorem chainCheck_children :
    ∀ (cs : List (String ⊕ ETree)) (i : Nat) (l l' : Int),
      chainCheck i l cs = some l' →
      ∃ ts : List ETree,
        (∀ c ∈ ts, c ∈ nodesPreChildren cs ∧ c.swfB = true) ∧
        List.Chain' (fun a b => a.leafRange.2 < b.leafRange.1) ts ∧
        (ts.map ETree.cnt).sum = (nodesPreChildren cs).length ∧
        (∀ c ∈ ts, l ≤ c.leafRange.1) := by
  intro cs
  induction cs with
  | nil =>
    intro i l l' _
    exact ⟨[], by simp, List.chain'_nil, by simp [nodesPreChildren], by simp⟩
  | cons c0 rest ih =>
    intro i l l' hcc
    match c0 with
    | Sum.inl s =>
      rw [chainCheck] at hcc
      exact absurd hcc (by simp)
    | Sum.inr c =>
      obtain ⟨hidx, hlf, hswf, hrest⟩ := chainCheck_cons_elim hcc
      obtain ⟨ts, hmem, hchain, hsum, hinv⟩ := ih (i + c.cnt) (c.leafRange.2 + 1) l' hrest
      have hcl := (swf_leaf_bounds hswf (self_mem_nodesPre c)).2.1
      have hnp : nodesPreChildren (Sum.inr c :: rest) =
          c.nodesPre ++ nodesPreChildren rest := by
        rw [nodesPreChildren]
      refine ⟨c :: ts, ?_, ?_, ?_, ?_⟩
      · intro x hx
        rcases List.mem_cons.mp hx with rfl | hx'
        · exact ⟨by rw [hnp]; exact List.mem_append_left _ (self_mem_nodesPre x), hswf⟩
        · obtain ⟨hm, hs⟩ := hmem x hx'
          exact ⟨by rw [hnp]; exact List.mem_append_right _ hm, hs⟩
      · rw [List.chain'_cons']
        refine ⟨?_, hchain⟩
        intro b hb
        have hbm : b ∈ ts := by
          cases ts with
          | nil =>
            rw [List.head?_nil] at hb
            cases hb
          | cons t0 ts' =>
            rw [List.head?_cons, Option.mem_some_iff] at hb
            subst hb
            exact List.mem_cons_self _ _
        have := hinv b hbm
        omega
      · rw [List.map_cons, List.sum_cons, hsum, hnp, List.length_append]
        rfl
      · intro x hx
        rcases List.mem_cons.mp hx with rfl | hx'
        · omega
        · have := hinv x hx'
          omega

theorem swf_children_chain {u : ETree} (hw : u.swfB = true) (hnp : ¬ u.isPreterminal) :
    ∃ ts : List ETree,
      (∀ c ∈ ts, c ∈ u.nodesPre ∧ c ≠ u ∧ c.swfB = true) ∧
      List.Chain' (fun a b => a.leafRange.2 < b.leafRange.1) ts ∧
      (ts.map ETree.cnt).sum = u.cnt - 1 := by
  obtain ⟨i, tr, lr, lab, cs⟩ := u
  match cs with
  | [Sum.inl s] => exact absurd ⟨s, rfl⟩ hnp
  | [] => exact absurd hw (by simp [ETree.swfB])
  | Sum.inl s :: c2 :: cs' =>
    exfalso
    rcases hcc : chainCheck (i + 1) lr.1 (Sum.inl s :: c2 :: cs') with _ | l'
    · simp only [ETree.swfB, hcc] at hw
      exact absurd hw (by simp)
    · rw [chainCheck] at hcc
      exact absurd hcc (by simp)
  | Sum.inr c :: cs' =>
    obtain ⟨hcc, h1⟩ := swfB_cons_elim hw
    obtain ⟨ts, hmem, hchain, hsum, hinv⟩ := chainCheck_children _ _ _ _ hcc
    refine ⟨ts, ?_, hchain, ?_⟩
    · intro c' hc'
      obtain ⟨hm, hs⟩ := hmem c' hc'
      refine ⟨by rw [nodesPre_mk]; exact List.mem_cons_of_mem _ hm, ?_, hs⟩
      intro he
      have hsz := size_le_of_mem_nodesPreChildren _ _ hm
      have hszu : (ETree.mk i tr lr lab (Sum.inr c :: cs')).size =
          1 + sizeChildren (Sum.inr c :: cs') := by
        rw [ETree.size]
      rw [he, hszu] at hsz
      omega
    · rw [hsum, cnt_mk]
      omega

/-- The diagonal span IoU is `1` when the node's time span is at least
`eps` wide and the threshold is below `1`. -/
theorem diag_spanIous {T : ETree} {thr : ℚ} {flex : Bool}
    (hw : T.swfB = true) (hthr : thr < 1)
    {u : ETree} (hu : u ∈ T.nodesPre)
    (hwid : eps ≤ u.timeRange.2 - u.timeRange.1) :
    TreeAligner.spanIous ⟨T, T, thr, flex⟩ u.index u.index = 1 := by
  have hraw : TreeAligner.spanIouRaw ⟨T, T, thr, flex⟩ u.index u.index = 1 := by
    unfold TreeAligner.spanIouRaw
    dsimp only
    rw [swf_index2node hw hu]
    exact span_iou_self hwid
  unfold TreeAligner.spanIous
  rw [hraw]
  rw [if_pos (show (1 : ℚ) > thr from hthr)]

theorem diag_not_reject {T : ETree} {thr : ℚ} {flex : Bool}
    (hw : T.swfB = true) (hthr : thr < 1)
    {u : ETree} (hu : u ∈ T.nodesPre)
    (hwid : eps ≤ u.timeRange.2 - u.timeRange.1) :
    ¬ rejectCond ⟨T, T, thr, flex⟩ u u := by
  intro hrej
  rcases hrej with h | h | h
  · rw [diag_spanIous hw hthr hu hwid] at h
    norm_num [eps_eq, eps] at h
  · exact h.2.2 rfl
  · exact h.2 rfl

/-- Self-alignment of a node credits exactly its node count: the diagonal
chain of its children realises `cnt − 1` and the node itself adds `1`. -/
theorem align_diag {T : ETree} {thr : ℚ} {flex : Bool}
    (hw : T.swfB = true) (hthr : thr < 1)
    (hwid : ∀ u ∈ T.nodesPre, eps ≤ u.timeRange.2 - u.timeRange.1) :
    ∀ n, ∀ u ∈ T.nodesPre, u.size ≤ n →
      (TreeAligner.align ⟨T, T, thr, flex⟩ u u).1 = (u.cnt : ℚ) := by
  intro n
  induction n using Nat.strong_induction_on with
  | _ n ih =>
    intro u hu hn
    have hus : u.swfB = true := swf_sub hw hu
    have hrej : ¬ rejectCond ⟨T, T, thr, flex⟩ u u :=
      diag_not_reject hw hthr hu (hwid u hu)
    by_cases hpt : u.isPreterminal
    · rw [align_preterm hrej (Or.inl hpt)]
      dsimp only
      rw [diag_spanIous hw hthr hu (hwid u hu), preterm_cnt hpt]
      norm_num
    · have hnpre : ¬ (u.isPreterminal ∨ u.isPreterminal) := by
        intro h
        rcases h with h | h <;> exact hpt h
      rw [align_general_val hus hus hrej hnpre]
      rw [diag_spanIous hw hthr hu (hwid u hu)]
      obtain ⟨ts, hmemts, hchain, hsum⟩ := swf_children_chain hus hpt
      have hmain : ∀ c ∈ ts, (TreeAligner.align ⟨T, T, thr, flex⟩ c c).1 = (c.cnt : ℚ) := by
        intro c hc
        obtain ⟨hcm, hcne, _⟩ := hmemts c hc
        have hsz := size_lt_of_mem_nodesPre_ne hcm hcne
        have hszp := size_pos u
        exact ih (n - 1) (by omega) c (nodesPre_trans T u c hu hcm) (by omega)
      have hok : okChain (ts.map (fun c => (⟨c.leafRange.1 - u.leafRange.1 + 1,
          c.leafRange.2 - u.leafRange.1 + 1, c.leafRange.1 - u.leafRange.1 + 1,
          c.leafRange.2 - u.leafRange.1 + 1,
          (TreeAligner.align ⟨T, T, thr, flex⟩ c c).1,
          (TreeAligner.align ⟨T, T, thr, flex⟩ c c).2⟩ : DPair))) := by
        unfold okChain
        rw [List.chain'_map]
        refine List.Chain'.imp ?_ hchain
        intro a b hab
        exact ⟨by dsimp only; omega, by dsimp only; omega⟩
      have hmm : ∀ x ∈ ts.map (fun c => (⟨c.leafRange.1 - u.leafRange.1 + 1,
          c.leafRange.2 - u.leafRange.1 + 1, c.leafRange.1 - u.leafRange.1 + 1,
          c.leafRange.2 - u.leafRange.1 + 1,
          (TreeAligner.align ⟨T, T, thr, flex⟩ c c).1,
          (TreeAligner.align ⟨T, T, thr, flex⟩ c c).2⟩ : DPair)),
          x ∈ alignPairs ⟨T, T, thr, flex⟩ u u := by
        intro x hx
        obtain ⟨c, hc, rfl⟩ := List.mem_map.mp hx
        obtain ⟨hcm, hcne, _⟩ := hmemts c hc
        unfold alignPairs
        rw [mem_mkPairs]
        refine ⟨c.index, mem_filterIdx_of_node hus hcm hcne, c.index,
          mem_filterIdx_of_node hus hcm hcne, ?_⟩
        rw [swf_index2node hus hcm]
      have hval : chainVal (ts.map (fun c => (⟨c.leafRange.1 - u.leafRange.1 + 1,
          c.leafRange.2 - u.leafRange.1 + 1, c.leafRange.1 - u.leafRange.1 + 1,
          c.leafRange.2 - u.leafRange.1 + 1,
          (TreeAligner.align ⟨T, T, thr, flex⟩ c c).1,
          (TreeAligner.align ⟨T, T, thr, flex⟩ c c).2⟩ : DPair))) =
          (ts.map (fun c => (c.cnt : ℚ))).sum := by
        unfold chainVal
        rw [List.map_map]
        congr 1
        refine List.map_congr_left (fun c hc => ?_)
        exact hmain c hc
      have hcast : (ts.map (fun c => (c.cnt : ℚ))).sum = (u.cnt : ℚ) - 1 := by
        have h1 : ts.map (fun c => (c.cnt : ℚ)) =
            (ts.map ETree.cnt).map (fun k => ((k : Nat) : ℚ)) := by
          rw [List.map_map]
          rfl
        rw [h1, ← Nat.cast_list_sum, hsum, Nat.cast_sub (cnt_pos u), Nat.cast_one]
      have hge : (u.cnt : ℚ) - 1 ≤ chainBest (alignPairs ⟨T, T, thr, flex⟩ u u) := by
        rw [← hcast, ← hval]
        have hgood := @alignPairs_good ⟨T, T, thr, flex⟩ u u hus hus
        have hmono : ∀ x ∈ alignPairs ⟨T, T, thr, flex⟩ u u,
            x.pl ≤ x.pr ∧ x.gl ≤ x.gr := by
          intro x hx
          obtain ⟨_, b2, _, _, b5, _, _⟩ := hgood.1 x hx
          exact ⟨b2, b5⟩
        exact le_chainBest (chain_sublist_of_mem _ _ hgood.2 hmono hok hmm) hok
      have hle := (@alignPairs_chainBest_le ⟨T, T, thr, flex⟩ u u hus hus).1
      rw [le_antisymm hle hge]
      ring

/-! ## Transporting chains between edge lists -/

theorem forall₂_chainVal_eq {R : DPair → DPair → Prop}
    (hR : ∀ a b, R a b → b.w = a.w) :
    ∀ {ch ch' : List DPair}, List.Forall₂ R ch ch' → chainVal ch' = chainVal ch := by
  intro ch ch' h
  induction h with
  | nil => rfl
  | cons h1 h2 ih =>
    rw [chainVal_cons, chainVal_cons, ih, hR _ _ h1]

theorem forall₂_chainVal_le {R : DPair → DPair → Prop}
    (hR : ∀ a b, R a b → a.w ≤ b.w) :
    ∀ {ch ch' : List DPair}, List.Forall₂ R ch ch' → chainVal ch ≤ chainVal ch' := by
  intro ch ch' h
  induction h with
  | nil => exact le_refl _
  | cons h1 h2 ih =>
    rw [chainVal_cons, chainVal_cons]
    exact add_le_add (hR _ _ h1) ih

theorem forall₂_okChain {R : DPair → DPair → Prop}
    (hR : ∀ a b a' b', R a a' → R b b' → DPair.before a b → DPair.before a' b') :
    ∀ {ch ch' : List DPair}, List.Forall₂ R ch ch' → okChain ch → okChain ch' := by
  intro ch ch' h
  induction h with
  | nil => intro _; exact okChain_nil
  | cons h1 h2 ih =>
    intro hok
    unfold okChain at hok ⊢
    rw [List.chain'_cons'] at hok ⊢
    obtain ⟨hh, ht⟩ := hok
    refine ⟨?_, ih ht⟩
    intro b' hb'
    cases h2 with
    | nil =>
      rw [List.head?_nil] at hb'
      cases hb'
    | cons hbb htail =>
      rw [List.head?_cons, Option.mem_some_iff] at hb'
      subst hb'
      refine hR _ _ _ _ h1 hbb (hh _ ?_)
      rw [List.head?_cons]
      exact rfl

theorem alignPairs_swap_transport {P G : ETree} {thr : ℚ} {flex : Bool}
    (hp : P.swfB = true) (hg : G.swfB = true) {u v : ETree}
    (hu : u ∈ P.nodesPre) (hv : v ∈ G.nodesPre)
    (hW : ∀ u' v', u' ∈ u.nodesPre → v' ∈ v.nodesPre → u' ≠ u → v' ≠ v →
      (TreeAligner.align ⟨G, P, thr, flex⟩ v' u').1 =
      (TreeAligner.align ⟨P, G, thr, flex⟩ u' v').1) :
    ∀ ch, (∀ x ∈ ch, x ∈ alignPairs ⟨G, P, thr, flex⟩ v u) →
      ∃ ch', List.Forall₂ (fun e e' => e'.pl = e.gl ∧ e'.pr = e.gr ∧ e'.gl = e.pl ∧
          e'.gr = e.pr ∧ e'.w = e.w) ch ch' ∧
        ∀ x ∈ ch', x ∈ alignPairs ⟨P, G, thr, flex⟩ u v := by
  have hus : u.swfB = true := swf_sub hp hu
  have hvs : v.swfB = true := swf_sub hg hv
  intro ch
  induction ch with
  | nil =>
    intro _
    exact ⟨[], List.Forall₂.nil, by simp⟩
  | cons e rest ih =>
    intro hmem
    obtain ⟨rest', hF, hm'⟩ := ih (fun x hx => hmem x (List.mem_cons_of_mem _ hx))
    have he := hmem e (List.mem_cons_self _ _)
    unfold alignPairs at he
    rw [mem_mkPairs] at he
    obtain ⟨vj, hvj, uj, huj, rfl⟩ := he
    refine ⟨(⟨(u.index2node uj).leafRange.1 - u.leafRange.1 + 1,
             (u.index2node uj).leafRange.2 - u.leafRange.1 + 1,
             (v.index2node vj).leafRange.1 - v.leafRange.1 + 1,
             (v.index2node vj).leafRange.2 - v.leafRange.1 + 1,
             (TreeAligner.align ⟨P, G, thr, flex⟩ (u.index2node uj) (v.index2node vj)).1,
             (TreeAligner.align ⟨P, G, thr, flex⟩ (u.index2node uj) (v.index2node vj)).2⟩ :
              DPair) :: rest', ?_, ?_⟩
    · refine List.Forall₂.cons ⟨rfl, rfl, rfl, rfl, ?_⟩ hF
      dsimp only
      exact (hW _ _ (filterIdx_node hus huj).1 (filterIdx_node hvs hvj).1
        (filterIdx_node hus huj).2.2 (filterIdx_node hvs hvj).2.2).symm
    · intro x hx
      rcases List.mem_cons.mp hx with rfl | hx'
      · unfold alignPairs
        rw [mem_mkPairs]
        exact ⟨uj, huj, vj, hvj, rfl⟩
      · exact hm' x hx'

theorem chainBest_swap_le {P G : ETree} {thr : ℚ} {flex : Bool}
    (hp : P.swfB = true) (hg : G.swfB = true) {u v : ETree}
    (hu : u ∈ P.nodesPre) (hv : v ∈ G.nodesPre)
    (hW : ∀ u' v', u' ∈ u.nodesPre → v' ∈ v.nodesPre → u' ≠ u → v' ≠ v →
      (TreeAligner.align ⟨G, P, thr, flex⟩ v' u').1 =
      (TreeAligner.align ⟨P, G, thr, flex⟩ u' v').1) :
    chainBest (alignPairs ⟨G, P, thr, flex⟩ v u) ≤
      chainBest (alignPairs ⟨P, G, thr, flex⟩ u v) := by
  have hus : u.swfB = true := swf_sub hp hu
  have hvs : v.swfB = true := swf_sub hg hv
  rcases chainBest_cases (alignPairs ⟨G, P, thr, flex⟩ v u) with h | ⟨ch, hok, hsub, hval⟩
  · rw [h]
    exact chainBest_nonneg _
  · rw [hval]
    obtain ⟨ch', hF, hm'⟩ :=
      alignPairs_swap_transport hp hg hu hv hW ch (fun x hx => hsub.subset hx)
    have hok' : okChain ch' := by
      refine forall₂_okChain ?_ hF hok
      intro a b a' b' ha hb hab
      obtain ⟨a1, a2, a3, a4, _⟩ := ha
      obtain ⟨b1, b2, b3, b4, _⟩ := hb
      obtain ⟨c1, c2⟩ := hab
      exact ⟨by omega, by omega⟩
    have hveq : chainVal ch' = chainVal ch :=
      forall₂_chainVal_eq (fun a b h => h.2.2.2.2) hF
    rw [← hveq]
    have hgood := @alignPairs_good ⟨P, G, thr, flex⟩ u v hus hvs
    have hmono : ∀ x ∈ alignPairs ⟨P, G, thr, flex⟩ u v, x.pl ≤ x.pr ∧ x.gl ≤ x.gr := by
      intro x hx
      obtain ⟨_, b2, _, _, b5, _, _⟩ := hgood.1 x hx
      exact ⟨b2, b5⟩
    exact le_chainBest (chain_sublist_of_mem _ _ hgood.2 hmono hok' hm') hok'

/-! ## Symmetry of `align` and `__call__` -/

theorem swap_spanIous {P G : ETree} (thr : ℚ) (flex : Bool)
    (hp : P.swfB = true) (hg : G.swfB = true) {u v : ETree}
    (hu : u ∈ P.nodesPre) (hv : v ∈ G.nodesPre) :
    TreeAligner.spanIous ⟨G, P, thr, flex⟩ v.index u.index =
    TreeAligner.spanIous ⟨P, G, thr, flex⟩ u.index v.index := by
  unfold TreeAligner.spanIous TreeAligner.spanIouRaw
  dsimp only
  rw [swf_index2node hp hu, swf_index2node hg hv,
    span_iou_comm v.timeRange u.timeRange]

theorem swap_reject {P G : ETree} (thr : ℚ) (flex : Bool)
    (hp : P.swfB = true) (hg : G.swfB = true) {u v : ETree}
    (hu : u ∈ P.nodesPre) (hv : v ∈ G.nodesPre) :
    rejectCond ⟨G, P, thr, flex⟩ v u ↔ rejectCond ⟨P, G, thr, flex⟩ u v := by
  unfold rejectCond
  rw [swap_spanIous thr flex hp hg hu hv]
  constructor
  · rintro (h | h | h)
    · exact Or.inl h
    · exact Or.inr (Or.inl ⟨h.2.1, h.1, Ne.symm h.2.2⟩)
    · exact Or.inr (Or.inr ⟨h.1, Ne.symm h.2⟩)
  · rintro (h | h | h)
    · exact Or.inl h
    · exact Or.inr (Or.inl ⟨h.2.1, h.1, Ne.symm h.2.2⟩)
    · exact Or.inr (Or.inr ⟨h.1, Ne.symm h.2⟩)

theorem align_symm {P G : ETree} (thr : ℚ) (flex : Bool)
    (hp : P.swfB = true) (hg : G.swfB = true) :
    ∀ n, ∀ u v, u ∈ P.nodesPre → v ∈ G.nodesPre → u.size + v.size ≤ n →
      (TreeAligner.align ⟨G, P, thr, flex⟩ v u).1 =
      (TreeAligner.align ⟨P, G, thr, flex⟩ u v).1 := by
  intro n
  induction n using Nat.strong_induction_on with
  | _ n ih =>
    intro u v hu hv hn
    have hus := swf_sub hp hu
    have hvs := swf_sub hg hv
    by_cases h1 : rejectCond ⟨P, G, thr, flex⟩ u v
    · rw [align_reject h1, align_reject ((swap_reject thr flex hp hg hu hv).mpr h1)]
    · have h1' : ¬ rejectCond ⟨G, P, thr, flex⟩ v u :=
        fun h => h1 ((swap_reject thr flex hp hg hu hv).mp h)
      by_cases h2 : u.isPreterminal ∨ v.isPreterminal
      · rw [align_preterm h1 h2, align_preterm h1' (Or.symm h2)]
        dsimp only
        exact swap_spanIous thr flex hp hg hu hv
      · have h2' : ¬ (v.isPreterminal ∨ u.isPreterminal) := fun h => h2 (Or.symm h)
        rw [align_general_val hvs hus h1' h2', align_general_val hus hvs h1 h2]
        rw [swap_spanIous thr flex hp hg hu hv]
        congr 1
        have hW : ∀ u' v', u' ∈ u.nodesPre → v' ∈ v.nodesPre → u' ≠ u → v' ≠ v →
            (TreeAligner.align ⟨G, P, thr, flex⟩ v' u').1 =
            (TreeAligner.align ⟨P, G, thr, flex⟩ u' v').1 := by
          intro u' v' hu' hv' hune hvne
          have hsu := size_lt_of_mem_nodesPre_ne hu' hune
          have hsv := size_lt_of_mem_nodesPre_ne hv' hvne
          exact ih (u'.size + v'.size) (by omega) u' v'
            (nodesPre_trans P u u' hu hu') (nodesPre_trans G v v' hv hv') (le_refl _)
        have hW' : ∀ v' u', v' ∈ v.nodesPre → u' ∈ u.nodesPre → v' ≠ v → u' ≠ u →
            (TreeAligner.align ⟨P, G, thr, flex⟩ u' v').1 =
            (TreeAligner.align ⟨G, P, thr, flex⟩ v' u').1 :=
          fun v' u' hv' hu' hvne hune => (hW u' v' hu' hv' hune hvne).symm
        exact le_antisymm (chainBest_swap_le hp hg hu hv hW)
          (chainBest_swap_le hg hp hv hu hW')

theorem topPairs_swap_transport {P G : ETree} {thr : ℚ} {flex : Bool}
    (hp : P.swfB = true) (hg : G.swfB = true)
    (hW : ∀ u' v', u' ∈ P.nodesPre → v' ∈ G.nodesPre →
      (TreeAligner.align ⟨G, P, thr, flex⟩ v' u').1 =
      (TreeAligner.align ⟨P, G, thr, flex⟩ u' v').1) :
    ∀ ch, (∀ x ∈ ch, x ∈ topPairs ⟨G, P, thr, flex⟩) →
      ∃ ch', List.Forall₂ (fun e e' => e'.pl = e.gl ∧ e'.pr = e.gr ∧ e'.gl = e.pl ∧
          e'.gr = e.pr ∧ e'.w = e.w) ch ch' ∧
        ∀ x ∈ ch', x ∈ topPairs ⟨P, G, thr, flex⟩ := by
  intro ch
  induction ch with
  | nil =>
    intro _
    exact ⟨[], List.Forall₂.nil, by simp⟩
  | cons e rest ih =>
    intro hmem
    obtain ⟨rest', hF, hm'⟩ := ih (fun x hx => hmem x (List.mem_cons_of_mem _ hx))
    have he := hmem e (List.mem_cons_self _ _)
    rw [mem_topPairs] at he
    obtain ⟨vj, hvj, uj, huj, hc, rfl⟩ := he
    refine ⟨(⟨(ETree.index2node P uj).leafRange.1,
             (ETree.index2node P uj).leafRange.2,
             (ETree.index2node G vj).leafRange.1,
             (ETree.index2node G vj).leafRange.2,
             (TreeAligner.align ⟨P, G, thr, flex⟩ (ETree.index2node P uj)
               (ETree.index2node G vj)).1,
             (TreeAligner.align ⟨P, G, thr, flex⟩ (ETree.index2node P uj)
               (ETree.index2node G vj)).2⟩ : DPair) :: rest', ?_, ?_⟩
    · refine List.Forall₂.cons ⟨rfl, rfl, rfl, rfl, ?_⟩ hF
      dsimp only
      exact (hW _ _ (subtreeIdx_node hp huj).1 (subtreeIdx_node hg hvj).1).symm
    · intro x hx
      rcases List.mem_cons.mp hx with rfl | hx'
      · rw [mem_topPairs]
        exact ⟨uj, huj, vj, hvj, fun h => hc ⟨h.2, h.1⟩, rfl⟩
      · exact hm' x hx'

theorem chainBest_top_swap_le {P G : ETree} {thr : ℚ} {flex : Bool}
    (hp : P.swfB = true) (hg : G.swfB = true)
    (hW : ∀ u' v', u' ∈ P.nodesPre → v' ∈ G.nodesPre →
      (TreeAligner.align ⟨G, P, thr, flex⟩ v' u').1 =
      (TreeAligner.align ⟨P, G, thr, flex⟩ u' v').1) :
    chainBest (topPairs ⟨G, P, thr, flex⟩) ≤ chainBest (topPairs ⟨P, G, thr, flex⟩) := by
  rcases chainBest_cases (topPairs ⟨G, P, thr, flex⟩) with h | ⟨ch, hok, hsub, hval⟩
  · rw [h]
    exact chainBest_nonneg _
  · rw [hval]
    obtain ⟨ch', hF, hm'⟩ := topPairs_swap_transport hp hg hW ch (fun x hx => hsub.subset hx)
    have hok' : okChain ch' := by
      refine forall₂_okChain ?_ hF hok
      intro a b a' b' ha hb hab
      obtain ⟨a1, a2, a3, a4, _⟩ := ha
      obtain ⟨b1, b2, b3, b4, _⟩ := hb
      obtain ⟨c1, c2⟩ := hab
      exact ⟨by omega, by omega⟩
    have hveq : chainVal ch' = chainVal ch :=
      forall₂_chainVal_eq (fun a b h => h.2.2.2.2) hF
    rw [← hveq]
    have hmono : ∀ x ∈ topPairs ⟨P, G, thr, flex⟩, x.pl ≤ x.pr ∧ x.gl ≤ x.gr := by
      intro x hx
      obtain ⟨u', hum, v', hvm, e1, e2, e3, e4, _⟩ := @topPairs_elem ⟨P, G, thr, flex⟩ hp hg x hx
      have hb1 := swf_leaf_bounds hp hum
      have hb2 := swf_leaf_bounds hg hvm
      exact ⟨by omega, by omega⟩
    exact le_chainBest (chain_sublist_of_mem _ _
      (@topPairs_pairwise ⟨P, G, thr, flex⟩ hp hg) hmono hok' hm') hok'

theorem call_symm {P G : ETree} (thr : ℚ) (flex : Bool)
    (hp : P.swfB = true) (hg : G.swfB = true)
    (hpl : P.leafRange.1 = 1) (hgl : G.leafRange.1 = 1) :
    (TreeAligner.call ⟨G, P, thr, flex⟩).1 = (TreeAligner.call ⟨P, G, thr, flex⟩).1 := by
  rw [@call_val ⟨G, P, thr, flex⟩ hg hp hgl hpl, @call_val ⟨P, G, thr, flex⟩ hp hg hpl hgl]
  have hW : ∀ u' v', u' ∈ P.nodesPre → v' ∈ G.nodesPre →
      (TreeAligner.align ⟨G, P, thr, flex⟩ v' u').1 =
      (TreeAligner.align ⟨P, G, thr, flex⟩ u' v').1 := by
    intro u' v' hu' hv'
    exact align_symm thr flex hp hg (u'.size + v'.size) u' v' hu' hv' (le_refl _)
  have hW' : ∀ v' u', v' ∈ G.nodesPre → u' ∈ P.nodesPre →
      (TreeAligner.align ⟨P, G, thr, flex⟩ u' v').1 =
      (TreeAligner.align ⟨G, P, thr, flex⟩ v' u').1 :=
    fun v' u' hv' hu' => (hW u' v' hu' hv').symm
  have hw0 : (TreeAligner.align ⟨G, P, thr, flex⟩ G P).1 =
      (TreeAligner.align ⟨P, G, thr, flex⟩ P G).1 :=
    hW P G (self_mem_nodesPre P) (self_mem_nodesPre G)
  have htop : chainBest (topPairs ⟨G, P, thr, flex⟩) =
      chainBest (topPairs ⟨P, G, thr, flex⟩) :=
    le_antisymm (chainBest_top_swap_le hp hg hW) (chainBest_top_swap_le hg hp hW')
  rw [hw0, htop, add_comm ((G.n_nodes : ℚ)) ((P.n_nodes : ℚ))]

/-! ## Threshold monotonicity -/

theorem spanIous_mono (P G : ETree) (t1 t2 : ℚ) (flex : Bool) (h : t1 ≤ t2) (i j : Nat) :
    TreeAligner.spanIous ⟨P, G, t2, flex⟩ i j ≤ TreeAligner.spanIous ⟨P, G, t1, flex⟩ i j := by
  unfold TreeAligner.spanIous
  have hraw : TreeAligner.spanIouRaw ⟨P, G, t2, flex⟩ i j =
      TreeAligner.spanIouRaw ⟨P, G, t1, flex⟩ i j := rfl
  rw [hraw]
  dsimp only
  split_ifs with h2 h1
  · exact le_refl _
  · exact absurd (lt_of_le_of_lt h h2) h1
  · exact span_iou_nonneg _ _
  · exact le_refl _

theorem reject_mono {P G : ETree} {t1 t2 : ℚ} {flex : Bool} (h : t1 ≤ t2)
    {u v : ETree} (hr : rejectCond ⟨P, G, t1, flex⟩ u v) :
    rejectCond ⟨P, G, t2, flex⟩ u v := by
  unfold rejectCond at hr ⊢
  rcases hr with h1 | h1 | h1
  · left
    unfold eps_eq at h1 ⊢
    rw [sub_zero] at h1 ⊢
    rw [abs_of_nonneg (spanIous_nonneg _ _ _)] at h1 ⊢
    exact lt_of_le_of_lt (spanIous_mono P G t1 t2 flex h u.index v.index) h1
  · exact Or.inr (Or.inl h1)
  · exact Or.inr (Or.inr h1)

theorem alignPairs_mono_transport (P G : ETree) (t1 t2 : ℚ) (flex : Bool)
    (hp : P.swfB = true) (hg : G.swfB = true) {u v : ETree}
    (hW : ∀ u' v', u' ∈ u.nodesPre → v' ∈ v.nodesPre → u' ≠ u → v' ≠ v →
      (TreeAligner.align ⟨P, G, t2, flex⟩ u' v').1 ≤
      (TreeAligner.align ⟨P, G, t1, flex⟩ u' v').1)
    (hus : u.swfB = true) (hvs : v.swfB = true) :
    ∀ ch, (∀ x ∈ ch, x ∈ alignPairs ⟨P, G, t2, flex⟩ u v) →
      ∃ ch', List.Forall₂ (fun e e' => e'.pl = e.pl ∧ e'.pr = e.pr ∧ e'.gl = e.gl ∧
          e'.gr = e.gr ∧ e.w ≤ e'.w) ch ch' ∧
        ∀ x ∈ ch', x ∈ alignPairs ⟨P, G, t1, flex⟩ u v := by
  intro ch
  induction ch with
  | nil =>
    intro _
    exact ⟨[], List.Forall₂.nil, by simp⟩
  | cons e rest ih =>
    intro hmem
    obtain ⟨rest', hF, hm'⟩ := ih (fun x hx => hmem x (List.mem_cons_of_mem _ hx))
    have he := hmem e (List.mem_cons_self _ _)
    unfold alignPairs at he
    rw [mem_mkPairs] at he
    obtain ⟨uj, huj, vj, hvj, rfl⟩ := he
    refine ⟨(⟨(u.index2node uj).leafRange.1 - u.leafRange.1 + 1,
             (u.index2node uj).leafRange.2 - u.leafRange.1 + 1,
             (v.index2node vj).leafRange.1 - v.leafRange.1 + 1,
             (v.index2node vj).leafRange.2 - v.leafRange.1 + 1,
             (TreeAligner.align ⟨P, G, t1, flex⟩ (u.index2node uj) (v.index2node vj)).1,
             (TreeAligner.align ⟨P, G, t1, flex⟩ (u.index2node uj) (v.index2node vj)).2⟩ :
              DPair) :: rest', ?_, ?_⟩
    · refine List.Forall₂.cons ⟨rfl, rfl, rfl, rfl, ?_⟩ hF
      dsimp only
      exact hW _ _ (filterIdx_node hus huj).1 (filterIdx_node hvs hvj).1
        (filterIdx_node hus huj).2.2 (filterIdx_node hvs hvj).2.2
    · intro x hx
      rcases List.mem_cons.mp hx with rfl | hx'
      · unfold alignPairs
        rw [mem_mkPairs]
        exact ⟨uj, huj, vj, hvj, rfl⟩
      · exact hm' x hx'

theorem chainBest_mono_le (P G : ETree) (t1 t2 : ℚ) (flex : Bool)
    (hp : P.swfB = true) (hg : G.swfB = true) {u v : ETree}
    (hW : ∀ u' v', u' ∈ u.nodesPre → v' ∈ v.nodesPre → u' ≠ u → v' ≠ v →
      (TreeAligner.align ⟨P, G, t2, flex⟩ u' v').1 ≤
      (TreeAligner.align ⟨P, G, t1, flex⟩ u' v').1)
    (hus : u.swfB = true) (hvs : v.swfB = true) :
    chainBest (alignPairs ⟨P, G, t2, flex⟩ u v) ≤
      chainBest (alignPairs ⟨P, G, t1, flex⟩ u v) := by
  rcases chainBest_cases (alignPairs ⟨P, G, t2, flex⟩ u v) with h | ⟨ch, hok, hsub, hval⟩
  · rw [h]
    exact chainBest_nonneg _
  · rw [hval]
    obtain ⟨ch', hF, hm'⟩ := alignPairs_mono_transport P G t1 t2 flex hp hg hW hus hvs ch
      (fun x hx => hsub.subset hx)
    have hok' : okChain ch' := by
      refine forall₂_okChain ?_ hF hok
      intro a b a' b' ha hb hab
      obtain ⟨a1, a2, a3, a4, _⟩ := ha
      obtain ⟨b1, b2, b3, b4, _⟩ := hb
      obtain ⟨c1, c2⟩ := hab
      exact ⟨by omega, by omega⟩
    refine le_trans (forall₂_chainVal_le (fun a b h => h.2.2.2.2) hF) ?_
    have hgood := @alignPairs_good ⟨P, G, t1, flex⟩ u v hus hvs
    have hmono : ∀ x ∈ alignPairs ⟨P, G, t1, flex⟩ u v, x.pl ≤ x.pr ∧ x.gl ≤ x.gr := by
      intro x hx
      obtain ⟨_, b2, _, _, b5, _, _⟩ := hgood.1 x hx
      exact ⟨b2, b5⟩
    exact le_chainBest (chain_sublist_of_mem _ _ hgood.2 hmono hok' hm') hok'

theorem align_mono (P G : ETree) (t1 t2 : ℚ) (flex : Bool) (h12 : t1 ≤ t2)
    (hp : P.swfB = true) (hg : G.swfB = true) :
    ∀ n, ∀ u v, u ∈ P.nodesPre → v ∈ G.nodesPre → u.size + v.size ≤ n →
      (TreeAligner.align ⟨P, G, t2, flex⟩ u v).1 ≤
      (TreeAligner.align ⟨P, G, t1, flex⟩ u v).1 := by
  intro n
  induction n using Nat.strong_induction_on with
  | _ n ih =>
    intro u v hu hv hn
    have hus := swf_sub hp hu
    have hvs := swf_sub hg hv
    by_cases h2r : rejectCond ⟨P, G, t2, flex⟩ u v
    · rw [align_reject h2r]
      exact align_nonneg _ u v hus hvs
    · have h1r : ¬ rejectCond ⟨P, G, t1, flex⟩ u v :=
        fun hr => h2r (reject_mono h12 hr)
      by_cases h2 : u.isPreterminal ∨ v.isPreterminal
      · rw [align_preterm h2r h2, align_preterm h1r h2]
        dsimp only
        exact spanIous_mono P G t1 t2 flex h12 u.index v.index
      · rw [align_general_val hus hvs h2r h2, align_general_val hus hvs h1r h2]
        have hW : ∀ u' v', u' ∈ u.nodesPre → v' ∈ v.nodesPre → u' ≠ u → v' ≠ v →
            (TreeAligner.align ⟨P, G, t2, flex⟩ u' v').1 ≤
            (TreeAligner.align ⟨P, G, t1, flex⟩ u' v').1 := by
          intro u' v' hu' hv' hune hvne
          have hsu := size_lt_of_mem_nodesPre_ne hu' hune
          have hsv := size_lt_of_mem_nodesPre_ne hv' hvne
          exact ih (u'.size + v'.size) (by omega) u' v'
            (nodesPre_trans P u u' hu hu') (nodesPre_trans G v v' hv hv') (le_refl _)
        have hcb := chainBest_mono_le P G t1 t2 flex hp hg hW hus hvs
        have hsp := spanIous_mono P G t1 t2 flex h12 u.index v.index
        exact add_le_add hcb hsp

theorem topPairs_mono_transport (P G : ETree) (t1 t2 : ℚ) (flex : Bool)
    (hp : P.swfB = true) (hg : G.swfB = true)
    (hW : ∀ u' v', u' ∈ P.nodesPre → v' ∈ G.nodesPre →
      (TreeAligner.align ⟨P, G, t2, flex⟩ u' v').1 ≤
      (TreeAligner.align ⟨P, G, t1, flex⟩ u' v').1) :
    ∀ ch, (∀ x ∈ ch, x ∈ topPairs ⟨P, G, t2, flex⟩) →
      ∃ ch', List.Forall₂ (fun e e' => e'.pl = e.pl ∧ e'.pr = e.pr ∧ e'.gl = e.gl ∧
          e'.gr = e.gr ∧ e.w ≤ e'.w) ch ch' ∧
        ∀ x ∈ ch', x ∈ topPairs ⟨P, G, t1, flex⟩ := by
  intro ch
  induction ch with
  | nil =>
    intro _
    exact ⟨[], List.Forall₂.nil, by simp⟩
  | cons e rest ih =>
    intro hmem
    obtain ⟨rest', hF, hm'⟩ := ih (fun x hx => hmem x (List.mem_cons_of_mem _ hx))
    have he := hmem e (List.mem_cons_self _ _)
    rw [mem_topPairs] at he
    obtain ⟨uj, huj, vj, hvj, hc, rfl⟩ := he
    refine ⟨(⟨(ETree.index2node P uj).leafRange.1,
             (ETree.index2node P uj).leafRange.2,
             (ETree.index2node G vj).leafRange.1,
             (ETree.index2node G vj).leafRange.2,
             (TreeAligner.align ⟨P, G, t1, flex⟩ (ETree.index2node P uj)
               (ETree.index2node G vj)).1,
             (TreeAligner.align ⟨P, G, t1, flex⟩ (ETree.index2node P uj)
               (ETree.index2node G vj)).2⟩ : DPair) :: rest', ?_, ?_⟩
    · refine List.Forall₂.cons ⟨rfl, rfl, rfl, rfl, ?_⟩ hF
      dsimp only
      exact hW _ _ (subtreeIdx_node hp huj).1 (subtreeIdx_node hg hvj).1
    · intro x hx
      rcases List.mem_cons.mp hx with rfl | hx'
      · rw [mem_topPairs]
        exact ⟨uj, huj, vj, hvj, hc, rfl⟩
      · exact hm' x hx'

theorem chainBest_top_mono_le (P G : ETree) (t1 t2 : ℚ) (flex : Bool)
    (hp : P.swfB = true) (hg : G.swfB = true)
    (hW : ∀ u' v', u' ∈ P.nodesPre → v' ∈ G.nodesPre →
      (TreeAligner.align ⟨P, G, t2, flex⟩ u' v').1 ≤
      (TreeAligner.align ⟨P, G, t1, flex⟩ u' v').1) :
    chainBest (topPairs ⟨P, G, t2, flex⟩) ≤ chainBest (topPairs ⟨P, G, t1, flex⟩) := by
  rcases chainBest_cases (topPairs ⟨P, G, t2, flex⟩) with h | ⟨ch, hok, hsub, hval⟩
  · rw [h]
    exact chainBest_nonneg _
  · rw [hval]
    obtain ⟨ch', hF, hm'⟩ := topPairs_mono_transport P G t1 t2 flex hp hg hW ch
      (fun x hx => hsub.subset hx)
    have hok' : okChain ch' := by
      refine forall₂_okChain ?_ hF hok
      intro a b a' b' ha hb hab
      obtain ⟨a1, a2, a3, a4, _⟩ := ha
      obtain ⟨b1, b2, b3, b4, _⟩ := hb
      obtain ⟨c1, c2⟩ := hab
      exact ⟨by omega, by omega⟩
    refine le_trans (forall₂_chainVal_le (fun a b h => h.2.2.2.2) hF) ?_
    have hmono : ∀ x ∈ topPairs ⟨P, G, t1, flex⟩, x.pl ≤ x.pr ∧ x.gl ≤ x.gr := by
      intro x hx
      obtain ⟨u', hum, v', hvm, e1, e2, e3, e4, _⟩ :=
        @topPairs_elem ⟨P, G, t1, flex⟩ hp hg x hx
      have hb1 := swf_leaf_bounds hp hum
      have hb2 := swf_leaf_bounds hg hvm
      exact ⟨by omega, by omega⟩
    exact le_chainBest (chain_sublist_of_mem _ _
      (@topPairs_pairwise ⟨P, G, t1, flex⟩ hp hg) hmono hok' hm') hok'

theorem call_mono (P G : ETree) (t1 t2 : ℚ) (flex : Bool) (h12 : t1 ≤ t2)
    (hp : P.swfB = true) (hg : G.swfB = true)
    (hpl : P.leafRange.1 = 1) (hgl : G.leafRange.1 = 1) :
    (TreeAligner.call ⟨P, G, t2, flex⟩).1 ≤ (TreeAligner.call ⟨P, G, t1, flex⟩).1 := by
  rw [@call_val ⟨P, G, t2, flex⟩ hp hg hpl hgl, @call_val ⟨P, G, t1, flex⟩ hp hg hpl hgl]
  have hW : ∀ u' v', u' ∈ P.nodesPre → v' ∈ G.nodesPre →
      (TreeAligner.align ⟨P, G, t2, flex⟩ u' v').1 ≤
      (TreeAligner.align ⟨P, G, t1, flex⟩ u' v').1 := by
    intro u' v' hu' hv'
    exact align_mono P G t1 t2 flex h12 hp hg (u'.size + v'.size) u' v' hu' hv' (le_refl _)
  have hw0 := hW P G (self_mem_nodesPre P) (self_mem_nodesPre G)
  have htop := chainBest_top_mono_le P G t1 t2 flex hp hg hW
  have hden : (0 : ℚ) < (P.n_nodes : ℚ) + (G.n_nodes : ℚ) := by
    have h1 : (1 : ℚ) ≤ (P.n_nodes : ℚ) := by
      rw [swf_n_nodes hp]
      exact_mod_cast cnt_pos P
    have h2 : (1 : ℚ) ≤ (G.n_nodes : ℚ) := by
      rw [swf_n_nodes hg]
      exact_mod_cast cnt_pos G
    linarith
  rw [div_le_div_iff hden hden]
  have hmax := max_le_max hw0 htop
  nlinarith [hmax]

/-! ## Construction lemmas -/

mutual
theorem constructTree_isSome (ts : List LeafTS) (t : PyTree) (left right : Int) (gi : Nat)
    (h0 : 0 ≤ left) (h1 : left + (t.leavesCount : Int) < ts.length)
    (h2 : 0 ≤ right) (h3 : right ≤ ts.length) :
    (constructTree ts t left right gi).isSome = true := by
  match t with
  | .mk lab cs =>
    rw [constructTree]
    have hcs : (constructChildren ts cs left (gi + 1)).isSome = true :=
      constructChildren_isSome ts cs left (gi + 1) h0 (by
        have : PyTree.leavesCount (.mk lab cs) = leavesCountChildren cs := by
          rw [PyTree.leavesCount]
        omega)
    obtain ⟨⟨ecs, cl, gi'⟩, hecs⟩ := Option.isSome_iff_exists.mp hcs
    rw [hecs]
    have hst : (pyGet ts left).isSome = true := pyGet_isSome (Or.inl ⟨h0, by omega⟩)
    obtain ⟨st, hstv⟩ := Option.isSome_iff_exists.mp hst
    have hen : (pyGet ts (right - 1)).isSome = true := by
      refine pyGet_isSome ?_
      rcases (by omega : right = 0 ∨ 1 ≤ right) with h | h
      · exact Or.inr ⟨by omega, by omega⟩
      · exact Or.inl ⟨by omega, by omega⟩
    obtain ⟨en, henv⟩ := Option.isSome_iff_exists.mp hen
    simp [hecs, hstv, henv]

theorem constructChildren_isSome (ts : List LeafTS) (cs : List (String ⊕ PyTree))
    (curLeft : Int) (gi : Nat)
    (h0 : 0 ≤ curLeft) (h1 : curLeft + (leavesCountChildren cs : Int) < ts.length) :
    (constructChildren ts cs curLeft gi).isSome = true := by
  match cs with
  | [] => rfl
  | .inl s :: rest =>
    rw [constructChildren]
    have hlc : leavesCountChildren (.inl s :: rest) = 1 + leavesCountChildren rest := by
      rw [leavesCountChildren]
    have hrest : (constructChildren ts rest (curLeft + 1) gi).isSome = true :=
      constructChildren_isSome ts rest (curLeft + 1) gi (by omega) (by omega)
    obtain ⟨⟨ecs, cl, gi'⟩, hv⟩ := Option.isSome_iff_exists.mp hrest
    simp [hv]
  | .inr t :: rest =>
    rw [constructChildren]
    have hlc : leavesCountChildren (.inr t :: rest) = t.leavesCount + leavesCountChildren rest := by
      rw [leavesCountChildren]
    have ht : (constructTree ts t curLeft (curLeft + t.leavesCount) gi).isSome = true :=
      constructTree_isSome ts t curLeft (curLeft + t.leavesCount) gi h0 (by omega)
        (by omega) (by omega)
    obtain ⟨⟨et, gi'⟩, hv⟩ := Option.isSome_iff_exists.mp ht
    have hrest : (constructChildren ts rest (curLeft + t.leavesCount) gi').isSome = true :=
      constructChildren_isSome ts rest (curLeft + t.leavesCount) gi' (by omega) (by omega)
    obtain ⟨⟨ecs, cl, gi''⟩, hv2⟩ := Option.isSome_iff_exists.mp hrest
    simp [hv, hv2]
end

/-- The node built by `construct_tree(node, left, right)` always carries
index `gi`, time range `(ts[left][-2], ts[right-1][-1])` and leaf range
`(left + 1, right)`. -/
theorem constructTree_shape {ts : List LeafTS} {t : PyTree} {left right : Int} {gi : Nat}
    {et : ETree} {gi' : Nat} (h : constructTree ts t left right gi = some (et, gi')) :
    et.index = gi ∧ et.leafRange = (left + 1, right) ∧ et.label = t.label := by
  match t with
  | .mk lab cs =>
    rw [constructTree] at h
    rcases hcc : constructChildren ts cs left (gi + 1) with _ | ⟨⟨ecs, cl, g2⟩⟩ <;>
      rw [hcc] at h
    · simp at h
    rcases hst : pyGet ts left with _ | st <;> rw [hst] at h
    · simp at h
    rcases hen : pyGet ts (right - 1) with _ | en <;> rw [hen] at h
    · simp at h
    simp only [Option.bind_eq_bind, Option.some_bind, Option.pure_def, Option.some_inj,
      Prod.mk.injEq] at h
    rw [← h.1]
    exact ⟨rfl, rfl, rfl⟩

/-! ## Timestamp-token independence (C9) -/

theorem pyGet_map {α β : Type} (f : α → β) (l : List α) (i : Int) :
    pyGet (l.map f) i = (pyGet l i).map f := by
  unfold pyGet
  rw [List.length_map]
  split_ifs
  · exact List.get?_map f l i.toNat
  · exact List.get?_map f l (i + l.length).toNat
  · rfl

theorem pyGet_times_eq {ts1 ts2 : List LeafTS}
    (h : ts1.map (fun x => (x.2.1, x.2.2)) = ts2.map (fun x => (x.2.1, x.2.2))) (i : Int) :
    (pyGet ts1 i).map (fun x => (x.2.1, x.2.2)) =
      (pyGet ts2 i).map (fun x => (x.2.1, x.2.2)) := by
  rw [← pyGet_map, ← pyGet_map, h]

mutual
theorem constructTree_times (ts1 ts2 : List LeafTS)
    (h : ts1.map (fun x => (x.2.1, x.2.2)) = ts2.map (fun x => (x.2.1, x.2.2)))
    (t : PyTree) (left right : Int) (gi : Nat) :
    constructTree ts1 t left right gi = constructTree ts2 t left right gi := by
  match t with
  | .mk lab cs =>
    rw [constructTree, constructTree,
      constructChildren_times ts1 ts2 h cs left (gi + 1)]
    rcases hcc : constructChildren ts2 cs left (gi + 1) with _ | ⟨⟨ecs, cl, g2⟩⟩
    · rfl
    have hst := pyGet_times_eq h left
    have hen := pyGet_times_eq h (right - 1)
    rcases hst1 : pyGet ts1 left with _ | st1 <;> rw [hst1] at hst
    · rcases hst2 : pyGet ts2 left with _ | st2 <;> rw [hst2] at hst
      · rfl
      · exact absurd hst (by simp)
    rcases hst2 : pyGet ts2 left with _ | st2 <;> rw [hst2] at hst
    · exact absurd hst (by simp)
    rcases hen1 : pyGet ts1 (right - 1) with _ | en1 <;> rw [hen1] at hen
    · rcases hen2 : pyGet ts2 (right - 1) with _ | en2 <;> rw [hen2] at hen
      · rfl
      · exact absurd hen (by simp)
    rcases hen2 : pyGet ts2 (right - 1) with _ | en2 <;> rw [hen2] at hen
    · exact absurd hen (by simp)
    simp only [Option.map_some', Option.some_inj, Prod.mk.injEq] at hst hen
    simp only [Option.bind_eq_bind, Option.some_bind]
    rw [hst.1, hen.2]

theorem constructChildren_times (ts1 ts2 : List LeafTS)
    (h : ts1.map (fun x => (x.2.1, x.2.2)) = ts2.map (fun x => (x.2.1, x.2.2)))
    (cs : List (String ⊕ PyTree)) (curLeft : Int) (gi : Nat) :
    constructChildren ts1 cs curLeft gi = constructChildren ts2 cs curLeft gi := by
  match cs with
  | [] => rfl
  | .inl s :: rest =>
    rw [constructChildren, constructChildren,
      constructChildren_times ts1 ts2 h rest (curLeft + 1) gi]
  | .inr t :: rest =>
    rw [constructChildren, constructChildren,
      constructTree_times ts1 ts2 h t curLeft (curLeft + t.leavesCount) gi]
    rcases ht : constructTree ts2 t curLeft (curLeft + t.leavesCount) gi with _ | ⟨⟨et, g2⟩⟩
    · rfl
    simp only [Option.bind_eq_bind, Option.some_bind]
    rw [constructChildren_times ts1 ts2 h rest (curLeft + t.leavesCount) g2]
end

/-! ## Claim C7: the span-IoU primitive -/

/-- **C7.** `span_iou` returns `0` exactly when the intersection width
`min(a.end, b.end) − max(a.start, b.start)` or the union width
`max(a.end, b.end) − min(a.start, b.start)` is below `ε = 1e-6`, and
otherwise returns `intersection / union`; the result always lies in
`[0, 1]`. -/
theorem claim_C7 (a b : ℚ × ℚ) :
    span_iou a b = (if min a.2 b.2 - max a.1 b.1 < eps ∨ max a.2 b.2 - min a.1 b.1 < eps
      then 0 else (min a.2 b.2 - max a.1 b.1) / (max a.2 b.2 - min a.1 b.1)) ∧
    0 ≤ span_iou a b ∧ span_iou a b ≤ 1 := by
  have heps : (0 : ℚ) < eps := by norm_num [eps]
  have hle : min a.2 b.2 - max a.1 b.1 ≤ max a.2 b.2 - min a.1 b.1 :=
    sub_le_sub (min_le_max) (min_le_max)
  refine ⟨rfl, ?_, ?_⟩ <;> unfold span_iou <;> dsimp only <;> split_ifs with h
  · exact le_refl (0 : ℚ)
  · push_neg at h
    exact div_nonneg (le_trans heps.le h.1) (le_trans heps.le h.2)
  · exact zero_le_one
  · push_neg at h
    exact (div_le_one (lt_of_lt_of_le heps h.2)).mpr hle

/-! ## Claim C10: preterminal node count -/

/-- **C10.** A preterminal node (single terminal-string child) counts as
exactly one node: `n_nodes()` returns `1`, the terminal payload is not
counted. -/
theorem claim_C10 (t : ETree) (h : t.isPreterminal) : t.n_nodes = 1 := by
  obtain ⟨s, hs⟩ := h
  obtain ⟨i, tr, lr, lab, cs⟩ := t
  have hcs : cs = [Sum.inl s] := hs
  subst hcs
  rfl

/-- Witness for C10 at a concrete preterminal node. -/
theorem claim_C10_witness :
    (ETree.mk 0 (0, 1) (1, 1) "NT" [Sum.inl "x"]).isPreterminal ∧
    (ETree.mk 0 (0, 1) (1, 1) "NT" [Sum.inl "x"]).n_nodes = 1 :=
  ⟨⟨"x", rfl⟩, claim_C10 _ ⟨"x", rfl⟩⟩

/-! ## Claim C5: the edge cases of `align`

The rejection test in the code is `eps_eq(span_ious[p, g], 0, eps)`, i.e.
the thresholded span IoU is *strictly* below `ε`; a pair whose span IoU
equals `ε` exactly is *not* rejected.  The trees below realise the boundary:
a leaf spanning `(0, 1e-6)` against a leaf spanning `(0, 1)` has span IoU
exactly `1e-6 = ε`, and `align` returns that weight with a singleton trace,
not `(0, ∅)`. -/

/-- The single-leaf annotated tree with time span `(0, 1e-6)` built by
`from_tree_and_leaf_timestamps` (checked by `rfl` in the counterexample). -/
def cexP5 : ETree := .mk 0 (0, 1/1000000) (1, 1) "NT" [.inl "x"]

/-- The single-leaf annotated tree with time span `(0, 1)` built by
`from_tree_and_leaf_timestamps` (checked by `rfl` in the counterexample). -/
def cexG5 : ETree := .mk 0 (0, 1) (1, 1) "NT" [.inl "y"]

theorem cex5_spanIous :
    TreeAligner.spanIous ⟨cexP5, cexG5, 0, true⟩ cexP5.index cexG5.index = eps := by
  have hraw : TreeAligner.spanIouRaw ⟨cexP5, cexG5, 0, true⟩ cexP5.index cexG5.index =
      span_iou (0, 1/1000000) (0, 1) := rfl
  have hsv : span_iou (0, 1/1000000) (0, 1) = 1/1000000 := by
    rw [span_iou]
    dsimp only
    rw [min_eq_left (by norm_num), max_self, max_eq_right (by norm_num), min_self]
    rw [if_neg (by norm_num [eps])]
    norm_num
  rw [TreeAligner.spanIous, hraw, hsv, if_pos (by norm_num), eps]

/-- **C5, counterexample.** Two well-formed (constructed) single-leaf trees
whose span IoU is `≤ ε` (it equals `ε` exactly), yet `align` returns a
nonzero weight — refuting the claim's "whenever the pair's span IoU is
≤ ε" rejection rule as stated. -/
theorem claim_C5_counterexample :
    fromTreeAndLeafTimestamps (.mk "NT" [.inl "x"]) [("x", 0, 1/1000000)] = some cexP5 ∧
    fromTreeAndLeafTimestamps (.mk "NT" [.inl "y"]) [("y", 0, 1)] = some cexG5 ∧
    TreeAligner.spanIous ⟨cexP5, cexG5, 0, true⟩ cexP5.index cexG5.index ≤ eps ∧
    (TreeAligner.align ⟨cexP5, cexG5, 0, true⟩ cexP5 cexG5).1 ≠ 0 := by
  have heps : (0 : ℚ) < eps := by norm_num [eps]
  have hnr : ¬ rejectCond ⟨cexP5, cexG5, 0, true⟩ cexP5 cexG5 := by
    rw [rejectCond, cex5_spanIous]
    push_neg
    refine ⟨?_, fun _ _ => rfl, fun h => absurd rfl h⟩
    rw [eps_eq, sub_zero, abs_of_pos (by norm_num [eps])]
    exact lt_irrefl eps
  have halign := align_preterm hnr (Or.inl ⟨"x", rfl⟩)
  refine ⟨rfl, rfl, le_of_eq cex5_spanIous, ?_⟩
  rw [halign]
  rw [cex5_spanIous]
  exact ne_of_gt heps

/-- **C5, amended.** For every aligner and node pair: `align` returns weight
`0` and an empty trace whenever the pair's thresholded span IoU is strictly
below `ε` (the code's `eps_eq(·, 0, eps)` test), or both nodes are
non-preterminal with differing labels, or terminal alignment is inflexible
and the labels differ; otherwise, if either node is a preterminal, `align`
returns exactly the precomputed span IoU as the weight and the singleton
trace. -/
theorem claim_C5_amended (A : TreeAligner) (p g : ETree) :
    ((eps_eq (A.spanIous p.index g.index) 0 eps ∨
      (¬ p.isPreterminal ∧ ¬ g.isPreterminal ∧ p.label ≠ g.label) ∨
      (¬ A.flexible_terminal_alignment ∧ p.label ≠ g.label)) →
        A.align p g = (0, ∅)) ∧
    (¬ (eps_eq (A.spanIous p.index g.index) 0 eps ∨
      (¬ p.isPreterminal ∧ ¬ g.isPreterminal ∧ p.label ≠ g.label) ∨
      (¬ A.flexible_terminal_alignment ∧ p.label ≠ g.label)) →
      (p.isPreterminal ∨ g.isPreterminal) →
        A.align p g = (A.spanIous p.index g.index, {(p.index, g.index)})) :=
  ⟨fun h => align_reject h, fun h1 h2 => align_preterm h1 h2⟩

/-- Witness for the amended C5 at the `ε`-boundary pair: the pair is not
rejected, both nodes are preterminal, and `align` returns the span IoU with
the singleton trace. -/
theorem claim_C5_witness :
    ¬ (eps_eq ((TreeAligner.mk cexP5 cexG5 0 true).spanIous cexP5.index cexG5.index) 0 eps ∨
      (¬ cexP5.isPreterminal ∧ ¬ cexG5.isPreterminal ∧ cexP5.label ≠ cexG5.label) ∨
      (¬ (TreeAligner.mk cexP5 cexG5 0 true).flexible_terminal_alignment ∧
        cexP5.label ≠ cexG5.label)) ∧
    (cexP5.isPreterminal ∨ cexG5.isPreterminal) ∧
    TreeAligner.align ⟨cexP5, cexG5, 0, true⟩ cexP5 cexG5 =
      ((TreeAligner.mk cexP5 cexG5 0 true).spanIous cexP5.index cexG5.index,
       {(cexP5.index, cexG5.index)}) := by
  have hnr : ¬ (eps_eq ((TreeAligner.mk cexP5 cexG5 0 true).spanIous cexP5.index cexG5.index)
      0 eps ∨
      (¬ cexP5.isPreterminal ∧ ¬ cexG5.isPreterminal ∧ cexP5.label ≠ cexG5.label) ∨
      (¬ (TreeAligner.mk cexP5 cexG5 0 true).flexible_terminal_alignment ∧
        cexP5.label ≠ cexG5.label)) := by
    rw [cex5_spanIous]
    push_neg
    refine ⟨?_, fun _ _ => rfl, fun h => absurd rfl h⟩
    rw [eps_eq, sub_zero, abs_of_pos (by norm_num [eps])]
    exact lt_irrefl eps
  exact ⟨hnr, Or.inl ⟨"x", rfl⟩,
    (claim_C5_amended ⟨cexP5, cexG5, 0, true⟩ cexP5 cexG5).2 hnr (Or.inl ⟨"x", rfl⟩)⟩

/-! ## Claim C6: construction-time validation

`from_tree_and_leaf_timestamps` performs no validation at all: there is no
leaf-count check against the timestamp sequence, and a leaf with several
terminal children is accepted.  The only failures are out-of-range timestamp
accesses. -/

/-- **C6, counterexample.** A single-leaf tree (leaf count 1) paired with a
2-element timestamp sequence constructs successfully, as does a "leaf" node
with two terminal children — no `StructureError`-style failure occurs for
either structural violation. -/
theorem claim_C6_counterexample :
    PyTree.leavesCount (.mk "NT" [.inl "x"]) = 1 ∧
    (fromTreeAndLeafTimestamps (.mk "NT" [.inl "x"]) [("x", 0, 1), ("y", 1, 2)]).isSome
      = true ∧
    (fromTreeAndLeafTimestamps (.mk "NT" [.inl "a", .inl "b"])
      [("a", 0, 1), ("b", 1, 2)]).isSome = true := by
  refine ⟨rfl, rfl, rfl⟩

/-- **C6, amended.** Construction never validates the leaf count: whenever
the timestamp sequence is strictly longer than the label tree's leaf count,
`from_tree_and_leaf_timestamps` succeeds, and the root's leaf range is
`(1, len(timestamps))` (reflecting the timestamp count, not the leaf
count).  Mismatches can surface only as out-of-range timestamp accesses
(Python `IndexError`, embedded as `none`), never as a construction-time
structural check. -/
theorem claim_C6_amended (tree : PyTree) (ts : List LeafTS)
    (h : tree.leavesCount < ts.length) :
    ∃ et, fromTreeAndLeafTimestamps tree ts = some et ∧
      et.index = 0 ∧ et.leafRange = (1, (ts.length : Int)) := by
  have hsome : (constructTree ts tree 0 ts.length 0).isSome = true :=
    constructTree_isSome ts tree 0 ts.length 0 (le_refl 0) (by exact_mod_cast by omega)
      (by positivity) (le_refl _)
  obtain ⟨⟨et, gi'⟩, hv⟩ := Option.isSome_iff_exists.mp hsome
  obtain ⟨hidx, hlr, _⟩ := constructTree_shape hv
  refine ⟨et, ?_, hidx, by rw [hlr]; norm_num⟩
  rw [fromTreeAndLeafTimestamps, hv]
  rfl

/-! ## Claim C9: token strings do not influence the result -/

/-- **C9.** For every label tree and every two timestamp sequences that
agree on all start and end times but differ arbitrarily in their token
strings, `from_tree_and_leaf_timestamps` produces identical annotated trees
(hence identical indices, labels, time ranges and leaf ranges), and
`struct_iou` returns the same score. -/
theorem claim_C9 (tree : PyTree) (ts1 ts2 : List LeafTS)
    (h : ts1.map (fun x => (x.2.1, x.2.2)) = ts2.map (fun x => (x.2.1, x.2.2))) :
    fromTreeAndLeafTimestamps tree ts1 = fromTreeAndLeafTimestamps tree ts2 ∧
    ∀ P Q G thr flex, fromTreeAndLeafTimestamps tree ts1 = some P →
      fromTreeAndLeafTimestamps tree ts2 = some Q →
      struct_iou P G thr flex = struct_iou Q G thr flex := by
  have hlen : ts1.length = ts2.length := by
    have := congrArg List.length h
    simpa using this
  have hmain : fromTreeAndLeafTimestamps tree ts1 = fromTreeAndLeafTimestamps tree ts2 := by
    rw [fromTreeAndLeafTimestamps, fromTreeAndLeafTimestamps, hlen,
      constructTree_times ts1 ts2 h tree 0 ts2.length 0]
  refine ⟨hmain, fun P Q G thr flex h1 h2 => ?_⟩
  rw [hmain] at h1
  rw [h1] at h2
  rw [Option.some_inj.mp h2]

/-- Witness for C9: two one-leaf timestamp sequences with different tokens
and equal times. -/
theorem claim_C9_witness :
    ([("hello", (0 : ℚ), (1 : ℚ))].map (fun x => (x.2.1, x.2.2)) =
      [("world", (0 : ℚ), (1 : ℚ))].map (fun x => (x.2.1, x.2.2))) ∧
    fromTreeAndLeafTimestamps (.mk "NT" [.inl "w"]) [("hello", 0, 1)] =
      fromTreeAndLeafTimestamps (.mk "NT" [.inl "w"]) [("world", 0, 1)] :=
  ⟨rfl, (claim_C9 (.mk "NT" [.inl "w"]) [("hello", 0, 1)] [("world", 0, 1)] rfl).1⟩

/-- Witness for the amended C6: a single-leaf tree with two timestamps. -/
theorem claim_C6_witness :
    PyTree.leavesCount (.mk "NT" [.inl "x"]) < ([("x", 0, 1), ("y", 1, 2)] : List LeafTS).length ∧
    ∃ et, fromTreeAndLeafTimestamps (.mk "NT" [.inl "x"]) [("x", 0, 1), ("y", 1, 2)] = some et ∧
      et.index = 0 ∧
      et.leafRange = (1, (([("x", 0, 1), ("y", 1, 2)] : List LeafTS).length : Int)) :=
  ⟨by decide, claim_C6_amended _ _ (by decide)⟩

/-! ## Claim C8: structural invariants of constructed trees -/

/-- **C8.** Every Annotated Tree built by `from_tree_and_leaf_timestamps`
from a well-formed label tree with a matching timestamp sequence satisfies:
node indices are assigned in pre-order with the root receiving index `0`
and form the dense range `[0, n_nodes)`; `n_nodes` of every subtree equals
`1` plus the sum of its children's `n_nodes`; and the `leaf_range` of the
root equals `(1, n_leaves)`. -/
theorem claim_C8 (tree : PyTree) (ts : List LeafTS) (T : ETree)
    (hwf : tree.wfB = true) (hlen : ts.length = tree.leavesCount)
    (hT : fromTreeAndLeafTimestamps tree ts = some T) :
    T.index = 0 ∧
    T.nodesPre.map ETree.index = List.range' 0 T.n_nodes ∧
    (∀ u ∈ T.nodesPre, u.n_nodes = 1 + nNodesChildren u.children) ∧
    T.leafRange = (1, (T.leavesCount : Int)) := by
  obtain ⟨T', hv, hswf, hidx, hlr, helv⟩ := fromTree_swf hwf hlen
  rw [hT] at hv
  obtain rfl : T = T' := Option.some_inj.mp hv
  refine ⟨hidx, ?_, ?_, ?_⟩
  · rw [swf_map_index hswf, hidx, swf_n_nodes hswf]
  · intro u hu
    exact swf_nodes_sum (swf_sub hswf hu)
  · have hcast : ((ts.length : Nat) : Int) = ((T.leavesCount : Nat) : Int) := by
      rw [hlen, ← helv]
    rw [hlr, hcast]

/-- Witness for C8 at a concrete two-leaf tree. -/
theorem claim_C8_witness :
    (PyTree.mk "NT" [.inr (.mk "A" [.inl "x"]), .inr (.mk "B" [.inl "y"])]).wfB = true ∧
    ([("x", (0 : ℚ), (1 : ℚ)), ("y", (1 : ℚ), (2 : ℚ))] : List LeafTS).length =
      (PyTree.mk "NT" [.inr (.mk "A" [.inl "x"]), .inr (.mk "B" [.inl "y"])]).leavesCount ∧
    (ETree.mk 0 (0, 2) (1, 2) "NT"
        [.inr (.mk 1 (0, 1) (1, 1) "A" [.inl "x"]),
         .inr (.mk 2 (1, 2) (2, 2) "B" [.inl "y"])]).index = 0 ∧
    (ETree.mk 0 (0, 2) (1, 2) "NT"
        [.inr (.mk 1 (0, 1) (1, 1) "A" [.inl "x"]),
         .inr (.mk 2 (1, 2) (2, 2) "B" [.inl "y"])]).nodesPre.map ETree.index =
      List.range' 0 (ETree.mk 0 (0, 2) (1, 2) "NT"
        [.inr (.mk 1 (0, 1) (1, 1) "A" [.inl "x"]),
         .inr (.mk 2 (1, 2) (2, 2) "B" [.inl "y"])]).n_nodes := by
  have happ := claim_C8
    (.mk "NT" [.inr (.mk "A" [.inl "x"]), .inr (.mk "B" [.inl "y"])])
    [("x", (0 : ℚ), (1 : ℚ)), ("y", (1 : ℚ), (2 : ℚ))]
    (ETree.mk 0 (0, 2) (1, 2) "NT"
        [.inr (.mk 1 (0, 1) (1, 1) "A" [.inl "x"]),
         .inr (.mk 2 (1, 2) (2, 2) "B" [.inl "y"])])
    (by decide) (by decide) rfl
  exact ⟨by decide, by decide, happ.1, happ.2.1⟩

/-! ## Claim C1: the final score formula and its range -/

/-- **C1.** For structurally well-formed annotated trees (the invariant
`from_tree_and_leaf_timestamps` establishes: `swfB` with the root leaf range
starting at `1`) and any configuration, the score of `TreeAligner.__call__`
— the scalar surfaced by `struct_iou` — equals
`best_weight * 2 / (n_nodes(P) + n_nodes(G))`, where `best_weight` is the
maximum of the root-forced `align(root_P, root_G)` weight and the best
top-level interval-DP chain value, and the score lies in `[0, 1]`. -/
theorem claim_C1 (P G : ETree) (thr : ℚ) (flex : Bool)
    (hp : P.swfB = true) (hg : G.swfB = true)
    (hpl : P.leafRange.1 = 1) (hgl : G.leafRange.1 = 1) :
    struct_iou P G thr flex =
      max (TreeAligner.align ⟨P, G, thr, flex⟩ P G).1
        (chainBest (topPairs ⟨P, G, thr, flex⟩)) * 2 /
        ((P.n_nodes : ℚ) + (G.n_nodes : ℚ)) ∧
    0 ≤ struct_iou P G thr flex ∧ struct_iou P G thr flex ≤ 1 := by
  have hc := @call_val ⟨P, G, thr, flex⟩ hp hg hpl hgl
  have hb := @call_bounds ⟨P, G, thr, flex⟩ hp hg hpl hgl
  exact ⟨hc, hb.1, hb.2⟩

/-- Witness for C1 at a concrete constructed single-leaf tree pair. -/
theorem claim_C1_witness :
    (ETree.mk 0 (0, 1) (1, 1) "NT" [Sum.inl "x"]).swfB = true ∧
    (ETree.mk 0 (0, 1) (1, 1) "NT" [Sum.inl "x"]).leafRange.1 = 1 ∧
    0 ≤ struct_iou (ETree.mk 0 (0, 1) (1, 1) "NT" [Sum.inl "x"])
        (ETree.mk 0 (0, 1) (1, 1) "NT" [Sum.inl "x"]) 0 true ∧
    struct_iou (ETree.mk 0 (0, 1) (1, 1) "NT" [Sum.inl "x"])
        (ETree.mk 0 (0, 1) (1, 1) "NT" [Sum.inl "x"]) 0 true ≤ 1 :=
  ⟨by decide, by decide,
   (claim_C1 _ _ 0 true (by decide) (by decide) (by decide) (by decide)).2.1,
   (claim_C1 _ _ 0 true (by decide) (by decide) (by decide) (by decide)).2.2⟩

/-! ## Claim C2: self-comparison

The claim as stated fails: the thresholding step zeroes span IoUs that are
*at or below* `threshold_iou`, so with `threshold_iou = 1` even a perfect
self-match is zeroed and rejected; and a leaf with a zero-width time span
has self span IoU `0` (intersection below `eps`), which is also rejected.
Both give score `0`, not `1`. -/

/-- The single-leaf annotated tree with time span `(0, 1)`, as built by
`from_tree_and_leaf_timestamps` (checked by `rfl` in the counterexample). -/
def cexT2 : ETree := .mk 0 (0, 1) (1, 1) "NT" [.inl "x"]

/-- The single-leaf annotated tree with the zero-width time span `(5, 5)`. -/
def cexT2z : ETree := .mk 0 (5, 5) (1, 1) "NT" [.inl "x"]

theorem cex2_reject_score (T : ETree) (thr : ℚ)
    (hrej : rejectCond ⟨T, T, thr, true⟩ T T)
    (htop : topPairs ⟨T, T, thr, true⟩ = []) :
    (TreeAligner.call ⟨T, T, thr, true⟩).1 = 0 := by
  unfold TreeAligner.call
  dsimp only
  rw [htop]
  have hgood : GoodPairs ([] : List DPair) T.leavesCount T.leavesCount :=
    ⟨by simp, List.Pairwise.nil⟩
  rw [dp_closed_form _ _ _ _ hgood, align_reject hrej, chainBest_nil]
  have h0 : ((0, ∅) : ℚ × Trace).1 = (0 : ℚ) := rfl
  rw [h0, max_self]
  norm_num

theorem cex2_spanIous_one : TreeAligner.spanIous ⟨cexT2, cexT2, 1, true⟩ 0 0 = 0 := by
  have hraw : TreeAligner.spanIouRaw ⟨cexT2, cexT2, 1, true⟩ 0 0 =
      span_iou (0, 1) (0, 1) := rfl
  have h1 : span_iou (0, 1) (0, 1) = 1 := span_iou_self (by norm_num [eps])
  unfold TreeAligner.spanIous
  rw [hraw, h1, if_neg (by norm_num)]

theorem cex2_reject : rejectCond ⟨cexT2, cexT2, 1, true⟩ cexT2 cexT2 := by
  unfold rejectCond
  left
  show eps_eq (TreeAligner.spanIous ⟨cexT2, cexT2, 1, true⟩ 0 0) 0 eps
  rw [cex2_spanIous_one]
  norm_num [eps_eq, eps]

theorem cex2z_spanIous : TreeAligner.spanIous ⟨cexT2z, cexT2z, 0, true⟩ 0 0 = 0 := by
  have hraw : TreeAligner.spanIouRaw ⟨cexT2z, cexT2z, 0, true⟩ 0 0 =
      span_iou (5, 5) (5, 5) := rfl
  have h1 : span_iou (5, 5) (5, 5) = 0 := by
    unfold span_iou
    dsimp only
    split_ifs with h
    · rfl
    · exact absurd (Or.inl (by rw [min_self, max_self]; norm_num [eps])) h
  unfold TreeAligner.spanIous
  rw [hraw, h1]
  split_ifs with h2
  · rfl
  · rfl

theorem cex2z_reject : rejectCond ⟨cexT2z, cexT2z, 0, true⟩ cexT2z cexT2z := by
  unfold rejectCond
  left
  show eps_eq (TreeAligner.spanIous ⟨cexT2z, cexT2z, 0, true⟩ 0 0) 0 eps
  rw [cex2z_spanIous]
  norm_num [eps_eq, eps]

/-- **C2, counterexample.** Self-comparison does not always score `1`: a
constructed single-leaf tree compared against itself scores `0` when
`threshold_iou = 1` (the claim quantifies over *any* configuration), and a
constructed single-leaf tree with a zero-width timestamp scores `0` even at
the default threshold. -/
theorem claim_C2_counterexample :
    fromTreeAndLeafTimestamps (.mk "NT" [.inl "x"]) [("x", 0, 1)] = some cexT2 ∧
    struct_iou cexT2 cexT2 1 true = 0 ∧ struct_iou cexT2 cexT2 1 true ≠ 1 ∧
    fromTreeAndLeafTimestamps (.mk "NT" [.inl "x"]) [("x", 5, 5)] = some cexT2z ∧
    struct_iou cexT2z cexT2z 0 true = 0 ∧ struct_iou cexT2z cexT2z 0 true ≠ 1 := by
  have h1 : struct_iou cexT2 cexT2 1 true = 0 := by
    unfold struct_iou
    exact cex2_reject_score cexT2 1 cex2_reject rfl
  have h2 : struct_iou cexT2z cexT2z 0 true = 0 := by
    unfold struct_iou
    exact cex2_reject_score cexT2z 0 cex2z_reject rfl
  exact ⟨rfl, h1, by rw [h1]; norm_num, rfl, h2, by rw [h2]; norm_num⟩

/-- **C2, amended.** Self-comparison scores exactly `1` provided the
threshold is strictly below `1` and every node's time span is at least
`eps` wide, so that no diagonal pair is thresholded away or rejected: the
root self-alignment then credits the full node count `n`, the top-level
enumeration cannot beat it, and the score is `n * 2 / (n + n) = 1`. -/
theorem claim_C2_amended (T : ETree) (thr : ℚ) (flex : Bool)
    (hw : T.swfB = true) (hpl : T.leafRange.1 = 1) (hthr : thr < 1)
    (hwid : ∀ u ∈ T.nodesPre, eps ≤ u.timeRange.2 - u.timeRange.1) :
    struct_iou T T thr flex = 1 := by
  have hd : (TreeAligner.align ⟨T, T, thr, flex⟩ T T).1 = (T.cnt : ℚ) :=
    align_diag hw hthr hwid T.size T (self_mem_nodesPre T) (le_refl _)
  have hcv := @call_val ⟨T, T, thr, flex⟩ hw hw hpl hpl
  have htop := (@topPairs_chainBest_le ⟨T, T, thr, flex⟩ hw hw).1
  dsimp only at hcv htop
  unfold struct_iou
  rw [hcv, hd, max_eq_left htop, swf_n_nodes hw]
  have hc : (0 : ℚ) < (T.cnt : ℚ) := by exact_mod_cast cnt_pos T
  have hne : ((T.cnt : ℚ)) + (T.cnt : ℚ) ≠ 0 := by linarith
  field_simp
  ring

/-- Witness for the amended C2 at a concrete constructed single-leaf tree. -/
theorem claim_C2_witness :
    cexT2.swfB = true ∧ cexT2.leafRange.1 = 1 ∧ (0 : ℚ) < 1 ∧
    (∀ u ∈ cexT2.nodesPre, eps ≤ u.timeRange.2 - u.timeRange.1) ∧
    struct_iou cexT2 cexT2 0 true = 1 :=
  ⟨by decide, by decide, by norm_num,
   by
    intro u hu
    have he : u = cexT2 := by
      have h : cexT2.nodesPre = [cexT2] := rfl
      rw [h, List.mem_singleton] at hu
      exact hu
    rw [he]
    show eps ≤ (1 : ℚ) - 0
    norm_num [eps],
   claim_C2_amended cexT2 0 true (by decide) (by decide) (by norm_num)
    (by
      intro u hu
      have he : u = cexT2 := by
        have h : cexT2.nodesPre = [cexT2] := rfl
        rw [h, List.mem_singleton] at hu
        exact hu
      rw [he]
      show eps ≤ (1 : ℚ) - 0
      norm_num [eps])⟩

/-! ## Claim C3: symmetry of the scalar score -/

/-- **C3.** For well-formed annotated trees and any configuration, the
scalar score is symmetric in the two tree arguments:
`struct_iou(P, G, cfg) = struct_iou(G, P, cfg)`. -/
theorem claim_C3 (P G : ETree) (thr : ℚ) (flex : Bool)
    (hp : P.swfB = true) (hg : G.swfB = true)
    (hpl : P.leafRange.1 = 1) (hgl : G.leafRange.1 = 1) :
    struct_iou P G thr flex = struct_iou G P thr flex :=
  (call_symm thr flex hp hg hpl hgl).symm

/-- Witness for C3 at a pair of distinct concrete single-leaf trees. -/
theorem claim_C3_witness :
    (ETree.mk 0 (0, 1) (1, 1) "NT" [Sum.inl "x"]).swfB = true ∧
    (ETree.mk 0 (0, 2) (1, 1) "NT" [Sum.inl "y"]).swfB = true ∧
    (ETree.mk 0 (0, 1) (1, 1) "NT" [Sum.inl "x"]).leafRange.1 = 1 ∧
    (ETree.mk 0 (0, 2) (1, 1) "NT" [Sum.inl "y"]).leafRange.1 = 1 ∧
    struct_iou (ETree.mk 0 (0, 1) (1, 1) "NT" [Sum.inl "x"])
        (ETree.mk 0 (0, 2) (1, 1) "NT" [Sum.inl "y"]) 0 true =
      struct_iou (ETree.mk 0 (0, 2) (1, 1) "NT" [Sum.inl "y"])
        (ETree.mk 0 (0, 1) (1, 1) "NT" [Sum.inl "x"]) 0 true :=
  ⟨by decide, by decide, by decide, by decide,
   claim_C3 _ _ 0 true (by decide) (by decide) (by decide) (by decide)⟩

/-! ## Claim C4: threshold monotonicity and the thresholding rule -/

/-- **C4.** For well-formed annotated trees, raising `threshold_iou` never
increases the score (`t1 ≤ t2` gives `score(t2) ≤ score(t1)`); and the
`span_ious * (span_ious > threshold)` thresholding of `__init__` treats
every pairwise span IoU at or below the threshold as zero overlap. -/
theorem claim_C4 (P G : ETree) (t1 t2 : ℚ) (flex : Bool)
    (hp : P.swfB = true) (hg : G.swfB = true)
    (hpl : P.leafRange.1 = 1) (hgl : G.leafRange.1 = 1)
    (h12 : t1 ≤ t2) :
    struct_iou P G t2 flex ≤ struct_iou P G t1 flex ∧
    (∀ (A : TreeAligner) (i j : Nat),
      A.spanIouRaw i j ≤ A.threshold_iou → A.spanIous i j = 0) := by
  constructor
  · exact call_mono P G t1 t2 flex h12 hp hg hpl hgl
  · intro A i j h
    unfold TreeAligner.spanIous
    rw [if_neg (not_lt.mpr h)]

/-- Witness for C4 at a concrete single-leaf tree pair and thresholds
`0 ≤ 1/2`. -/
theorem claim_C4_witness :
    (ETree.mk 0 (0, 1) (1, 1) "NT" [Sum.inl "x"]).swfB = true ∧
    (0 : ℚ) ≤ 1/2 ∧
    struct_iou (ETree.mk 0 (0, 1) (1, 1) "NT" [Sum.inl "x"])
        (ETree.mk 0 (0, 1) (1, 1) "NT" [Sum.inl "x"]) (1/2) true ≤
      struct_iou (ETree.mk 0 (0, 1) (1, 1) "NT" [Sum.inl "x"])
        (ETree.mk 0 (0, 1) (1, 1) "NT" [Sum.inl "x"]) 0 true :=
  ⟨by decide, by norm_num,
   (claim_C4 _ _ 0 (1/2) true (by decide) (by decide) (by decide) (by decide)
     (by norm_num)).1⟩

end StructIoU
